import Mathlib

/-!
# Schema inference engine of `jsonschema/infer.go`

A shallow embedding of the incremental JSON-schema inference engine
(`Infer.Apply`, `apply`, `applyType`, `hasType`, `replaceType`) together with
theorems about the tree it builds.

Modelling conventions.

* A Go `*RawSchema` that is exclusively owned by its parent is a value of the
  inductive type `RawSchema`; in-place mutation becomes state passing.
* Only the fields of `RawSchema` that the engine reads or writes are kept:
  `Type`, `Nullable`, `Properties`, `Required`, `Items`, `OneOf`.
  `Properties` distinguishes the nil slice (`none`) from a non-nil slice,
  because the engine uses that difference as its first-object sentinel.
  `Items` is a pointer to a `RawItems` whose `Item` is again a pointer, hence
  the two `Option` layers.
* The `jx` decoder is an external library.  Its input is modelled by the tree
  `JValue` of what the decoder reports: the kind returned by `Next`, whether
  `Num`, `Skip`, `Arr` and `Obj` succeed, and for numbers the result of
  `Num.IsInt`.  Malformed input is represented by the constructors
  `invalid`, `badNum`, `badStr`, `badNull`, `badBool`, `arrCut`, `objCut`.
* Go maps used as sets or finite maps are association lists; the randomised
  iteration order of a Go map is immaterial because every list written from a
  map is sorted afterwards.
* `Required` is a list of names; the nil slice and the empty slice are not
  told apart. Names and tags are Lean strings, compared lexicographically by
  code point, which is the byte order of their UTF-8 encoding.
* `slices.Sort` and `slices.SortStableFunc` are modelled by insertion sort,
  which is stable; a stable sort has only one possible result.

The definitions come first: the data model, the engine, then the predicates,
relations and proof devices that the statements and proofs use. The theorems
follow, grouped by subject.
-/

/-! ## Data model -/

/-- Modelled from the spec: the declaration of the schema node `RawSchema`
(with `RawType`, `RawProperty`, `RawProperties` and `RawItems`) is not among
the source files. The fields are those the engine and its tests use, which are
the six fields of the spec's schema node: type markers, nullable, properties,
required, items, alternatives. `Typ` is the field `Type`. -/
inductive RawSchema where
  | mk (Typ : List String) (Nullable : Bool)
       (Properties : Option (List (String × RawSchema)))
       (Required : List String)
       (Items : Option (Option RawSchema))
       (OneOf : List RawSchema)

/-- Modelled from the spec: a `RawProperty` is a pair of `Name` and `Schema`
(its declaration is not among the source files). -/
abbrev RawProperty := String × RawSchema

namespace RawSchema

/-- Field `Type`. -/
def Typ : RawSchema → List String
  | mk t _ _ _ _ _ => t

/-- Field `Nullable`. -/
def Nullable : RawSchema → Bool
  | mk _ n _ _ _ _ => n

/-- Field `Properties`; `none` is the nil slice. -/
def Properties : RawSchema → Option (List RawProperty)
  | mk _ _ p _ _ _ => p

/-- Field `Required`. -/
def Required : RawSchema → List String
  | mk _ _ _ r _ _ => r

/-- Field `Items`; the inner option is `Items.Item`. -/
def Items : RawSchema → Option (Option RawSchema)
  | mk _ _ _ _ i _ => i

/-- Field `OneOf`. -/
def OneOf : RawSchema → List RawSchema
  | mk _ _ _ _ _ o => o

/-- The zero value `RawSchema{}`. -/
def empty : RawSchema := mk [] false none [] none []

/-- The literal `RawSchema{Type: RawType{tt}}`. -/
def ofType (tt : String) : RawSchema := mk [tt] false none [] none []

/-- Assignment `s.Type = t`. -/
def setTyp (s : RawSchema) (t : List String) : RawSchema :=
  mk t s.Nullable s.Properties s.Required s.Items s.OneOf

/-- Assignment `s.Nullable = b`. -/
def setNullable (s : RawSchema) (b : Bool) : RawSchema :=
  mk s.Typ b s.Properties s.Required s.Items s.OneOf

/-- Assignment `s.Properties = p`. -/
def setProperties (s : RawSchema) (p : Option (List RawProperty)) : RawSchema :=
  mk s.Typ s.Nullable p s.Required s.Items s.OneOf

/-- Assignment `s.Required = r`. -/
def setRequired (s : RawSchema) (r : List String) : RawSchema :=
  mk s.Typ s.Nullable s.Properties r s.Items s.OneOf

/-- Assignment `s.Items = i`. -/
def setItems (s : RawSchema) (i : Option (Option RawSchema)) : RawSchema :=
  mk s.Typ s.Nullable s.Properties s.Required i s.OneOf

/-- Assignment `s.OneOf = o`. -/
def setOneOf (s : RawSchema) (o : List RawSchema) : RawSchema :=
  mk s.Typ s.Nullable s.Properties s.Required s.Items o

end RawSchema

/-- What the `jx` decoder reports for the next value of its input. -/
inductive JValue where
  /-- a string; `Next` is `String` and `Skip` succeeds -/
  | str (s : String)
  /-- a number; `Next` is `Number`, `Num` succeeds, `isInt` is `Num.IsInt` -/
  | num (isInt : Bool)
  /-- the literal `null` -/
  | null
  /-- the literals `true` and `false` -/
  | bool (b : Bool)
  /-- a complete array -/
  | arr (xs : List JValue)
  /-- a complete object, keys in input order (duplicates possible) -/
  | obj (kvs : List (String × JValue))
  /-- input on which `Next` reports `Invalid` (such as the empty input) -/
  | invalid
  /-- input that starts like a number but on which `Num` fails -/
  | badNum
  /-- input that starts like a string but on which `Skip` fails -/
  | badStr
  /-- input that starts like `null` but on which `Skip` fails -/
  | badNull
  /-- input that starts like a boolean but on which `Skip` fails -/
  | badBool
  /-- an array whose elements `xs` are delivered and whose decoding then fails -/
  | arrCut (xs : List JValue)
  /-- an object whose fields `kvs` are delivered and whose decoding then fails -/
  | objCut (kvs : List (String × JValue))

mutual
/-- Well-formed JSON values: no decoding step fails anywhere inside. -/
def JValue.wellFormed : JValue → Bool
  | .str _ => true
  | .num _ => true
  | .null => true
  | .bool _ => true
  | .arr xs => JValue.wellFormedList xs
  | .obj kvs => JValue.wellFormedFields kvs
  | _ => false
/-- Every element of an array is well formed. -/
def JValue.wellFormedList : List JValue → Bool
  | [] => true
  | x :: xs => x.wellFormed && JValue.wellFormedList xs
/-- Every field value of an object is well formed. -/
def JValue.wellFormedFields : List (String × JValue) → Bool
  | [] => true
  | kv :: kvs => kv.2.wellFormed && JValue.wellFormedFields kvs
end

/-! ## The engine -/

/-- Function `hasType`: is `tt` among the node's own tags or the tags of one
of its alternatives. -/
def hasType (s : RawSchema) (tt : String) : Bool :=
  s.Typ.any (fun t => t == tt) || s.OneOf.any (fun v => v.Typ.any (fun t => t == tt))

/-- Function `applyType`. The method `RawType.IsEmpty`, whose declaration is
not among the source files, tests for the empty tag list. -/
def applyType (s : RawSchema) (tt : String) : RawSchema :=
  if hasType s tt then s
  else if s.OneOf.length > 0 then s.setOneOf (s.OneOf ++ [RawSchema.ofType tt])
  else if s.Typ.isEmpty then s.setTyp [tt]
  else RawSchema.mk [] false none [] none [s, RawSchema.ofType tt]

/-- The loop of `replaceType` over one tag list: the list with the first
occurrence of `src` overwritten by `dst`, or `none` when `src` does not occur
(`src`, `dst` are the parameters `from`, `to`). The source writes `RawType{to}`
when the list has length one and a copy with position `i` overwritten
otherwise; both are the list computed here. -/
def replaceTag : List String → String → String → Option (List String)
  | [], _, _ => none
  | t :: ts, src, dst =>
    if t == src then some (dst :: ts)
    else (replaceTag ts src dst).map (fun ts1 => t :: ts1)

/-- The second loop of `replaceType`: the first alternative that carries
`src` gets it overwritten. -/
def replaceInOneOf : List RawSchema → String → String → Option (List RawSchema)
  | [], _, _ => none
  | v :: vs, src, dst =>
    match replaceTag v.Typ src dst with
    | some ts => some (v.setTyp ts :: vs)
    | none => (replaceInOneOf vs src dst).map (fun vs1 => v :: vs1)

/-- Function `replaceType`; the Boolean is its return value. -/
def replaceType (s : RawSchema) (src dst : String) : RawSchema × Bool :=
  match replaceTag s.Typ src dst with
  | some ts => (s.setTyp ts, true)
  | none =>
    match replaceInOneOf s.OneOf src dst with
    | some vs => (s.setOneOf vs, true)
    | none => (s, false)

/-- The map `props` built from `s.Properties`: name to position of the child
schema (the position stands for the pointer). A later entry overwrites an
earlier one of the same name. -/
def collectProps : List RawProperty → Nat → List (String × Nat) → List (String × Nat)
  | [], _, m => m
  | p :: ps, i, m => collectProps ps (i + 1) ((p.1, i) :: m)

/-- The child schema stored at position `i` of the property list. -/
def propAt (ps : List RawProperty) (i : Nat) : RawSchema :=
  match ps.get? i with
  | some p => p.2
  | none => RawSchema.empty

/-- Overwrite the child schema stored at position `i` of the property list. -/
def setPropAt : List RawProperty → Nat → RawSchema → List RawProperty
  | [], _, _ => []
  | p :: ps, 0, c => (p.1, c) :: ps
  | p :: ps, i + 1, c => p :: setPropAt ps i c

/-- The order `strings.Compare(a, b) <= 0` (lexicographic on code points,
which coincides with the byte order of UTF-8). -/
def nameLE (a b : String) : Prop := a.data ≤ b.data

instance nameLE_decidable : DecidableRel nameLE :=
  fun a b => inferInstanceAs (Decidable (a.data ≤ b.data))

/-- The call `slices.Sort(s.Required)`. -/
def sortRequired (r : List String) : List String :=
  r.insertionSort nameLE

/-- The call `slices.SortStableFunc(s.Properties, ...)` comparing names. -/
def sortProperties (ps : List RawProperty) : List RawProperty :=
  ps.insertionSort (fun a b => nameLE a.1 b.1)

/-- State of the `d.Obj` loop: the node, the sets `required` and `this`. -/
structure ObjState where
  s : RawSchema
  required : List String
  this : List String

/-- The node's property list (empty for the nil slice). -/
def RawSchema.props (s : RawSchema) : List RawProperty :=
  s.Properties.getD []

/-- The node `s.Items.Item`, allocated if absent. -/
def RawSchema.item (s : RawSchema) : RawSchema :=
  match s.Items with
  | some (some it) => it
  | _ => RawSchema.empty

/-- The `jx.Object` case of `apply` before the `d.Obj` loop: the type marker
is applied and the first-object sentinel is read and set. The result is the
node and `firstApply`. -/
def objBegin (s : RawSchema) : RawSchema × Bool :=
  let s1 := applyType s "object"
  let firstApply := s1.Properties.isNone
  (if firstApply then s1.setProperties (some []) else s1, firstApply)

/-- The set `required` collected from `s.Required`. -/
def collectRequired (r : List String) : List String :=
  r.foldl (fun m key => m.insert key) []

/-- The loop state on entry of the `d.Obj` loop. -/
def objInit (s : RawSchema) : ObjState :=
  ⟨(objBegin s).1, collectRequired (objBegin s).1.Required, []⟩

/-- The `jx.Object` case of `apply` after the `d.Obj` loop. `r` is the
outcome of the loop and `closed` tells whether the object ends properly after
its last field. On an error the function returns before `Required` is written
and before anything is sorted. -/
def objEnd (closed : Bool) (r : ObjState × Bool) : RawSchema × Bool :=
  if r.2 && closed then
    let required := r.1.required.filter (fun key => r.1.this.contains key)
    (((r.1.s.setRequired (sortRequired required)).setProperties
        (some (sortProperties r.1.s.props))), true)
  else (r.1.s, false)

mutual
/-- Function `apply`. The Boolean is `true` when the returned error is nil. -/
def apply (s : RawSchema) : JValue → RawSchema × Bool
  | .str _ => (applyType s "string", true)
  | .badStr => (applyType s "string", false)
  | .num isInt =>
    if isInt && !hasType s "number" then (applyType s "integer", true)
    else if (replaceType s "integer" "number").2 then
      ((replaceType s "integer" "number").1, true)
    else (applyType s "number", true)
  | .badNum => (s, false)
  | .null => (s.setNullable true, true)
  | .badNull => (s.setNullable true, false)
  | .bool _ => (applyType s "boolean", true)
  | .badBool => (applyType s "boolean", false)
  | .arr xs => applyArr (applyType s "array") true xs
  | .arrCut xs => applyArr (applyType s "array") false xs
  | .obj kvs =>
    objEnd true (applyFields (collectProps (objBegin s).1.props 0 []) (objBegin s).2
      (objInit s) kvs)
  | .objCut kvs =>
    objEnd false (applyFields (collectProps (objBegin s).1.props 0 []) (objBegin s).2
      (objInit s) kvs)
  | .invalid => (s, false)
/-- The callback loop of `d.Arr`; `closed` tells whether the array ends
properly after its last element. -/
def applyArr (s : RawSchema) (closed : Bool) : List JValue → RawSchema × Bool
  | [] => (s, closed)
  | x :: xs =>
    if (apply s.item x).2 then applyArr (s.setItems (some (some (apply s.item x).1))) closed xs
    else (s.setItems (some (some (apply s.item x).1)), false)
/-- The callback loop of `d.Obj`. -/
def applyFields (props : List (String × Nat)) (firstApply : Bool) (st : ObjState) :
    List (String × JValue) → ObjState × Bool
  | [] => (st, true)
  | (key, v) :: kvs =>
    match props.lookup key with
    | some i =>
      if (apply (propAt st.s.props i) v).2 then
        applyFields props firstApply
          ⟨st.s.setProperties (some (setPropAt st.s.props i (apply (propAt st.s.props i) v).1)),
            st.required, st.this.insert key⟩ kvs
      else
        (⟨st.s.setProperties (some (setPropAt st.s.props i (apply (propAt st.s.props i) v).1)),
            st.required, st.this.insert key⟩, false)
    | none =>
      if (apply RawSchema.empty v).2 then
        applyFields props firstApply
          ⟨st.s.setProperties (some (st.s.props ++ [(key, (apply RawSchema.empty v).1)])),
            if firstApply then st.required.insert key else st.required,
            st.this.insert key⟩ kvs
      else
        (⟨st.s, if firstApply then st.required.insert key else st.required,
            st.this.insert key⟩, false)
end

/-- The engine `Infer`. -/
structure Infer where
  target : RawSchema

/-- The zero value `var i Infer`. -/
def Infer.fresh : Infer := ⟨RawSchema.empty⟩

/-- Method `Target`. -/
def Infer.Target (i : Infer) : RawSchema := i.target

/-- Method `Apply` on the decoder input `data`. -/
def Infer.Apply (i : Infer) (data : JValue) : Infer × Bool :=
  ((⟨(apply i.target data).1⟩ : Infer), (apply i.target data).2)

/-- Apply a sequence of inputs in order, requiring each call to succeed. -/
def Infer.applyAll (i : Infer) : List JValue → Option Infer
  | [] => some i
  | v :: vs => if (i.Apply v).2 then (i.Apply v).1.applyAll vs else none

/-- All inputs applied in order, the error results being ignored. -/
def applySeq (s : RawSchema) (vs : List JValue) : RawSchema :=
  vs.foldl (fun s v => (apply s v).1) s

/-! ## Predicates, relations and proof devices used below -/

/-- The marker update performed by `apply` before it descends into the value
(a proof device: the first statement of each case of `apply`). -/
def markStep (s : RawSchema) : JValue → RawSchema
  | .str _ => applyType s "string"
  | .badStr => applyType s "string"
  | .num isInt =>
    if isInt && !hasType s "number" then applyType s "integer"
    else if (replaceType s "integer" "number").2 then (replaceType s "integer" "number").1
    else applyType s "number"
  | .badNum => s
  | .null => s.setNullable true
  | .badNull => s.setNullable true
  | .bool _ => applyType s "boolean"
  | .badBool => applyType s "boolean"
  | .arr _ => applyType s "array"
  | .arrCut _ => applyType s "array"
  | .obj _ => applyType s "object"
  | .objCut _ => applyType s "object"
  | .invalid => s

/-- The nullable flag is recorded at the node: on the node itself or on its
first alternative. -/
def nullRecorded (s : RawSchema) : Prop :=
  s.Nullable = true ∨ ∃ a rest, s.OneOf = a :: rest ∧ a.Nullable = true

/-- The item schema is tracked: `Items.Item` is never a nil pointer behind a
non-nil `Items`, and a node that has an item schema carries the tag "array". -/
def itemsTracked (s : RawSchema) : Prop :=
  s.Items ≠ some none ∧ (s.Items ≠ none → hasType s "array" = true)

/-- A node that has seen an object: it carries the tag "object" and its
property list is not nil. -/
def objectSeen (s : RawSchema) : Prop :=
  hasType s "object" = true ∧ s.Properties.isSome = true

/-- Strings, booleans and numbers. -/
def JValue.isScalar : JValue → Bool
  | .str _ => true
  | .num _ => true
  | .bool _ => true
  | _ => false

/-- The node that carries exactly the tags `ts` (a proof device). -/
def RawSchema.ofTags : List String → RawSchema
  | [] => RawSchema.empty
  | [t] => RawSchema.ofType t
  | t :: u :: ts => RawSchema.mk [] false none [] none ((t :: u :: ts).map RawSchema.ofType)

/-- Adding a tag to a tag list unless it is present (a proof device). -/
def addTag (ts : List String) (tt : String) : List String :=
  if tt ∈ ts then ts else ts ++ [tt]

/-- The tags of a node in order: its own markers, then those of its
alternatives (a proof device; `hasType` tests membership in this list). -/
def RawSchema.tags (s : RawSchema) : List String :=
  s.Typ ++ s.OneOf.flatMap RawSchema.Typ

/-- The effect of a value on the tag list of a node: `markStep` seen through
`RawSchema.tags` (a proof device). -/
def tagStep (ts : List String) : JValue → List String
  | .str _ => addTag ts "string"
  | .badStr => addTag ts "string"
  | .bool _ => addTag ts "boolean"
  | .badBool => addTag ts "boolean"
  | .arr _ => addTag ts "array"
  | .arrCut _ => addTag ts "array"
  | .obj _ => addTag ts "object"
  | .objCut _ => addTag ts "object"
  | .num isInt =>
    if isInt && !decide ("number" ∈ ts) then addTag ts "integer"
    else
      match replaceTag ts "integer" "number" with
      | some ts1 => ts1
      | none => addTag ts "number"
  | _ => ts

/-- The tag that a well-formed value other than a number or `null` stands for. -/
def kindTag : JValue → Option String
  | .str _ => some "string"
  | .bool _ => some "boolean"
  | .arr _ => some "array"
  | .obj _ => some "object"
  | _ => none

/-- The tag list is duplicate free and does not hold "integer" next to
"number". -/
def TagsOk (ts : List String) : Prop :=
  ts.Nodup ∧ ¬ ("integer" ∈ ts ∧ "number" ∈ ts)

/-- The tags a sequence of well-formed values leaves at a node: the tag of
every string, boolean, array and object that occurs, "number" if a
non-integral number occurs, "integer" if numbers occur and all of them are
integral. -/
def tagSeen (vs : List JValue) (t : String) : Prop :=
  (∃ v ∈ vs, kindTag v = some t) ∨
  (t = "number" ∧ JValue.num false ∈ vs) ∨
  (t = "integer" ∧ JValue.num true ∈ vs ∧ JValue.num false ∉ vs)

mutual
/-- Two trees are structurally identical up to the order of the alternatives
inside each union branch list. -/
inductive SameTree : RawSchema → RawSchema → Prop
  | node (a b : RawSchema) (hT : a.Typ = b.Typ) (hN : a.Nullable = b.Nullable)
      (hR : a.Required = b.Required) (hP : SameProps a.Properties b.Properties)
      (hI : SameItems a.Items b.Items) (hO : SameAlts a.OneOf b.OneOf) : SameTree a b
/-- Property lists: both nil, or of the same names in the same order with
children that are the same tree. -/
inductive SameProps : Option (List RawProperty) → Option (List RawProperty) → Prop
  | none : SameProps none none
  | some (ps qs : List RawProperty) (h : SamePropList ps qs) : SameProps (some ps) (some qs)
/-- Property lists entry by entry. -/
inductive SamePropList : List RawProperty → List RawProperty → Prop
  | nil : SamePropList [] []
  | cons (k : String) (c d : RawSchema) (ps qs : List RawProperty) (h : SameTree c d)
      (hps : SamePropList ps qs) : SamePropList ((k, c) :: ps) ((k, d) :: qs)
/-- Item schemas: both absent or the same tree. -/
inductive SameItems : Option (Option RawSchema) → Option (Option RawSchema) → Prop
  | none : SameItems none none
  | noItem : SameItems (some none) (some none)
  | item (c d : RawSchema) (h : SameTree c d) : SameItems (some (some c)) (some (some d))
/-- Alternative lists: the same trees in some order. -/
inductive SameAlts : List RawSchema → List RawSchema → Prop
  | nil : SameAlts [] []
  | cons (a b : RawSchema) (l m1 m2 : List RawSchema) (h : SameTree a b)
      (hl : SameAlts l (m1 ++ m2)) : SameAlts (a :: l) (m1 ++ b :: m2)
end

mutual
/-- All nodes of a tree: the node itself, and the nodes of its property
schemas, of its item schema and of its alternatives. -/
def RawSchema.nodes : RawSchema → List RawSchema
  | .mk t n p r i o =>
    RawSchema.mk t n p r i o :: (nodesOfProperties p ++ nodesOfItems i ++ nodesOfList o)
/-- Nodes below a property list that may be nil. -/
def nodesOfProperties : Option (List (String × RawSchema)) → List RawSchema
  | none => []
  | some ps => nodesOfPropList ps
/-- Nodes below a property list. -/
def nodesOfPropList : List (String × RawSchema) → List RawSchema
  | [] => []
  | p :: ps => nodesOfProp p ++ nodesOfPropList ps
/-- Nodes below a property. -/
def nodesOfProp : String × RawSchema → List RawSchema
  | (_, c) => c.nodes
/-- Nodes below `Items`. -/
def nodesOfItems : Option (Option RawSchema) → List RawSchema
  | none => []
  | some i => nodesOfItem i
/-- Nodes below `Items.Item`. -/
def nodesOfItem : Option RawSchema → List RawSchema
  | none => []
  | some c => c.nodes
/-- Nodes below a list of alternatives. -/
def nodesOfList : List RawSchema → List RawSchema
  | [] => []
  | a :: l => a.nodes ++ nodesOfList l
end

/-- Every node of the tree satisfies `P`. -/
def AllNodes (P : RawSchema → Prop) (s : RawSchema) : Prop :=
  ∀ n ∈ s.nodes, P n

/-- The shape of a node with respect to branching: at most one tag of its
own, none when it has alternatives, and alternatives that carry exactly one
tag and no alternatives of their own. -/
def unionShape (n : RawSchema) : Prop :=
  n.Typ.length ≤ 1 ∧ (n.OneOf ≠ [] → n.Typ = []) ∧
    ∀ a ∈ n.OneOf, a.Typ.length = 1 ∧ a.OneOf = []

/-- The tags the engine writes. -/
def typeTags : List String :=
  ["string", "integer", "number", "boolean", "array", "object"]

/-- The property list is in ascending order of name and the required list is
in strictly ascending order. -/
def sortedLists (n : RawSchema) : Prop :=
  (n.props.map Prod.fst).Sorted (fun a b => a ≤ b) ∧ n.Required.Sorted (fun a b => a < b)

/-- What the decoder reports on the malformed inputs of the test `Bad`, in the
order of the test:
the empty input and `r` (`Next` is `Invalid`);
`-..` (`Next` is `Number`, `Num` fails);
`{` and `[` (the object or array is opened, then the input ends before any
field or element);
`[{` (the array delivers one element, an object that is opened and then ends);
`[{}` (the array delivers the element `{}` and then ends without `]`);
`{"foo": [-..]}` (the object delivers the field `foo`, an array whose first
element starts like a number on which `Num` fails; decoding stops there). -/
def badInputs : List JValue :=
  [.invalid, .invalid, .badNum, .objCut [], .arrCut [], .arrCut [.objCut []],
    .arrCut [.obj []], .obj [("foo", .arr [.badNum])]]

mutual
/-- No object inside the value, at any depth, has a repeated key. -/
def JValue.distinctKeys : JValue → Bool
  | .arr xs => JValue.distinctKeysList xs
  | .arrCut xs => JValue.distinctKeysList xs
  | .obj kvs => decide (kvs.map Prod.fst).Nodup && JValue.distinctKeysFields kvs
  | .objCut kvs => decide (kvs.map Prod.fst).Nodup && JValue.distinctKeysFields kvs
  | _ => true
/-- No element of the array has a repeated key inside. -/
def JValue.distinctKeysList : List JValue → Bool
  | [] => true
  | x :: xs => x.distinctKeys && JValue.distinctKeysList xs
/-- No field value of the object has a repeated key inside. -/
def JValue.distinctKeysFields : List (String × JValue) → Bool
  | [] => true
  | kv :: kvs => kv.2.distinctKeys && JValue.distinctKeysFields kvs
end

/-- The kind of a value; numbers, integral or not, are one kind. -/
def JValue.kind : JValue → String
  | .str _ => "string"
  | .num _ => "number"
  | .bool _ => "boolean"
  | .arr _ => "array"
  | .obj _ => "object"
  | .null => "null"
  | _ => "invalid"

/-- Strings, booleans, numbers and the empty array: the values that leave
nothing but a type tag at a node. -/
def JValue.isPlain : JValue → Bool
  | .str _ => true
  | .num _ => true
  | .bool _ => true
  | .arr [] => true
  | _ => false

/-- The elements of an array; no elements for a value of another kind. -/
def JValue.elems : JValue → List JValue
  | .arr xs => xs
  | _ => []

/-- The keys of an object; no keys for a value of another kind. -/
def JValue.keys : JValue → List String
  | .obj kvs => kvs.map Prod.fst
  | _ => []

/-- The elements of the arrays of a sequence, in order: the values that reach
the item schema of the node that receives the sequence. -/
def elemsOf (vs : List JValue) : List JValue :=
  vs.flatMap JValue.elems

/-- The value of the key `k` in an object. -/
def fieldOf (k : String) : JValue → Option JValue
  | .obj kvs => kvs.lookup k
  | _ => none

/-- The values of the key `k` in the objects of a sequence, in order: the
values that reach the property `k` of the node that receives the sequence. -/
def valuesOf (k : String) (vs : List JValue) : List JValue :=
  vs.filterMap (fieldOf k)

/-- Two sequences of values deliver to every node values whose order of
arrival cannot show in the tree. The values that reach a node in the two runs
are the same values in the same order; or they are permutations of each other
and are strings, booleans, numbers and empty arrays only; or they are
permutations of each other and are, apart from `null`, all of one kind
(objects with pairwise distinct keys), and the same holds for the values that
reach the item schema and every property. What is left out is a node that
receives, in two different orders, values of two kinds next to a `null`, a
non-empty array or an object. -/
inductive Agree : List JValue → List JValue → Prop
  | same (vs : List JValue) : Agree vs vs
  | plain (vs ws : List JValue) (hp : vs.Perm ws) (h : ∀ v ∈ vs, v.isPlain = true) :
      Agree vs ws
  | oneKind (vs ws : List JValue) (c : String) (hp : vs.Perm ws)
      (h : ∀ v ∈ vs, v.kind = "null" ∨ v.kind = c)
      (hkeys : ∀ v ∈ vs, v.keys.Nodup)
      (he : Agree (elemsOf vs) (elemsOf ws))
      (hk : ∀ k, Agree (valuesOf k vs) (valuesOf k ws)) : Agree vs ws

/-- A node that has not branched and whose own marker, if any, is a tag of the
kind `c` (a proof device). -/
def unbranched (c : String) (s : RawSchema) : Prop :=
  s.OneOf = [] ∧ (s.Typ = [] ∨ s.Typ = [c] ∨ (c = "number" ∧ s.Typ = ["integer"]))

/-! ## Basic facts -/

attribute [simp] RawSchema.setTyp RawSchema.setNullable
  RawSchema.setProperties RawSchema.setRequired RawSchema.setItems RawSchema.setOneOf

section
variable (t : List String) (n : Bool) (p : Option (List (String × RawSchema)))
  (r : List String) (i : Option (Option RawSchema)) (o : List RawSchema)

@[simp] theorem RawSchema.Typ_mk : (RawSchema.mk t n p r i o).Typ = t := rfl
@[simp] theorem RawSchema.Nullable_mk : (RawSchema.mk t n p r i o).Nullable = n := rfl
@[simp] theorem RawSchema.Properties_mk : (RawSchema.mk t n p r i o).Properties = p := rfl
@[simp] theorem RawSchema.Required_mk : (RawSchema.mk t n p r i o).Required = r := rfl
@[simp] theorem RawSchema.Items_mk : (RawSchema.mk t n p r i o).Items = i := rfl
@[simp] theorem RawSchema.OneOf_mk : (RawSchema.mk t n p r i o).OneOf = o := rfl
@[simp] theorem RawSchema.props_mk : (RawSchema.mk t n p r i o).props = p.getD [] := rfl

end

@[simp] theorem RawSchema.mk_eta (s : RawSchema) :
    RawSchema.mk s.Typ s.Nullable s.Properties s.Required s.Items s.OneOf = s := by
  cases s; rfl

/-- Induction over decoder inputs, with the induction hypothesis available for
every element of an array and every field value of an object. -/
theorem JValue.induct {P : JValue → Prop}
    (str : ∀ s, P (.str s)) (num : ∀ b, P (.num b)) (null : P .null)
    (bool : ∀ b, P (.bool b))
    (arr : ∀ xs, (∀ x ∈ xs, P x) → P (.arr xs))
    (obj : ∀ kvs : List (String × JValue), (∀ kv ∈ kvs, P kv.2) → P (.obj kvs))
    (invalid : P .invalid) (badNum : P .badNum) (badStr : P .badStr)
    (badNull : P .badNull) (badBool : P .badBool)
    (arrCut : ∀ xs, (∀ x ∈ xs, P x) → P (.arrCut xs))
    (objCut : ∀ kvs : List (String × JValue), (∀ kv ∈ kvs, P kv.2) → P (.objCut kvs)) :
    ∀ v, P v := by
  intro v
  refine @JValue.rec P (fun xs => ∀ x ∈ xs, P x)
    (fun kvs => ∀ kv ∈ kvs, P kv.2) (fun kv => P kv.2)
    str num null bool (fun xs h => arr xs h) (fun kvs h => obj kvs h)
    invalid badNum badStr badNull badBool (fun xs h => arrCut xs h)
    (fun kvs h => objCut kvs h) ?_ ?_ ?_ ?_ ?_ v
  · intro x hx; cases hx
  · intro x xs hx hxs y hy
    rcases List.mem_cons.1 hy with rfl | h
    · exact hx
    · exact hxs y h
  · intro kv hkv; cases hkv
  · intro kv kvs hkv hkvs y hy
    rcases List.mem_cons.1 hy with rfl | h
    · exact hkv
    · exact hkvs y h
  · intro k v hv; exact hv

theorem JValue.wellFormedList_iff (xs : List JValue) :
    JValue.wellFormedList xs = true ↔ ∀ x ∈ xs, x.wellFormed = true := by
  induction xs with
  | nil => simp [JValue.wellFormedList]
  | cons x xs ih => simp [JValue.wellFormedList, ih]

theorem JValue.wellFormedFields_iff (kvs : List (String × JValue)) :
    JValue.wellFormedFields kvs = true ↔ ∀ kv ∈ kvs, kv.2.wellFormed = true := by
  induction kvs with
  | nil => simp [JValue.wellFormedFields]
  | cons kv kvs ih => simp [JValue.wellFormedFields, ih]

theorem applyArr_ok (xs : List JValue)
    (h : ∀ x ∈ xs, ∀ s, (apply s x).2 = true) (s : RawSchema) :
    (applyArr s true xs).2 = true := by
  induction xs generalizing s with
  | nil => simp [applyArr]
  | cons x xs ih =>
    have hx := h x (List.mem_cons_self _ _) s.item
    simp only [applyArr, hx, if_true]
    exact ih (fun y hy => h y (List.mem_cons_of_mem _ hy)) _

theorem applyFields_ok (kvs : List (String × JValue))
    (h : ∀ kv ∈ kvs, ∀ s, (apply s kv.2).2 = true)
    (props : List (String × Nat)) (fa : Bool) (st : ObjState) :
    (applyFields props fa st kvs).2 = true := by
  induction kvs generalizing st with
  | nil => simp [applyFields]
  | cons kv kvs ih =>
    obtain ⟨key, v⟩ := kv
    have hv : ∀ s, (apply s v).2 = true := h (key, v) (List.mem_cons_self _ _)
    have ih1 := fun st => ih (fun y hy => h y (List.mem_cons_of_mem _ hy)) st
    simp only [applyFields]
    cases hl : props.lookup key with
    | none => simp only [hv, if_true]; exact ih1 _
    | some i => simp only [hv, if_true]; exact ih1 _

/-- A well-formed value is applied without error, whatever the node. -/
theorem apply_ok : ∀ (v : JValue), v.wellFormed = true → ∀ s, (apply s v).2 = true := by
  intro v
  induction v using JValue.induct with
  | str s => intro _ s; simp [apply]
  | num b => intro _ s; simp only [apply]; split_ifs <;> rfl
  | null => intro _ s; simp [apply]
  | bool b => intro _ s; simp [apply]
  | arr xs ih =>
    intro h s
    rw [JValue.wellFormed, JValue.wellFormedList_iff] at h
    simp only [apply]
    exact applyArr_ok xs (fun x hx => ih x hx (h x hx)) _
  | obj kvs ih =>
    intro h s
    rw [JValue.wellFormed, JValue.wellFormedFields_iff] at h
    simp only [apply, objEnd]
    rw [applyFields_ok kvs (fun kv hkv => ih kv hkv (h kv hkv))]
    simp
  | invalid => intro h; simp [JValue.wellFormed] at h
  | badNum => intro h; simp [JValue.wellFormed] at h
  | badStr => intro h; simp [JValue.wellFormed] at h
  | badNull => intro h; simp [JValue.wellFormed] at h
  | badBool => intro h; simp [JValue.wellFormed] at h
  | arrCut xs ih => intro h; simp [JValue.wellFormed] at h
  | objCut kvs ih => intro h; simp [JValue.wellFormed] at h

theorem applyAll_eq (vs : List JValue) (h : ∀ v ∈ vs, v.wellFormed = true) (s : RawSchema) :
    Infer.applyAll ⟨s⟩ vs = some ⟨applySeq s vs⟩ := by
  induction vs generalizing s with
  | nil => rfl
  | cons v vs ih =>
    have hv := apply_ok v (h v (List.mem_cons_self _ _)) s
    simp only [Infer.applyAll, Infer.Apply, hv, if_true, applySeq, List.foldl_cons]
    exact ih (fun y hy => h y (List.mem_cons_of_mem _ hy)) _

/-! ## Numbers -/

@[simp] theorem applySeq_nil (s : RawSchema) : applySeq s [] = s := rfl

@[simp] theorem applySeq_cons (s : RawSchema) (v : JValue) (vs : List JValue) :
    applySeq s (v :: vs) = applySeq (apply s v).1 vs := rfl

theorem applySeq_append (s : RawSchema) (vs ws : List JValue) :
    applySeq s (vs ++ ws) = applySeq (applySeq s vs) ws := by
  simp [applySeq, List.foldl_append]

theorem apply_num_empty (b : Bool) :
    (apply RawSchema.empty (.num b)).1 = RawSchema.ofType (if b then "integer" else "number") := by
  cases b <;> rfl

theorem apply_num_integer (b : Bool) :
    (apply (RawSchema.ofType "integer") (.num b)).1
      = RawSchema.ofType (if b then "integer" else "number") := by
  cases b <;> rfl

theorem apply_num_number (b : Bool) :
    (apply (RawSchema.ofType "number") (.num b)).1 = RawSchema.ofType "number" := by
  cases b <;> rfl

theorem applySeq_num_number (ns : List Bool) :
    applySeq (RawSchema.ofType "number") (ns.map JValue.num) = RawSchema.ofType "number" := by
  induction ns with
  | nil => rfl
  | cons b ns ih => rw [List.map_cons, applySeq_cons, apply_num_number, ih]

theorem applySeq_num_integer (ns : List Bool) :
    applySeq (RawSchema.ofType "integer") (ns.map JValue.num)
      = RawSchema.ofType (if ns.all (fun b => b) then "integer" else "number") := by
  induction ns with
  | nil => rfl
  | cons b ns ih =>
    rw [List.map_cons, applySeq_cons, apply_num_integer]
    cases b
    · simpa using applySeq_num_number ns
    · simpa using ih

theorem wellFormed_map_num (ns : List Bool) : ∀ v ∈ ns.map JValue.num, v.wellFormed = true := by
  intro v hv
  obtain ⟨b, _, rfl⟩ := List.mem_map.1 hv
  rfl

/-- C1. Every non-empty sequence of JSON numbers applied in order to a fresh
engine is accepted and leaves a root without alternatives whose only type
marker is "integer" when all numbers are integral and "number" as soon as one
of them, at any position, is not. -/
theorem numbers_infer_integer_or_number (ns : List Bool) (h : ns ≠ []) :
    ∃ i, Infer.fresh.applyAll (ns.map JValue.num) = some i ∧
      i.Target.OneOf = [] ∧
      i.Target.Typ = [if ns.all (fun b => b) then "integer" else "number"] := by
  refine ⟨⟨applySeq RawSchema.empty (ns.map JValue.num)⟩,
    applyAll_eq _ (wellFormed_map_num ns) _, ?_⟩
  cases ns with
  | nil => exact absurd rfl h
  | cons b ns =>
    rw [Infer.Target, List.map_cons, applySeq_cons, apply_num_empty]
    cases b
    · have h1 : applySeq (RawSchema.ofType (if false = true then "integer" else "number"))
          (ns.map JValue.num) = RawSchema.ofType "number" := applySeq_num_number ns
      rw [h1]
      simp [RawSchema.ofType]
    · have h1 : applySeq (RawSchema.ofType (if true = true then "integer" else "number"))
          (ns.map JValue.num) = _ := applySeq_num_integer ns
      rw [h1]
      simp [RawSchema.ofType]

theorem numbers_infer_integer_or_number_witness :
    [true, false, true] ≠ [] ∧
    ∃ i, Infer.fresh.applyAll ([true, false, true].map JValue.num) = some i ∧
      i.Target.OneOf = [] ∧
      i.Target.Typ = [if [true, false, true].all (fun b => b) then "integer" else "number"] :=
  ⟨by decide, numbers_infer_integer_or_number [true, false, true] (by decide)⟩

/-! ## The effect of `apply` on a node's own markers

For every input the fields `Type`, `Nullable` and `OneOf` of the node after
`apply` are those of `markStep`, which performs only the marker update of the
matching case; the loops over elements and fields touch `Items`,
`Properties` and `Required` only. -/

theorem applyArr_frame (xs : List JValue) (s : RawSchema) (closed : Bool) :
    (applyArr s closed xs).1 = s.setItems (applyArr s closed xs).1.Items := by
  induction xs generalizing s with
  | nil => simp [applyArr]
  | cons x xs ih =>
    simp only [applyArr]
    split_ifs
    · rw [ih]; simp
    · simp

theorem applyFields_frame (kvs : List (String × JValue)) (props : List (String × Nat))
    (fa : Bool) (st : ObjState) :
    (applyFields props fa st kvs).1.s
      = st.s.setProperties (applyFields props fa st kvs).1.s.Properties := by
  induction kvs generalizing st with
  | nil => simp [applyFields]
  | cons kv kvs ih =>
    obtain ⟨key, v⟩ := kv
    simp only [applyFields]
    cases props.lookup key with
    | none =>
      simp only []
      by_cases h : (apply RawSchema.empty v).2 = true
      · rw [if_pos h, ih]; simp
      · rw [if_neg h]; simp
    | some i =>
      simp only []
      by_cases h : (apply (propAt st.s.props i) v).2 = true
      · rw [if_pos h, ih]; simp
      · rw [if_neg h]; simp

theorem objBegin_frame (s : RawSchema) :
    (objBegin s).1 = (applyType s "object").setProperties (objBegin s).1.Properties := by
  simp only [objBegin]
  split_ifs <;> simp

theorem objEnd_frame (closed : Bool) (r : ObjState × Bool) :
    (objEnd closed r).1
      = (r.1.s.setProperties (objEnd closed r).1.Properties).setRequired
          (objEnd closed r).1.Required := by
  simp only [objEnd]
  split_ifs <;> simp

/-- The node after `apply` carries the markers of `markStep`. -/
theorem apply_frame (s : RawSchema) (v : JValue) :
    (apply s v).1 = RawSchema.mk (markStep s v).Typ (markStep s v).Nullable
      (apply s v).1.Properties (apply s v).1.Required (apply s v).1.Items
      (markStep s v).OneOf := by
  cases v with
  | num b => simp only [apply, markStep]; split_ifs <;> simp
  | arr xs => simp only [apply, markStep]; rw [applyArr_frame]; simp
  | arrCut xs => simp only [apply, markStep]; rw [applyArr_frame]; simp
  | obj kvs =>
    simp only [apply, markStep]
    rw [objEnd_frame, applyFields_frame, objInit, objBegin_frame]; simp
  | objCut kvs =>
    simp only [apply, markStep]
    rw [objEnd_frame, applyFields_frame, objInit, objBegin_frame]; simp
  | _ => simp [apply, markStep]

theorem apply_Typ (s : RawSchema) (v : JValue) : (apply s v).1.Typ = (markStep s v).Typ := by
  rw [apply_frame]; simp

theorem apply_Nullable (s : RawSchema) (v : JValue) :
    (apply s v).1.Nullable = (markStep s v).Nullable := by
  rw [apply_frame]; simp

theorem apply_OneOf (s : RawSchema) (v : JValue) :
    (apply s v).1.OneOf = (markStep s v).OneOf := by
  rw [apply_frame]; simp

/-! ## Facts about `applyType` and `replaceType` -/

theorem replaceTag_length {ts ts1 : List String} {src dst : String}
    (h : replaceTag ts src dst = some ts1) : ts1.length = ts.length := by
  induction ts generalizing ts1 with
  | nil => simp [replaceTag] at h
  | cons t ts ih =>
    simp only [replaceTag] at h
    split_ifs at h with ht
    · cases h; simp
    · cases hr : replaceTag ts src dst with
      | none => simp [hr] at h
      | some ts2 =>
        simp [hr] at h
        subst h
        simp [ih hr]

/-- Every alternative after `replaceInOneOf` is the old alternative at the same
position with its tag list overwritten by one of the same length. -/
theorem replaceInOneOf_forall₂ {vs vs1 : List RawSchema} {src dst : String}
    (h : replaceInOneOf vs src dst = some vs1) :
    List.Forall₂ (fun a a1 => ∃ ts, a1 = a.setTyp ts ∧ ts.length = a.Typ.length) vs vs1 := by
  have hrefl : ∀ l : List RawSchema,
      List.Forall₂ (fun a a1 => ∃ ts, a1 = a.setTyp ts ∧ ts.length = a.Typ.length) l l := by
    intro l
    induction l with
    | nil => exact List.Forall₂.nil
    | cons a l ih => exact List.Forall₂.cons ⟨a.Typ, by simp, rfl⟩ ih
  induction vs generalizing vs1 with
  | nil => simp [replaceInOneOf] at h
  | cons v vs ih =>
    simp only [replaceInOneOf] at h
    cases ht : replaceTag v.Typ src dst with
    | some ts =>
      simp only [ht] at h
      cases h
      exact List.Forall₂.cons ⟨ts, rfl, replaceTag_length ht⟩ (hrefl vs)
    | none =>
      simp only [ht] at h
      cases hr : replaceInOneOf vs src dst with
      | none => simp [hr] at h
      | some vs2 =>
        simp [hr] at h
        subst h
        exact List.Forall₂.cons ⟨v.Typ, by simp, rfl⟩ (ih hr)

/-- The four outcomes of `applyType`. -/
theorem applyType_cases (s : RawSchema) (tt : String) :
    applyType s tt = s ∨
    (s.OneOf ≠ [] ∧ applyType s tt = s.setOneOf (s.OneOf ++ [RawSchema.ofType tt])) ∨
    (s.OneOf = [] ∧ s.Typ = [] ∧ applyType s tt = s.setTyp [tt]) ∨
    (s.OneOf = [] ∧ s.Typ ≠ [] ∧
      applyType s tt = RawSchema.mk [] false none [] none [s, RawSchema.ofType tt]) := by
  unfold applyType
  by_cases h1 : hasType s tt = true
  · simp [h1]
  · by_cases h2 : s.OneOf = []
    · by_cases h3 : s.Typ = []
      · right; right; left; simp [h1, h2, h3]
      · right; right; right; simp [h1, h2, h3]
    · right; left
      have : s.OneOf.length > 0 := List.length_pos.2 h2
      simp [h1, h2, this]

/-- The three outcomes of `replaceType`. -/
theorem replaceType_cases (s : RawSchema) (src dst : String) :
    (replaceTag s.Typ src dst = none ∧ replaceInOneOf s.OneOf src dst = none ∧
      replaceType s src dst = (s, false)) ∨
    (∃ ts, replaceTag s.Typ src dst = some ts ∧ replaceType s src dst = (s.setTyp ts, true)) ∨
    (∃ vs, replaceTag s.Typ src dst = none ∧ replaceInOneOf s.OneOf src dst = some vs ∧
      replaceType s src dst = (s.setOneOf vs, true)) := by
  unfold replaceType
  cases h1 : replaceTag s.Typ src dst with
  | some ts => right; left; exact ⟨ts, rfl, rfl⟩
  | none =>
    cases h2 : replaceInOneOf s.OneOf src dst with
    | some vs => right; right; exact ⟨vs, rfl, rfl, rfl⟩
    | none => left; exact ⟨rfl, rfl, rfl⟩

/-! ## Null -/

theorem nullRecorded_applyType (s : RawSchema) (tt : String) (h : nullRecorded s) :
    nullRecorded (applyType s tt) := by
  rcases applyType_cases s tt with e | ⟨_, e⟩ | ⟨_, _, e⟩ | ⟨ho, _, e⟩ <;> rw [e]
  · exact h
  · rcases h with h | ⟨a, rest, h1, h2⟩
    · left; simpa using h
    · right; exact ⟨a, rest ++ [RawSchema.ofType tt], by simp [h1], h2⟩
  · rcases h with h | ⟨a, rest, h1, h2⟩
    · left; simpa using h
    · right; exact ⟨a, rest, by simpa using h1, h2⟩
  · rcases h with h | ⟨a, rest, h1, _⟩
    · right; exact ⟨s, [RawSchema.ofType tt], by simp, h⟩
    · rw [ho] at h1; cases h1

theorem nullRecorded_replaceType (s : RawSchema) (src dst : String) (h : nullRecorded s) :
    nullRecorded (replaceType s src dst).1 := by
  rcases replaceType_cases s src dst with ⟨_, _, e⟩ | ⟨ts, _, e⟩ | ⟨vs, _, hv, e⟩ <;> rw [e]
  · exact h
  · rcases h with h | ⟨a, rest, h1, h2⟩
    · left; simpa using h
    · right; exact ⟨a, rest, by simpa using h1, h2⟩
  · rcases h with h | ⟨a, rest, h1, h2⟩
    · left; simpa using h
    · right
      have hf := replaceInOneOf_forall₂ hv
      rw [h1] at hf
      cases hf with
      | cons hab hrest =>
        obtain ⟨ts, rfl, _⟩ := hab
        exact ⟨a.setTyp ts, _, rfl, by simpa using h2⟩

theorem nullRecorded_markStep (s : RawSchema) (v : JValue) (h : nullRecorded s) :
    nullRecorded (markStep s v) := by
  cases v with
  | num b =>
    simp only [markStep]
    split_ifs
    · exact nullRecorded_applyType _ _ h
    · exact nullRecorded_replaceType _ _ _ h
    · exact nullRecorded_applyType _ _ h
  | null => left; simp [markStep]
  | badNull => left; simp [markStep]
  | invalid => exact h
  | badNum => exact h
  | _ => exact nullRecorded_applyType _ _ h

theorem nullRecorded_apply (s : RawSchema) (v : JValue) (h : nullRecorded s) :
    nullRecorded (apply s v).1 := by
  have := nullRecorded_markStep s v h
  unfold nullRecorded at this ⊢
  rw [apply_Nullable, apply_OneOf]
  exact this

theorem nullRecorded_applySeq (vs : List JValue) (s : RawSchema) (h : nullRecorded s) :
    nullRecorded (applySeq s vs) := by
  induction vs generalizing s with
  | nil => exact h
  | cons v vs ih => exact ih _ (nullRecorded_apply s v h)

theorem nullRecorded_of_mem (vs : List JValue) (s : RawSchema) (h : JValue.null ∈ vs) :
    nullRecorded (applySeq s vs) := by
  induction vs generalizing s with
  | nil => cases h
  | cons v vs ih =>
    rcases List.mem_cons.1 h with rfl | h
    · exact nullRecorded_applySeq vs _ (Or.inl (by simp [apply]))
    · exact ih _ h

/-- C4, as stated, fails: after `null`, `1`, `true` the root's nullable flag is
false, because the node that carried the flag became the first alternative. -/
theorem nullable_flag_moves_into_first_alternative :
    (∀ v ∈ [JValue.null, JValue.num true, JValue.bool true], v.wellFormed = true) ∧
    JValue.null ∈ [JValue.null, JValue.num true, JValue.bool true] ∧
    Infer.fresh.applyAll [JValue.null, JValue.num true, JValue.bool true]
      = some ⟨RawSchema.mk [] false none [] none
          [RawSchema.mk ["integer"] true none [] none [], RawSchema.ofType "boolean"]⟩ ∧
    (RawSchema.mk [] false none [] none
          [RawSchema.mk ["integer"] true none [] none [], RawSchema.ofType "boolean"]).Nullable
      = false := by
  refine ⟨?_, List.mem_cons_self _ _, rfl, rfl⟩
  intro v hv
  simp only [List.mem_cons, List.mem_singleton, List.not_mem_nil, or_false] at hv
  rcases hv with rfl | rfl | rfl <;> rfl

/-- C4, amended. If a sequence of well-formed JSON values applied to a fresh
engine contains `null` at the top level, every call succeeds and afterwards the
nullable flag is true on the root or, when the root has branched into a union
since, on the root's first alternative. -/
theorem null_observed_is_recorded (vs : List JValue)
    (hwf : ∀ v ∈ vs, v.wellFormed = true) (hnull : JValue.null ∈ vs) :
    ∃ i, Infer.fresh.applyAll vs = some i ∧
      (i.Target.Nullable = true ∨
        ∃ a rest, i.Target.OneOf = a :: rest ∧ a.Nullable = true) :=
  ⟨⟨applySeq RawSchema.empty vs⟩, applyAll_eq vs hwf _, nullRecorded_of_mem vs _ hnull⟩

theorem null_observed_is_recorded_witness :
    ∃ i, Infer.fresh.applyAll [JValue.null, JValue.num true, JValue.bool true] = some i ∧
      (i.Target.Nullable = true ∨
        ∃ a rest, i.Target.OneOf = a :: rest ∧ a.Nullable = true) :=
  null_observed_is_recorded [JValue.null, JValue.num true, JValue.bool true]
    (by
      intro v hv
      simp only [List.mem_cons, List.mem_singleton, List.not_mem_nil, or_false] at hv
      rcases hv with rfl | rfl | rfl <;> rfl)
    (List.mem_cons_self _ _)

/-- C9. Applying `null` to any node succeeds and changes nothing but the
nullable flag, which becomes true: type markers, alternatives, properties,
required list and item schema stay as they were. So `2.0` followed by `null`
gives type number with nullable true, and `null` alone gives a node without a
type marker and nullable true. -/
theorem null_only_sets_nullable (s : RawSchema) :
    (apply s JValue.null).2 = true ∧
    (apply s JValue.null).1.Nullable = true ∧
    (apply s JValue.null).1.Typ = s.Typ ∧
    (apply s JValue.null).1.OneOf = s.OneOf ∧
    (apply s JValue.null).1.Properties = s.Properties ∧
    (apply s JValue.null).1.Required = s.Required ∧
    (apply s JValue.null).1.Items = s.Items ∧
    Infer.fresh.applyAll [JValue.num false, JValue.null]
      = some ⟨RawSchema.mk ["number"] true none [] none []⟩ ∧
    Infer.fresh.applyAll [JValue.null] = some ⟨RawSchema.mk [] true none [] none []⟩ := by
  refine ⟨?_, ?_, ?_, ?_, ?_, ?_, ?_, rfl, rfl⟩ <;> simp [apply]

/-! ## Membership of type tags -/

theorem hasType_iff (s : RawSchema) (tt : String) :
    hasType s tt = true ↔ tt ∈ s.Typ ∨ ∃ a ∈ s.OneOf, tt ∈ a.Typ := by
  simp only [hasType, Bool.or_eq_true, List.any_eq_true, beq_iff_eq]
  constructor
  · rintro (⟨t, h1, rfl⟩ | ⟨a, h1, t, h2, rfl⟩)
    · exact Or.inl h1
    · exact Or.inr ⟨a, h1, h2⟩
  · rintro (h | ⟨a, h1, h2⟩)
    · exact Or.inl ⟨tt, h, rfl⟩
    · exact Or.inr ⟨a, h1, tt, h2, rfl⟩

theorem hasType_congr {s s1 : RawSchema} (h1 : s1.Typ = s.Typ) (h2 : s1.OneOf = s.OneOf)
    (tt : String) : hasType s1 tt = hasType s tt := by
  simp only [hasType, h1, h2]

theorem hasType_apply (s : RawSchema) (v : JValue) (tt : String) :
    hasType (apply s v).1 tt = hasType (markStep s v) tt :=
  hasType_congr (apply_Typ s v) (apply_OneOf s v) tt

theorem hasType_applyType_self (s : RawSchema) (tt : String) :
    hasType (applyType s tt) tt = true := by
  by_cases h : hasType s tt = true
  · simp [applyType, h]
  · unfold applyType
    rw [if_neg h]
    split_ifs <;> rw [hasType_iff]
    · exact Or.inr ⟨RawSchema.ofType tt, by simp, by simp [RawSchema.ofType]⟩
    · exact Or.inl (by simp)
    · exact Or.inr ⟨RawSchema.ofType tt, by simp, by simp [RawSchema.ofType]⟩

theorem hasType_applyType_of_hasType (s : RawSchema) (tt t : String)
    (h : hasType s t = true) : hasType (applyType s tt) t = true := by
  rw [hasType_iff] at h
  rcases applyType_cases s tt with e | ⟨_, e⟩ | ⟨_, h0, e⟩ | ⟨h1, _, e⟩ <;> rw [e, hasType_iff]
  · exact h
  · rcases h with h | ⟨a, h1, h2⟩
    · left; simpa using h
    · right; exact ⟨a, by simp [h1], h2⟩
  · rcases h with h | ⟨a, h1, h2⟩
    · rw [h0] at h; cases h
    · right; exact ⟨a, by simpa using h1, h2⟩
  · rcases h with h | ⟨a, h2, _⟩
    · right; exact ⟨s, by simp, h⟩
    · rw [h1] at h2; cases h2

theorem mem_replaceTag_of_mem {ts ts1 : List String} {src dst t : String}
    (h : replaceTag ts src dst = some ts1) (ht : t ∈ ts) (hne : t ≠ src) : t ∈ ts1 := by
  induction ts generalizing ts1 with
  | nil => cases ht
  | cons u ts ih =>
    simp only [replaceTag] at h
    split_ifs at h with hu
    · cases h
      rcases List.mem_cons.1 ht with rfl | ht
      · exact absurd (by simpa using hu) hne
      · exact List.mem_cons_of_mem _ ht
    · cases hr : replaceTag ts src dst with
      | none => simp [hr] at h
      | some ts2 =>
        simp [hr] at h
        subst h
        rcases List.mem_cons.1 ht with rfl | ht
        · exact List.mem_cons_self _ _
        · exact List.mem_cons_of_mem _ (ih hr ht)

theorem replaceTag_isSome_iff (ts : List String) (src dst : String) :
    (replaceTag ts src dst).isSome = true ↔ src ∈ ts := by
  induction ts with
  | nil => simp [replaceTag]
  | cons u ts ih =>
    simp only [replaceTag]
    split_ifs with hu
    · have : u = src := by simpa using hu
      simp [this]
    · have : ¬ u = src := by simpa using hu
      have hne : ¬ src = u := fun e => this e.symm
      simp [hne, ← ih]

theorem hasType_replaceType_of_hasType (s : RawSchema) (src dst t : String)
    (h : hasType s t = true) (hne : t ≠ src) : hasType (replaceType s src dst).1 t = true := by
  rw [hasType_iff] at h
  rcases replaceType_cases s src dst with ⟨_, _, e⟩ | ⟨ts, hts, e⟩ | ⟨vs, _, hv, e⟩ <;>
    rw [e, hasType_iff]
  · exact h
  · rcases h with h | ⟨a, h1, h2⟩
    · left; simpa using mem_replaceTag_of_mem hts h hne
    · right; exact ⟨a, by simpa using h1, h2⟩
  · rcases h with h | ⟨a, h1, h2⟩
    · left; simpa using h
    · right
      have key : ∀ (l l1 : List RawSchema), replaceInOneOf l src dst = some l1 →
          a ∈ l → ∃ a1 ∈ l1, t ∈ a1.Typ := by
        intro l
        induction l with
        | nil => intro l1 _ ha; cases ha
        | cons b l ih =>
          intro l1 hl ha
          simp only [replaceInOneOf] at hl
          cases hb : replaceTag b.Typ src dst with
          | some ts =>
            simp only [hb] at hl
            cases hl
            rcases List.mem_cons.1 ha with rfl | ha
            · exact ⟨_, List.mem_cons_self _ _, by simpa using mem_replaceTag_of_mem hb h2 hne⟩
            · exact ⟨a, List.mem_cons_of_mem _ ha, h2⟩
          | none =>
            simp only [hb] at hl
            cases hr : replaceInOneOf l src dst with
            | none => simp [hr] at hl
            | some l2 =>
              simp [hr] at hl
              subst hl
              rcases List.mem_cons.1 ha with rfl | ha
              · exact ⟨a, List.mem_cons_self _ _, h2⟩
              · obtain ⟨a1, h3, h4⟩ := ih l2 hr ha
                exact ⟨a1, List.mem_cons_of_mem _ h3, h4⟩
      obtain ⟨a1, h3, h4⟩ := key _ _ hv h1
      exact ⟨a1, by simpa using h3, h4⟩

/-- A tag other than "integer" is never lost by the marker update. -/
theorem hasType_markStep_of_hasType (s : RawSchema) (v : JValue) (t : String)
    (h : hasType s t = true) (hne : t ≠ "integer") : hasType (markStep s v) t = true := by
  cases v with
  | num b =>
    simp only [markStep]
    split_ifs
    · exact hasType_applyType_of_hasType _ _ _ h
    · exact hasType_replaceType_of_hasType _ _ _ _ h hne
    · exact hasType_applyType_of_hasType _ _ _ h
  | null => simpa [markStep, hasType] using h
  | badNull => simpa [markStep, hasType] using h
  | invalid => exact h
  | badNum => exact h
  | _ => exact hasType_applyType_of_hasType _ _ _ h

/-! ## Arrays -/

theorem markStep_Items (s : RawSchema) (v : JValue) :
    (markStep s v).Items = s.Items ∨ (markStep s v).Items = none := by
  have hT : ∀ tt, (applyType s tt).Items = s.Items ∨ (applyType s tt).Items = none := by
    intro tt
    rcases applyType_cases s tt with e | ⟨_, e⟩ | ⟨_, _, e⟩ | ⟨_, _, e⟩ <;> rw [e] <;> simp
  have hR : (replaceType s "integer" "number").1.Items = s.Items := by
    rcases replaceType_cases s "integer" "number" with ⟨_, _, e⟩ | ⟨ts, _, e⟩ | ⟨vs, _, _, e⟩ <;>
      rw [e] <;> simp
  cases v with
  | num b =>
    simp only [markStep]
    split_ifs
    · exact hT _
    · exact Or.inl hR
    · exact hT _
  | null => simp [markStep]
  | badNull => simp [markStep]
  | invalid => simp [markStep]
  | badNum => simp [markStep]
  | _ => exact hT _

theorem applyFields_Items (kvs : List (String × JValue)) (props : List (String × Nat))
    (fa : Bool) (st : ObjState) : (applyFields props fa st kvs).1.s.Items = st.s.Items := by
  rw [applyFields_frame]; simp

theorem applyFields_Required (kvs : List (String × JValue)) (props : List (String × Nat))
    (fa : Bool) (st : ObjState) :
    (applyFields props fa st kvs).1.s.Required = st.s.Required := by
  rw [applyFields_frame]; simp

/-- Outside the array cases `apply` leaves `Items` as the marker update left it. -/
theorem apply_Items_of_not_array (s : RawSchema) (v : JValue)
    (h1 : ∀ xs, v ≠ .arr xs) (h2 : ∀ xs, v ≠ .arrCut xs) :
    (apply s v).1.Items = (markStep s v).Items := by
  cases v with
  | arr xs => exact absurd rfl (h1 xs)
  | arrCut xs => exact absurd rfl (h2 xs)
  | num b => simp only [apply, markStep]; split_ifs <;> rfl
  | obj kvs =>
    simp only [apply, markStep]
    rw [objEnd_frame]
    simp only [RawSchema.setProperties, RawSchema.setRequired, RawSchema.Items_mk]
    rw [applyFields_Items, objInit, objBegin_frame]; simp
  | objCut kvs =>
    simp only [apply, markStep]
    rw [objEnd_frame]
    simp only [RawSchema.setProperties, RawSchema.setRequired, RawSchema.Items_mk]
    rw [applyFields_Items, objInit, objBegin_frame]; simp
  | _ => simp [apply, markStep]

theorem applyArr_Items_cases (xs : List JValue) (s : RawSchema) (closed : Bool) :
    (applyArr s closed xs).1.Items = s.Items ∨
      ∃ it, (applyArr s closed xs).1.Items = some (some it) := by
  induction xs generalizing s with
  | nil => left; simp [applyArr]
  | cons x xs ih =>
    right
    simp only [applyArr]
    by_cases h : (apply s.item x).2 = true
    · rw [if_pos h]
      rcases ih (s.setItems (some (some (apply s.item x).1))) with e | ⟨it, e⟩
      · exact ⟨(apply s.item x).1, by rw [e]; simp⟩
      · exact ⟨it, e⟩
    · rw [if_neg h]; exact ⟨(apply s.item x).1, by simp⟩

/-- When every element is accepted, the array loop leaves in `Items` the
previous item schema (a new node if there was none) after all elements have
been applied to it in order; without elements `Items` is untouched. -/
theorem applyArr_Items (xs : List JValue) (h : ∀ x ∈ xs, ∀ s, (apply s x).2 = true)
    (s : RawSchema) (closed : Bool) :
    (applyArr s closed xs).1.Items
      = if xs.isEmpty then s.Items else some (some (applySeq s.item xs)) := by
  induction xs generalizing s with
  | nil => simp [applyArr]
  | cons x xs ih =>
    have hx := h x (List.mem_cons_self _ _) s.item
    simp only [applyArr, hx, if_true]
    rw [ih (fun y hy => h y (List.mem_cons_of_mem _ hy))]
    cases xs with
    | nil => simp
    | cons y ys => simp [RawSchema.item]

theorem itemsTracked_apply (s : RawSchema) (v : JValue) (h : itemsTracked s) :
    itemsTracked (apply s v).1 := by
  have harr : ∀ (xs : List JValue) (closed : Bool),
      itemsTracked (applyArr (applyType s "array") closed xs).1 := by
    intro xs closed
    have hT : hasType (applyArr (applyType s "array") closed xs).1 "array" = true := by
      rw [applyArr_frame]
      rw [hasType_congr (s := applyType s "array") (by simp) (by simp)]
      exact hasType_applyType_self s "array"
    refine ⟨?_, fun _ => hT⟩
    rcases applyArr_Items_cases xs (applyType s "array") closed with e | ⟨it, e⟩
    · rw [e]
      rcases markStep_Items s (.arr []) with e1 | e1
      · simp only [markStep] at e1; rw [e1]; exact h.1
      · simp only [markStep] at e1; rw [e1]; simp
    · rw [e]; simp
  by_cases h1 : ∃ xs, v = .arr xs
  · obtain ⟨xs, rfl⟩ := h1
    simpa [apply] using harr xs true
  by_cases h2 : ∃ xs, v = .arrCut xs
  · obtain ⟨xs, rfl⟩ := h2
    simpa [apply] using harr xs false
  have e := apply_Items_of_not_array s v (fun xs hx => h1 ⟨xs, hx⟩) (fun xs hx => h2 ⟨xs, hx⟩)
  unfold itemsTracked
  rw [e, hasType_apply]
  rcases markStep_Items s v with e1 | e1
  · rw [e1]
    exact ⟨h.1, fun hne => hasType_markStep_of_hasType s v _ (h.2 hne) (by decide)⟩
  · rw [e1]; simp

theorem itemsTracked_applySeq (vs : List JValue) (s : RawSchema) (h : itemsTracked s) :
    itemsTracked (applySeq s vs) := by
  induction vs generalizing s with
  | nil => exact h
  | cons v vs ih => exact ih _ (itemsTracked_apply s v h)

theorem itemsTracked_empty : itemsTracked RawSchema.empty := by
  simp [itemsTracked, RawSchema.empty]

/-- C7. Let a node be in a state reached from a new (empty) node by any
sequence of `apply` calls; every node to which the engine applies a value is in
such a state. Applying an array of well-formed values to it succeeds, leaves
the tag "array" present as own marker or alternative, and makes the item schema
the result of applying the elements in order (each successfully) to the
previous item schema, a new empty node if there was none; with no elements and
no previous item schema there is still none. On a fresh engine `[1]` gives item
type integer and `[1, 10, 5, 0.5]` gives item type number. -/
theorem array_merges_elements_into_items (vs xs : List JValue)
    (hxs : ∀ x ∈ xs, x.wellFormed = true) :
    (apply (applySeq RawSchema.empty vs) (.arr xs)).2 = true ∧
    hasType (apply (applySeq RawSchema.empty vs) (.arr xs)).1 "array" = true ∧
    (xs = [] → (applySeq RawSchema.empty vs).Items = none →
      (apply (applySeq RawSchema.empty vs) (.arr xs)).1.Items = none) ∧
    (¬ (xs = [] ∧ (applySeq RawSchema.empty vs).Items = none) →
      ∃ it, Infer.applyAll ⟨(applySeq RawSchema.empty vs).item⟩ xs = some ⟨it⟩ ∧
        (apply (applySeq RawSchema.empty vs) (.arr xs)).1.Items = some (some it)) ∧
    Infer.fresh.applyAll [.arr [.num true]]
      = some ⟨RawSchema.mk ["array"] false none []
          (some (some (RawSchema.ofType "integer"))) []⟩ ∧
    Infer.fresh.applyAll [.arr [.num true, .num true, .num true, .num false]]
      = some ⟨RawSchema.mk ["array"] false none []
          (some (some (RawSchema.ofType "number"))) []⟩ := by
  have hinv := itemsTracked_applySeq vs _ itemsTracked_empty
  generalize applySeq RawSchema.empty vs = s at hinv
  have hok : ∀ x ∈ xs, ∀ s, (apply s x).2 = true := fun x hx => apply_ok x (hxs x hx)
  -- the marker update does not disturb the item schema of a tracked node
  have hkeep : (applyType s "array").Items = s.Items := by
    by_cases hI : s.Items = none
    · rcases markStep_Items s (.arr []) with e1 | e1
      · simpa [markStep] using e1
      · simp only [markStep] at e1; rw [e1, hI]
    · rw [applyType, if_pos (hinv.2 hI)]
  have hitem : (applyType s "array").item = s.item := by
    simp only [RawSchema.item, hkeep]
  have hItems := applyArr_Items xs hok (applyType s "array") true
  rw [hkeep, hitem] at hItems
  refine ⟨apply_ok _ (by rw [JValue.wellFormed, JValue.wellFormedList_iff]; exact hxs) s,
    ?_, ?_, ?_, rfl, rfl⟩
  · rw [hasType_apply]; exact hasType_applyType_self s "array"
  · intro h1 h2
    subst h1
    simp only [apply]
    rw [hItems]
    simpa using h2
  · intro hne
    refine ⟨applySeq s.item xs, applyAll_eq xs hxs _, ?_⟩
    simp only [apply]
    rw [hItems]
    cases xs with
    | nil =>
      have h2 : s.Items ≠ none := fun h2 => hne ⟨rfl, h2⟩
      have h3 := hinv.1
      simp only [List.isEmpty_nil, if_true, applySeq_nil, RawSchema.item]
      cases hI : s.Items with
      | none => exact absurd hI h2
      | some o =>
        cases o with
        | none => exact absurd hI h3
        | some it => rfl
    | cons y ys => simp

theorem array_merges_elements_into_items_witness :
    (apply (applySeq RawSchema.empty [.bool true, .arr [.num true]])
        (.arr [.num false, .str "a"])).2 = true ∧
    hasType (apply (applySeq RawSchema.empty [.bool true, .arr [.num true]])
        (.arr [.num false, .str "a"])).1 "array" = true ∧
    (apply (applySeq RawSchema.empty [.bool true, .arr [.num true]])
        (.arr [.num false, .str "a"])).1.Items
      = some (some (RawSchema.mk [] false none [] none
          [RawSchema.ofType "number", RawSchema.ofType "string"])) := by
  have h := array_merges_elements_into_items [.bool true, .arr [.num true]]
    [.num false, .str "a"]
    (by
      intro x hx
      simp only [List.mem_cons, List.mem_singleton, List.not_mem_nil, or_false] at hx
      rcases hx with rfl | rfl <;> rfl)
  exact ⟨h.1, h.2.1, rfl⟩

/-! ## The order on names -/

theorem nameLE_iff (a b : String) : nameLE a b ↔ a ≤ b := by
  unfold nameLE
  rw [String.le_iff_toList_le]
  rfl

theorem nameLE_total (a b : String) : nameLE a b ∨ nameLE b a := by
  simp only [nameLE_iff]; exact le_total a b

theorem nameLE_trans (a b c : String) : nameLE a b → nameLE b c → nameLE a c := by
  simp only [nameLE_iff]; exact le_trans

theorem mem_sortRequired (r : List String) (k : String) : k ∈ sortRequired r ↔ k ∈ r :=
  List.mem_insertionSort _

theorem sortRequired_sorted (r : List String) (h : r.Nodup) :
    (sortRequired r).Sorted (fun a b => a < b) := by
  haveI : IsTotal String nameLE := ⟨nameLE_total⟩
  haveI : IsTrans String nameLE := ⟨nameLE_trans⟩
  have h1 : (sortRequired r).Sorted nameLE := List.sorted_insertionSort _ _
  have h2 : (sortRequired r).Sorted (fun a b => a ≤ b) := by
    unfold List.Sorted at h1 ⊢
    exact h1.imp (fun {a b} hab => (nameLE_iff a b).1 hab)
  exact h2.lt_of_le (((List.perm_insertionSort _ r).nodup_iff).2 h)

theorem sortProperties_perm (ps : List RawProperty) : (sortProperties ps).Perm ps :=
  List.perm_insertionSort _ ps

/-! ## The sets `required` and `this` of the object loop -/

theorem mem_collectRequired (r : List String) (k : String) : k ∈ collectRequired r ↔ k ∈ r := by
  have key : ∀ (l m : List String),
      k ∈ l.foldl (fun m key => m.insert key) m ↔ k ∈ m ∨ k ∈ l := by
    intro l
    induction l with
    | nil => intro m; simp
    | cons a l ih =>
      intro m
      rw [List.foldl_cons, ih, List.mem_insert_iff, List.mem_cons]
      tauto
  simpa [collectRequired] using key r []

theorem nodup_collectRequired (r : List String) : (collectRequired r).Nodup := by
  have key : ∀ (l m : List String), m.Nodup →
      (l.foldl (fun m key => m.insert key) m).Nodup := by
    intro l
    induction l with
    | nil => intro m hm; exact hm
    | cons a l ih => intro m hm; exact ih _ (hm.insert)
  exact key r [] List.nodup_nil

theorem applyFields_this (kvs : List (String × JValue))
    (h : ∀ kv ∈ kvs, ∀ s, (apply s kv.2).2 = true)
    (props : List (String × Nat)) (fa : Bool) (st : ObjState) (k : String) :
    k ∈ (applyFields props fa st kvs).1.this ↔ k ∈ st.this ∨ k ∈ kvs.map Prod.fst := by
  induction kvs generalizing st with
  | nil => simp [applyFields]
  | cons kv kvs ih =>
    obtain ⟨key, v⟩ := kv
    have hv : ∀ s, (apply s v).2 = true := h (key, v) (List.mem_cons_self _ _)
    have ih1 := fun st => ih (fun y hy => h y (List.mem_cons_of_mem _ hy)) st
    simp only [applyFields]
    cases props.lookup key with
    | none =>
      simp only [hv, if_true]
      rw [ih1]
      simp only [List.mem_insert_iff, List.map_cons, List.mem_cons]
      tauto
    | some i =>
      simp only [hv, if_true]
      rw [ih1]
      simp only [List.mem_insert_iff, List.map_cons, List.mem_cons]
      tauto

theorem applyFields_required (kvs : List (String × JValue))
    (h : ∀ kv ∈ kvs, ∀ s, (apply s kv.2).2 = true)
    (props : List (String × Nat)) (fa : Bool) (st : ObjState) (k : String) :
    k ∈ (applyFields props fa st kvs).1.required ↔
      k ∈ st.required ∨ (fa = true ∧ k ∈ kvs.map Prod.fst ∧ props.lookup k = none) := by
  induction kvs generalizing st with
  | nil => simp [applyFields]
  | cons kv kvs ih =>
    obtain ⟨key, v⟩ := kv
    have hv : ∀ s, (apply s v).2 = true := h (key, v) (List.mem_cons_self _ _)
    have ih1 := fun st => ih (fun y hy => h y (List.mem_cons_of_mem _ hy)) st
    simp only [applyFields]
    cases hl : props.lookup key with
    | none =>
      simp only [hv, if_true]
      rw [ih1]
      cases fa
      · simp
      · simp only [if_true, List.mem_insert_iff, List.map_cons, List.mem_cons, true_and]
        constructor
        · rintro ((rfl | h1) | ⟨h1, h2⟩)
          · exact Or.inr ⟨Or.inl rfl, hl⟩
          · exact Or.inl h1
          · exact Or.inr ⟨Or.inr h1, h2⟩
        · rintro (h1 | ⟨rfl | h1, h2⟩)
          · exact Or.inl (Or.inr h1)
          · exact Or.inl (Or.inl rfl)
          · exact Or.inr ⟨h1, h2⟩
    | some i =>
      simp only [hv, if_true]
      rw [ih1]
      simp only [List.map_cons, List.mem_cons]
      constructor
      · rintro (h1 | ⟨h1, h2, h3⟩)
        · exact Or.inl h1
        · exact Or.inr ⟨h1, Or.inr h2, h3⟩
      · rintro (h1 | ⟨h1, rfl | h2, h3⟩)
        · exact Or.inl h1
        · rw [hl] at h3; cases h3
        · exact Or.inr ⟨h1, h2, h3⟩

theorem applyFields_required_nodup (kvs : List (String × JValue))
    (props : List (String × Nat)) (fa : Bool) (st : ObjState) (hn : st.required.Nodup) :
    (applyFields props fa st kvs).1.required.Nodup := by
  induction kvs generalizing st with
  | nil => simpa [applyFields] using hn
  | cons kv kvs ih =>
    obtain ⟨key, v⟩ := kv
    have hins : (if fa = true then List.insert key st.required else st.required).Nodup := by
      split_ifs
      · exact hn.insert
      · exact hn
    simp only [applyFields]
    cases props.lookup key with
    | none =>
      simp only []
      by_cases hv : (apply RawSchema.empty v).2 = true
      · rw [if_pos hv]; exact ih _ hins
      · rw [if_neg hv]; exact hins
    | some i =>
      simp only []
      by_cases hv : (apply (propAt st.s.props i) v).2 = true
      · rw [if_pos hv]; exact ih _ hn
      · rw [if_neg hv]; exact hn

theorem applyFields_Properties_isSome (kvs : List (String × JValue))
    (props : List (String × Nat)) (fa : Bool) (st : ObjState)
    (h : st.s.Properties.isSome = true) :
    (applyFields props fa st kvs).1.s.Properties.isSome = true := by
  induction kvs generalizing st with
  | nil => simpa [applyFields] using h
  | cons kv kvs ih =>
    obtain ⟨key, v⟩ := kv
    simp only [applyFields]
    cases props.lookup key with
    | none =>
      simp only []
      by_cases hv : (apply RawSchema.empty v).2 = true
      · rw [if_pos hv]; exact ih _ (by simp)
      · rw [if_neg hv]; exact h
    | some i =>
      simp only []
      by_cases hv : (apply (propAt st.s.props i) v).2 = true
      · rw [if_pos hv]; exact ih _ (by simp)
      · rw [if_neg hv]; simp

/-! ## Objects: the required list -/

theorem objBegin_Required (s : RawSchema) :
    (objBegin s).1.Required = (applyType s "object").Required := by
  rw [objBegin_frame]; simp

theorem objBegin_Properties_isSome (s : RawSchema) :
    (objBegin s).1.Properties.isSome = true := by
  simp only [objBegin]
  split_ifs with h
  · simp
  · cases hp : (applyType s "object").Properties with
    | none => simp [hp] at h
    | some ps => rfl

theorem objBegin_props_of_first (s : RawSchema) (h : (objBegin s).2 = true) :
    (objBegin s).1.props = [] := by
  simp only [objBegin] at h ⊢
  rw [if_pos h]
  simp

/-- The required list written by the object case, any key order and any
duplicates: the keys of this object that were required before or, on a first
object, all keys of this object. -/
theorem apply_obj_Required_iff (s : RawSchema) (kvs : List (String × JValue))
    (hok : ∀ kv ∈ kvs, ∀ s, (apply s kv.2).2 = true) (k : String) :
    k ∈ (apply s (.obj kvs)).1.Required ↔
      k ∈ kvs.map Prod.fst ∧
        (k ∈ (applyType s "object").Required ∨ (applyType s "object").Properties = none) := by
  simp only [apply, objEnd]
  rw [applyFields_ok kvs hok]
  simp only [Bool.and_self, if_true, RawSchema.setProperties, RawSchema.setRequired,
    RawSchema.Required_mk]
  rw [mem_sortRequired, List.mem_filter, applyFields_required kvs hok]
  simp only [List.contains_eq_any_beq, List.any_eq_true, beq_iff_eq, exists_eq_right']
  rw [applyFields_this kvs hok]
  simp only [objInit, mem_collectRequired, objBegin_Required, List.not_mem_nil, false_or]
  constructor
  · rintro ⟨h1 | ⟨h1, _, _⟩, h2⟩
    · exact ⟨h2, Or.inl h1⟩
    · refine ⟨h2, Or.inr ?_⟩
      simpa [objBegin] using h1
  · rintro ⟨h1, h2 | h2⟩
    · exact ⟨Or.inl h2, h1⟩
    · have hfa : (objBegin s).2 = true := by simp [objBegin, h2]
      refine ⟨Or.inr ⟨hfa, h1, ?_⟩, h1⟩
      rw [objBegin_props_of_first s hfa]
      rfl

theorem apply_obj_Required_sorted (s : RawSchema) (kvs : List (String × JValue))
    (hok : ∀ kv ∈ kvs, ∀ s, (apply s kv.2).2 = true) :
    (apply s (.obj kvs)).1.Required.Sorted (fun a b => a < b) := by
  simp only [apply, objEnd]
  rw [applyFields_ok kvs hok]
  simp only [Bool.and_self, if_true, RawSchema.setProperties, RawSchema.setRequired,
    RawSchema.Required_mk]
  apply sortRequired_sorted
  apply List.Nodup.filter
  apply applyFields_required_nodup
  exact nodup_collectRequired _

theorem apply_obj_Properties_isSome (s : RawSchema) (kvs : List (String × JValue))
    (closed : Bool) :
    (objEnd closed (applyFields (collectProps (objBegin s).1.props 0 []) (objBegin s).2
      (objInit s) kvs)).1.Properties.isSome = true := by
  simp only [objEnd]
  split_ifs
  · simp
  · exact applyFields_Properties_isSome _ _ _ _ (objBegin_Properties_isSome s)

theorem objectSeen_apply_obj (s : RawSchema) (kvs : List (String × JValue)) :
    objectSeen (apply s (.obj kvs)).1 := by
  refine ⟨?_, ?_⟩
  · rw [hasType_apply]; exact hasType_applyType_self s "object"
  · simp only [apply]; exact apply_obj_Properties_isSome s kvs true

theorem applySeq_obj_Required (objs : List (List (String × JValue)))
    (hok : ∀ o ∈ objs, ∀ kv ∈ o, ∀ s, (apply s kv.2).2 = true)
    (s : RawSchema) (hs : objectSeen s) (k : String) :
    k ∈ (applySeq s (objs.map JValue.obj)).Required ↔
      k ∈ s.Required ∧ ∀ o ∈ objs, k ∈ o.map Prod.fst := by
  induction objs generalizing s with
  | nil => simp
  | cons o objs ih =>
    rw [List.map_cons, applySeq_cons,
      ih (fun o1 ho1 => hok o1 (List.mem_cons_of_mem _ ho1)) _ (objectSeen_apply_obj s o),
      apply_obj_Required_iff s o (hok o (List.mem_cons_self _ _))]
    have e : applyType s "object" = s := by rw [applyType, if_pos hs.1]
    rw [e]
    have hne : s.Properties ≠ none := by
      intro h0; have := hs.2; rw [h0] at this; cases this
    simp only [hne, or_false, List.forall_mem_cons]
    tauto

theorem applySeq_obj_Required_sorted (objs : List (List (String × JValue)))
    (hok : ∀ o ∈ objs, ∀ kv ∈ o, ∀ s, (apply s kv.2).2 = true)
    (s : RawSchema) (hs : s.Required.Sorted (fun a b => a < b)) :
    (applySeq s (objs.map JValue.obj)).Required.Sorted (fun a b => a < b) := by
  induction objs generalizing s with
  | nil => exact hs
  | cons o objs ih =>
    rw [List.map_cons, applySeq_cons]
    exact ih (fun o1 ho1 => hok o1 (List.mem_cons_of_mem _ ho1)) _
      (apply_obj_Required_sorted s o (hok o (List.mem_cons_self _ _)))

theorem wellFormed_map_obj (objs : List (List (String × JValue)))
    (h : ∀ o ∈ objs, ∀ kv ∈ o, kv.2.wellFormed = true) :
    ∀ v ∈ objs.map JValue.obj, v.wellFormed = true := by
  intro v hv
  obtain ⟨o, ho, rfl⟩ := List.mem_map.1 hv
  rw [JValue.wellFormed, JValue.wellFormedFields_iff]
  exact h o ho

/-- C3. Every non-empty sequence of JSON objects (well-formed field values,
keys in any order, possibly repeated) applied in order to a fresh engine is
accepted, and the root's required list is then strictly ascending in the
lexicographic order of names and holds exactly the keys present in every
object of the sequence. -/
theorem required_is_sorted_common_keys (objs : List (List (String × JValue)))
    (hne : objs ≠ []) (hwf : ∀ o ∈ objs, ∀ kv ∈ o, kv.2.wellFormed = true) :
    ∃ i, Infer.fresh.applyAll (objs.map JValue.obj) = some i ∧
      i.Target.Required.Sorted (fun a b => a < b) ∧
      ∀ k, k ∈ i.Target.Required ↔ ∀ o ∈ objs, k ∈ o.map Prod.fst := by
  have hok : ∀ o ∈ objs, ∀ kv ∈ o, ∀ s, (apply s kv.2).2 = true :=
    fun o ho kv hkv => apply_ok kv.2 (hwf o ho kv hkv)
  refine ⟨⟨applySeq RawSchema.empty (objs.map JValue.obj)⟩,
    applyAll_eq _ (wellFormed_map_obj objs hwf) _, ?_, ?_⟩
  · cases objs with
    | nil => exact absurd rfl hne
    | cons o objs =>
      rw [Infer.Target, List.map_cons, applySeq_cons]
      exact applySeq_obj_Required_sorted objs
        (fun o1 ho1 => hok o1 (List.mem_cons_of_mem _ ho1)) _
        (apply_obj_Required_sorted _ o (hok o (List.mem_cons_self _ _)))
  · intro k
    cases objs with
    | nil => exact absurd rfl hne
    | cons o objs =>
      rw [Infer.Target, List.map_cons, applySeq_cons,
        applySeq_obj_Required objs (fun o1 ho1 => hok o1 (List.mem_cons_of_mem _ ho1)) _
          (objectSeen_apply_obj _ o),
        apply_obj_Required_iff _ o (hok o (List.mem_cons_self _ _))]
      have e : (applyType RawSchema.empty "object").Properties = none := rfl
      simp only [e, or_true, and_true, List.forall_mem_cons]

theorem required_is_sorted_common_keys_witness :
    ∃ i, Infer.fresh.applyAll
        ([[("foo", JValue.num true), ("bar", JValue.null)], [("foo", JValue.num true)]].map
          JValue.obj) = some i ∧
      i.Target.Required.Sorted (fun a b => a < b) ∧
      ∀ k, k ∈ i.Target.Required ↔
        ∀ o ∈ [[("foo", JValue.num true), ("bar", JValue.null)], [("foo", JValue.num true)]],
          k ∈ o.map Prod.fst :=
  required_is_sorted_common_keys
    [[("foo", JValue.num true), ("bar", JValue.null)], [("foo", JValue.num true)]]
    (by simp)
    (by
      intro o ho kv hkv
      simp only [List.mem_cons, List.mem_singleton, List.not_mem_nil, or_false] at ho
      rcases ho with rfl | rfl
      · simp only [List.mem_cons, List.mem_singleton, List.not_mem_nil, or_false] at hkv
        rcases hkv with rfl | rfl <;> rfl
      · simp only [List.mem_cons, List.mem_singleton, List.not_mem_nil, or_false] at hkv
        subst hkv; rfl)

/-! ## Objects: the property list -/

theorem lookup_cons_pair {β : Type} (q : String × β) (qs : List (String × β)) (k : String) :
    (q :: qs).lookup k = if k = q.1 then some q.2 else qs.lookup k := by
  obtain ⟨a, b⟩ := q
  rw [List.lookup_cons]
  by_cases hk : k = a
  · subst hk; simp
  · have hb : (k == a) = false := by simpa using hk
    simp [hb, hk]

theorem lookup_collectProps_none (ps : List RawProperty) (i : Nat) (m : List (String × Nat))
    (k : String) (h : (collectProps ps i m).lookup k = none) :
    k ∉ ps.map Prod.fst ∧ m.lookup k = none := by
  induction ps generalizing i m with
  | nil => exact ⟨by simp, by simpa [collectProps] using h⟩
  | cons p ps ih =>
    simp only [collectProps] at h
    obtain ⟨h1, h2⟩ := ih _ _ h
    rw [lookup_cons_pair] at h2
    by_cases hk : k = p.1
    · simp [hk] at h2
    · simp only [hk, if_false] at h2
      refine ⟨?_, h2⟩
      simp only [List.map_cons, List.mem_cons, not_or]
      exact ⟨hk, h1⟩

theorem lookup_collectProps_some (ps : List RawProperty) (i : Nat) (m : List (String × Nat))
    (k : String) (j : Nat) (h : (collectProps ps i m).lookup k = some j) :
    m.lookup k = some j ∨ ∃ p, ps.get? (j - i) = some p ∧ p.1 = k ∧ i ≤ j := by
  induction ps generalizing i m with
  | nil => left; simpa [collectProps] using h
  | cons p ps ih =>
    simp only [collectProps] at h
    rcases ih _ _ h with h1 | ⟨q, h1, h2, h3⟩
    · rw [lookup_cons_pair] at h1
      by_cases hk : k = p.1
      · simp only [hk, if_true, Option.some.injEq] at h1
        subst h1
        right
        exact ⟨p, by simp, hk.symm, le_refl _⟩
      · simp only [hk, if_false] at h1
        exact Or.inl h1
    · right
      refine ⟨q, ?_, h2, by omega⟩
      have : j - i = (j - (i + 1)) + 1 := by omega
      rw [this]
      simpa using h1

theorem lookup_eq_some_of_mem {ps : List RawProperty} (hn : (ps.map Prod.fst).Nodup)
    {p : RawProperty} (hp : p ∈ ps) : ps.lookup p.1 = some p.2 := by
  induction ps with
  | nil => cases hp
  | cons q qs ih =>
    rw [lookup_cons_pair]
    simp only [List.map_cons, List.nodup_cons] at hn
    rcases List.mem_cons.1 hp with rfl | hp
    · simp
    · have hne : p.1 ≠ q.1 := by
        intro e
        exact hn.1 (e ▸ List.mem_map_of_mem Prod.fst hp)
      rw [if_neg hne]
      exact ih hn.2 hp

theorem mem_of_lookup_eq_some {β : Type} {ps : List (String × β)} {k : String} {c : β}
    (h : ps.lookup k = some c) : (k, c) ∈ ps := by
  induction ps with
  | nil => simp at h
  | cons q qs ih =>
    rw [lookup_cons_pair] at h
    by_cases hk : k = q.1
    · simp only [hk, if_true, Option.some.injEq] at h
      subst h
      rw [hk]
      exact List.mem_cons_self _ _
    · rw [if_neg hk] at h
      exact List.mem_cons_of_mem _ (ih h)

theorem lookup_eq_none_iff_not_mem {β : Type} (ps : List (String × β)) (k : String) :
    ps.lookup k = none ↔ k ∉ ps.map Prod.fst := by
  induction ps with
  | nil => simp
  | cons q qs ih =>
    rw [lookup_cons_pair]
    by_cases hk : k = q.1
    · simp [hk]
    · rw [if_neg hk]
      simp only [List.map_cons, List.mem_cons, not_or]
      rw [ih]
      exact ⟨fun h => ⟨hk, h⟩, fun h => h.2⟩

theorem setPropAt_names (ps : List RawProperty) (i : Nat) (c : RawSchema) :
    (setPropAt ps i c).map Prod.fst = ps.map Prod.fst := by
  induction ps generalizing i with
  | nil => rfl
  | cons q qs ih =>
    cases i with
    | zero => rfl
    | succ i => simp [setPropAt, ih]

theorem get?_setPropAt_names (ps : List RawProperty) (i j : Nat) (c : RawSchema) :
    ((setPropAt ps i c).get? j).map Prod.fst = (ps.get? j).map Prod.fst := by
  have := congrArg (fun l => l.get? j) (setPropAt_names ps i c)
  simpa [List.getElem?_map] using this

theorem lookup_setPropAt {ps : List RawProperty} (hn : (ps.map Prod.fst).Nodup)
    {i : Nat} {p : RawProperty} (hp : ps.get? i = some p) (c : RawSchema) (k : String) :
    (setPropAt ps i c).lookup k = if k = p.1 then some c else ps.lookup k := by
  induction ps generalizing i with
  | nil => simp at hp
  | cons q qs ih =>
    simp only [List.map_cons, List.nodup_cons] at hn
    cases i with
    | zero =>
      simp only [List.get?_cons_zero, Option.some.injEq] at hp
      subst hp
      simp only [setPropAt]
      rw [lookup_cons_pair, lookup_cons_pair]
      by_cases hk : k = q.1 <;> simp [hk]
    | succ i =>
      simp only [List.get?_cons_succ] at hp
      simp only [setPropAt]
      rw [lookup_cons_pair, lookup_cons_pair, ih hn.2 hp]
      by_cases hk : k = q.1
      · subst hk
        have hne : ¬ q.1 = p.1 := by
          intro e
          exact hn.1 (e ▸ List.mem_map_of_mem Prod.fst (List.get?_mem hp))
        simp [hne]
      · simp [hk]

theorem lookup_append_new {ps : List RawProperty} {key : String}
    (hkey : key ∉ ps.map Prod.fst) (c : RawSchema) (k : String) :
    (ps ++ [(key, c)]).lookup k = if k = key then some c else ps.lookup k := by
  induction ps with
  | nil =>
    rw [List.nil_append, lookup_cons_pair]
  | cons q qs ih =>
    simp only [List.map_cons, List.mem_cons, not_or] at hkey
    rw [List.cons_append, lookup_cons_pair, lookup_cons_pair, ih hkey.2]
    by_cases hk : k = q.1
    · subst hk
      have : ¬ q.1 = key := fun e => hkey.1 e.symm
      simp [this]
    · simp [hk]

theorem propAt_eq {ps : List RawProperty} {i : Nat} {p : RawProperty}
    (hp : ps.get? i = some p) : propAt ps i = p.2 := by
  unfold propAt
  rw [hp]

theorem props_of_Properties {s : RawSchema} {ps : List RawProperty}
    (h : s.Properties = some ps) : s.props = ps := by
  unfold RawSchema.props
  rw [h]
  rfl

/-- The property list after the object loop, for an object with pairwise
distinct keys on a node whose property names are pairwise distinct: the child
of every key of the object is the previous child (a new node if there was
none) with the key's value applied; all other children are untouched. -/
theorem applyFields_props (kvs : List (String × JValue))
    (hok : ∀ kv ∈ kvs, ∀ s, (apply s kv.2).2 = true)
    (props : List (String × Nat)) (fa : Bool) (st : ObjState) (ps : List RawProperty)
    (hps : st.s.Properties = some ps)
    (hn : (ps.map Prod.fst).Nodup)
    (hkeys : (kvs.map Prod.fst).Nodup)
    (hvalid : ∀ k i, props.lookup k = some i → ∃ p, ps.get? i = some p ∧ p.1 = k)
    (hnew : ∀ k ∈ kvs.map Prod.fst, props.lookup k = none → k ∉ ps.map Prod.fst) :
    ∃ ps1, (applyFields props fa st kvs).1.s.Properties = some ps1 ∧
      (ps1.map Prod.fst).Nodup ∧
      ∀ k, ps1.lookup k =
        match kvs.lookup k with
        | some v => some (apply ((ps.lookup k).getD RawSchema.empty) v).1
        | none => ps.lookup k := by
  induction kvs generalizing st ps with
  | nil => exact ⟨ps, by simpa [applyFields] using hps, hn, fun k => by simp⟩
  | cons kv kvs ih =>
    obtain ⟨key, v⟩ := kv
    have hv : ∀ s, (apply s v).2 = true := hok (key, v) (List.mem_cons_self _ _)
    have hok1 : ∀ kv ∈ kvs, ∀ s, (apply s kv.2).2 = true :=
      fun y hy => hok y (List.mem_cons_of_mem _ hy)
    simp only [List.map_cons, List.nodup_cons] at hkeys
    have hrest : kvs.lookup key = none := (lookup_eq_none_iff_not_mem kvs key).2 hkeys.1
    have hprops : st.s.props = ps := props_of_Properties hps
    simp only [applyFields, hprops]
    cases hl : props.lookup key with
    | some i =>
      obtain ⟨p, hp, hpk⟩ := hvalid key i hl
      simp only [hv, if_true]
      obtain ⟨ps1, h1, h2, h3⟩ := ih hok1
        ⟨st.s.setProperties (some (setPropAt ps i (apply (propAt ps i) v).1)),
          st.required, st.this.insert key⟩
        (setPropAt ps i (apply (propAt ps i) v).1) (by simp)
        (by rw [setPropAt_names]; exact hn) hkeys.2
        (by
          intro k j hkj
          obtain ⟨q, hq, hqk⟩ := hvalid k j hkj
          have := get?_setPropAt_names ps i j (apply (propAt ps i) v).1
          rw [hq] at this
          cases hg : (setPropAt ps i (apply (propAt ps i) v).1).get? j with
          | none => rw [hg] at this; simp at this
          | some q1 =>
            rw [hg] at this
            simp only [Option.map_some', Option.some.injEq] at this
            exact ⟨q1, rfl, this.trans hqk⟩)
        (by
          intro k hk hkn
          rw [setPropAt_names]
          exact hnew k (List.mem_cons_of_mem _ hk) hkn)
      refine ⟨ps1, h1, h2, fun k => ?_⟩
      rw [h3 k, lookup_cons_pair, lookup_setPropAt hn hp, hpk]
      by_cases hk : k = key
      · subst hk
        have e1 : ps.lookup k = some p.2 := hpk ▸ lookup_eq_some_of_mem hn (List.get?_mem hp)
        simp [hrest, e1, propAt_eq hp]
      · simp only [hk, if_false]
    | none =>
      have hkey : key ∉ ps.map Prod.fst := hnew key (List.mem_cons_self _ _) hl
      simp only [hv, if_true]
      obtain ⟨ps1, h1, h2, h3⟩ := ih hok1
        ⟨st.s.setProperties (some (ps ++ [(key, (apply RawSchema.empty v).1)])),
          if fa = true then st.required.insert key else st.required, st.this.insert key⟩
        (ps ++ [(key, (apply RawSchema.empty v).1)]) (by simp)
        (by
          rw [List.map_append, List.nodup_append]
          refine ⟨hn, by simp, ?_⟩
          intro a ha hb
          simp only [List.map_cons, List.map_nil, List.mem_singleton] at hb
          exact hkey (hb ▸ ha))
        hkeys.2
        (by
          intro k j hkj
          obtain ⟨q, hq, hqk⟩ := hvalid k j hkj
          refine ⟨q, ?_, hqk⟩
          have hj : j < ps.length := by
            by_contra hcon
            rw [List.get?_eq_none.2 (by omega)] at hq
            cases hq
          rw [List.get?_eq_getElem?, List.getElem?_append_left hj, ← List.get?_eq_getElem?]
          exact hq)
        (by
          intro k hk hkn
          rw [List.map_append, List.mem_append, not_or]
          refine ⟨hnew k (List.mem_cons_of_mem _ hk) hkn, ?_⟩
          simp only [List.map_cons, List.map_nil, List.mem_singleton]
          intro e
          exact hkeys.1 (e ▸ hk))
      refine ⟨ps1, h1, h2, fun k => ?_⟩
      rw [h3 k, lookup_cons_pair, lookup_append_new hkey]
      by_cases hk : k = key
      · subst hk
        have e1 : ps.lookup k = none := (lookup_eq_none_iff_not_mem ps k).2 hkey
        simp [hrest, e1]
      · simp only [hk, if_false]

theorem lookup_perm {ps qs : List RawProperty} (hn : (ps.map Prod.fst).Nodup)
    (hperm : ps.Perm qs) (k : String) : qs.lookup k = ps.lookup k := by
  have hn2 : (qs.map Prod.fst).Nodup := ((hperm.map Prod.fst).nodup_iff).1 hn
  cases h : ps.lookup k with
  | none =>
    rw [lookup_eq_none_iff_not_mem] at h ⊢
    intro hk
    exact h ((hperm.map Prod.fst).mem_iff.2 hk)
  | some c =>
    exact lookup_eq_some_of_mem hn2 (p := (k, c)) (hperm.mem_iff.1 (mem_of_lookup_eq_some h))

theorem objBegin_of_objectSeen (s : RawSchema) (h : objectSeen s) : objBegin s = (s, false) := by
  have e : applyType s "object" = s := by rw [applyType, if_pos h.1]
  have h2 := h.2
  simp only [objBegin, e]
  cases hp : s.Properties with
  | none => rw [hp] at h2; cases h2
  | some ps => simp

theorem objBegin_props (s : RawSchema) (h : s = RawSchema.empty ∨ objectSeen s) :
    (objBegin s).1.props = s.props := by
  rcases h with rfl | h
  · rfl
  · rw [objBegin_of_objectSeen s h]

/-- The property list after one object with pairwise distinct keys. -/
theorem apply_obj_props (s : RawSchema) (kvs : List (String × JValue))
    (hok : ∀ kv ∈ kvs, ∀ s, (apply s kv.2).2 = true)
    (hkeys : (kvs.map Prod.fst).Nodup)
    (hn : ((objBegin s).1.props.map Prod.fst).Nodup) :
    ∃ ps1, (apply s (.obj kvs)).1.Properties = some ps1 ∧
      (ps1.map Prod.fst).Nodup ∧
      ∀ k, ps1.lookup k =
        match kvs.lookup k with
        | some v => some (apply (((objBegin s).1.props.lookup k).getD RawSchema.empty) v).1
        | none => (objBegin s).1.props.lookup k := by
  have hps : (objInit s).s.Properties = some (objBegin s).1.props := by
    have := objBegin_Properties_isSome s
    simp only [objInit, RawSchema.props]
    cases hp : (objBegin s).1.Properties with
    | none => rw [hp] at this; cases this
    | some ps => rfl
  obtain ⟨ps1, h1, h2, h3⟩ := applyFields_props kvs hok
    (collectProps (objBegin s).1.props 0 []) (objBegin s).2 (objInit s)
    (objBegin s).1.props hps hn hkeys
    (by
      intro k i hki
      rcases lookup_collectProps_some _ _ _ _ _ hki with h | ⟨p, hp, hpk, _⟩
      · simp at h
      · exact ⟨p, by simpa using hp, hpk⟩)
    (by
      intro k _ hkn
      exact (lookup_collectProps_none _ _ _ _ hkn).1)
  have hprops : (applyFields (collectProps (objBegin s).1.props 0 []) (objBegin s).2
      (objInit s) kvs).1.s.props = ps1 := props_of_Properties h1
  refine ⟨sortProperties ps1, ?_, ?_, ?_⟩
  · simp only [apply, objEnd]
    rw [applyFields_ok kvs hok]
    simp [hprops]
  · exact (((sortProperties_perm ps1).map Prod.fst).nodup_iff).2 h2
  · intro k
    rw [← h3 k]
    exact lookup_perm h2 (sortProperties_perm ps1).symm k

/-- The property list after a sequence of objects with pairwise distinct keys:
the child of a key is the previous child (a new node if there was none) with
the values of that key applied in order. -/
theorem applySeq_obj_props (objs : List (List (String × JValue)))
    (hok : ∀ o ∈ objs, ∀ kv ∈ o, ∀ s, (apply s kv.2).2 = true)
    (hkeys : ∀ o ∈ objs, (o.map Prod.fst).Nodup)
    (s : RawSchema) (hs : s = RawSchema.empty ∨ objectSeen s)
    (hn : (s.props.map Prod.fst).Nodup) :
    (((applySeq s (objs.map JValue.obj)).props).map Prod.fst).Nodup ∧
      ∀ k, (applySeq s (objs.map JValue.obj)).props.lookup k =
        if (objs.filterMap (fun o => o.lookup k)).isEmpty then s.props.lookup k
        else some (applySeq ((s.props.lookup k).getD RawSchema.empty)
          (objs.filterMap (fun o => o.lookup k))) := by
  induction objs generalizing s with
  | nil => exact ⟨hn, fun k => by simp⟩
  | cons o objs ih =>
    have hb := objBegin_props s hs
    obtain ⟨ps1, h1, h2, h3⟩ := apply_obj_props s o (hok o (List.mem_cons_self _ _))
      (hkeys o (List.mem_cons_self _ _)) (by rw [hb]; exact hn)
    have hprops : (apply s (.obj o)).1.props = ps1 := props_of_Properties h1
    obtain ⟨h4, h5⟩ := ih (fun o1 ho1 => hok o1 (List.mem_cons_of_mem _ ho1))
      (fun o1 ho1 => hkeys o1 (List.mem_cons_of_mem _ ho1)) (apply s (.obj o)).1
      (Or.inr (objectSeen_apply_obj s o)) (by rw [hprops]; exact h2)
    rw [List.map_cons, applySeq_cons]
    refine ⟨h4, fun k => ?_⟩
    rw [h5 k, hprops, h3 k, hb, List.filterMap_cons]
    cases ho : o.lookup k with
    | none => simp
    | some v =>
      simp only [List.isEmpty_cons, Bool.false_eq_true, if_false, applySeq_cons,
        Option.getD_some]
      cases hrest : objs.filterMap (fun o => o.lookup k) with
      | nil => simp
      | cons w ws => simp

/-- C8. Every non-empty sequence of JSON objects with well-formed field values
and pairwise distinct keys, applied in order to a fresh engine, is accepted;
the root's property list then has exactly one entry for every key that occurs
in one of the objects and no other entry, and the child schema of a key is the
tree a fresh engine builds from the values this key has in the objects that
contain it, applied in order. -/
theorem properties_merge_per_key (objs : List (List (String × JValue)))
    (hne : objs ≠ []) (hkeys : ∀ o ∈ objs, (o.map Prod.fst).Nodup)
    (hwf : ∀ o ∈ objs, ∀ kv ∈ o, kv.2.wellFormed = true) :
    ∃ i ps, Infer.fresh.applyAll (objs.map JValue.obj) = some i ∧
      i.Target.Properties = some ps ∧
      (ps.map Prod.fst).Nodup ∧
      (∀ k, k ∈ ps.map Prod.fst ↔ ∃ o ∈ objs, k ∈ o.map Prod.fst) ∧
      ∀ p ∈ ps, Infer.fresh.applyAll (objs.filterMap (fun o => o.lookup p.1)) = some ⟨p.2⟩ := by
  have hok : ∀ o ∈ objs, ∀ kv ∈ o, ∀ s, (apply s kv.2).2 = true :=
    fun o ho kv hkv => apply_ok kv.2 (hwf o ho kv hkv)
  obtain ⟨h1, h2⟩ := applySeq_obj_props objs hok hkeys RawSchema.empty (Or.inl rfl)
    (by simp [RawSchema.props, RawSchema.empty])
  have hsome : (applySeq RawSchema.empty (objs.map JValue.obj)).Properties.isSome = true := by
    cases objs with
    | nil => exact absurd rfl hne
    | cons o objs =>
      rw [List.map_cons, applySeq_cons]
      have hseen : ∀ (l : List (List (String × JValue))) (s : RawSchema), objectSeen s →
          objectSeen (applySeq s (l.map JValue.obj)) := by
        intro l
        induction l with
        | nil => intro s hs; exact hs
        | cons a l ih => intro s _; exact ih _ (objectSeen_apply_obj s a)
      exact (hseen objs _ (objectSeen_apply_obj _ o)).2
  cases hp : (applySeq RawSchema.empty (objs.map JValue.obj)).Properties with
  | none => rw [hp] at hsome; cases hsome
  | some ps =>
    have hprops : (applySeq RawSchema.empty (objs.map JValue.obj)).props = ps :=
      props_of_Properties hp
    rw [hprops] at h1 h2
    have hempty : ∀ k, RawSchema.empty.props.lookup k = none := fun k => rfl
    have hvals : ∀ k, ∀ v ∈ objs.filterMap (fun o => o.lookup k), v.wellFormed = true := by
      intro k v hv
      obtain ⟨o, ho, hov⟩ := List.mem_filterMap.1 hv
      exact hwf o ho (k, v) (mem_of_lookup_eq_some hov)
    refine ⟨⟨applySeq RawSchema.empty (objs.map JValue.obj)⟩, ps,
      applyAll_eq _ (wellFormed_map_obj objs hwf) _, hp, h1, ?_, ?_⟩
    · intro k
      have := h2 k
      rw [hempty] at this
      constructor
      · intro hk
        by_contra hcon
        have hall : objs.filterMap (fun o => o.lookup k) = [] := by
          rw [List.filterMap_eq_nil_iff]
          intro o ho
          rw [lookup_eq_none_iff_not_mem]
          exact fun h => hcon ⟨o, ho, h⟩
        rw [hall] at this
        simp only [List.isEmpty_nil, if_true] at this
        exact (lookup_eq_none_iff_not_mem ps k).1 this hk
      · rintro ⟨o, ho, hk⟩
        by_contra hcon
        rw [(lookup_eq_none_iff_not_mem ps k).2 hcon] at this
        cases hv : objs.filterMap (fun o => o.lookup k) with
        | nil =>
          rw [List.filterMap_eq_nil_iff] at hv
          exact (lookup_eq_none_iff_not_mem o k).1 (hv o ho) hk
        | cons w ws => rw [hv] at this; simp at this
    · intro p hp1
      have := h2 p.1
      rw [hempty, lookup_eq_some_of_mem h1 hp1] at this
      cases hv : objs.filterMap (fun o => o.lookup p.1) with
      | nil => rw [hv] at this; simp at this
      | cons w ws =>
        rw [hv] at this
        simp only [List.isEmpty_cons, Bool.false_eq_true, if_false, Option.getD_none,
          Option.some.injEq] at this
        rw [this, ← hv]
        exact applyAll_eq _ (hvals p.1) _

theorem properties_merge_per_key_witness :
    ∃ i ps, Infer.fresh.applyAll
        ([[("foo", JValue.num true)],
          [("foo", JValue.num false), ("bar", JValue.str "baz")]].map JValue.obj) = some i ∧
      i.Target.Properties = some ps ∧
      (ps.map Prod.fst).Nodup ∧
      (∀ k, k ∈ ps.map Prod.fst ↔
        ∃ o ∈ [[("foo", JValue.num true)],
          [("foo", JValue.num false), ("bar", JValue.str "baz")]], k ∈ o.map Prod.fst) ∧
      ∀ p ∈ ps, Infer.fresh.applyAll
        ([[("foo", JValue.num true)],
          [("foo", JValue.num false), ("bar", JValue.str "baz")]].filterMap
            (fun o => o.lookup p.1)) = some ⟨p.2⟩ :=
  properties_merge_per_key
    [[("foo", JValue.num true)], [("foo", JValue.num false), ("bar", JValue.str "baz")]]
    (by simp)
    (by
      intro o ho
      simp only [List.mem_cons, List.mem_singleton, List.not_mem_nil, or_false] at ho
      rcases ho with rfl | rfl <;> decide)
    (by
      intro o ho kv hkv
      simp only [List.mem_cons, List.mem_singleton, List.not_mem_nil, or_false] at ho
      rcases ho with rfl | rfl
      · simp only [List.mem_cons, List.mem_singleton, List.not_mem_nil, or_false] at hkv
        subst hkv; rfl
      · simp only [List.mem_cons, List.mem_singleton, List.not_mem_nil, or_false] at hkv
        rcases hkv with rfl | rfl <;> rfl)

/-! ## The required list after the root has branched -/

/-- C5 at the failing input. After `{"a":1}` and `true` the root is a union
whose own required list is empty and whose own property list is nil again, so
the next object `{"b":1}` is taken for a first object: "b" enters the root's
required list although an object had been observed before, and the required
list after the call is not a subset of the one before. -/
theorem required_grows_after_branching :
    ∃ i j, Infer.fresh.applyAll [.obj [("a", .num true)], .bool true] = some i ∧
      i.Apply (.obj [("b", .num true)]) = (j, true) ∧
      i.Target = RawSchema.mk [] false none [] none
          [RawSchema.mk ["object"] false (some [("a", RawSchema.ofType "integer")]) ["a"]
            none [], RawSchema.ofType "boolean"] ∧
      j.Target = RawSchema.mk [] false (some [("b", RawSchema.ofType "integer")]) ["b"] none
          [RawSchema.mk ["object"] false (some [("a", RawSchema.ofType "integer")]) ["a"]
            none [], RawSchema.ofType "boolean"] ∧
      i.Target.Required = [] ∧ j.Target.Required = ["b"] ∧
      ¬ (j.Target.Required ⊆ i.Target.Required) := by
  refine ⟨⟨RawSchema.mk [] false none [] none
      [RawSchema.mk ["object"] false (some [("a", RawSchema.ofType "integer")]) ["a"]
        none [], RawSchema.ofType "boolean"]⟩,
    ⟨RawSchema.mk [] false (some [("b", RawSchema.ofType "integer")]) ["b"] none
      [RawSchema.mk ["object"] false (some [("a", RawSchema.ofType "integer")]) ["a"]
        none [], RawSchema.ofType "boolean"]⟩, rfl, rfl, rfl, rfl, rfl, rfl, ?_⟩
  simp [Infer.Target]

/-! ## Nodes that have seen only strings, booleans and numbers

Such a node is determined by the list of tags it carries, in order of first
occurrence: no tag gives the empty node, one tag a plain typed node, two or
more tags a union of plain typed alternatives. -/

theorem hasType_ofTags (ts : List String) (tt : String) :
    hasType (RawSchema.ofTags ts) tt = true ↔ tt ∈ ts := by
  rw [hasType_iff]
  match ts with
  | [] => simp [RawSchema.ofTags, RawSchema.empty]
  | [t] => simp [RawSchema.ofTags, RawSchema.ofType]
  | t :: u :: ts =>
    simp only [RawSchema.ofTags, RawSchema.Typ_mk, RawSchema.OneOf_mk, List.not_mem_nil,
      false_or, List.mem_map]
    constructor
    · rintro ⟨a, ⟨x, hx, rfl⟩, h⟩
      simp only [RawSchema.ofType, RawSchema.Typ_mk, List.mem_singleton] at h
      exact h ▸ hx
    · intro h
      exact ⟨RawSchema.ofType tt, ⟨tt, h, rfl⟩, by simp [RawSchema.ofType]⟩

theorem applyType_ofTags (ts : List String) (tt : String) :
    applyType (RawSchema.ofTags ts) tt = RawSchema.ofTags (addTag ts tt) := by
  by_cases h : tt ∈ ts
  · rw [applyType, if_pos ((hasType_ofTags ts tt).2 h), addTag, if_pos h]
  · have hh : ¬ hasType (RawSchema.ofTags ts) tt = true := fun e => h ((hasType_ofTags ts tt).1 e)
    rw [applyType, if_neg hh, addTag, if_neg h]
    match ts with
    | [] => simp [RawSchema.ofTags, RawSchema.empty, RawSchema.ofType]
    | [t] => simp [RawSchema.ofTags, RawSchema.ofType]
    | t :: u :: ts => simp [RawSchema.ofTags]

theorem replaceInOneOf_map_ofType (ts : List String) (src dst : String) :
    replaceInOneOf (ts.map RawSchema.ofType) src dst
      = (replaceTag ts src dst).map (fun ts1 => ts1.map RawSchema.ofType) := by
  induction ts with
  | nil => rfl
  | cons t ts ih =>
    simp only [List.map_cons, replaceInOneOf, replaceTag]
    by_cases ht : (t == src) = true
    · simp [RawSchema.ofType, replaceTag, ht]
    · simp only [RawSchema.ofType, RawSchema.Typ_mk, replaceTag, ht, Bool.false_eq_true,
        if_false, Option.map_none']
      rw [show RawSchema.mk [t] false none [] none [] = RawSchema.ofType t from rfl, ih]
      cases replaceTag ts src dst <;> simp [RawSchema.ofType]

theorem replaceType_ofTags (ts : List String) (src dst : String) :
    replaceType (RawSchema.ofTags ts) src dst
      = match replaceTag ts src dst with
        | some ts1 => (RawSchema.ofTags ts1, true)
        | none => (RawSchema.ofTags ts, false) := by
  match ts with
  | [] => rfl
  | [t] =>
    simp only [replaceType, RawSchema.ofTags, RawSchema.ofType, RawSchema.Typ_mk, replaceTag]
    by_cases ht : (t == src) = true
    · simp [ht, RawSchema.ofTags, RawSchema.ofType]
    · simp [ht, replaceInOneOf]
  | t :: u :: ts =>
    have h := replaceInOneOf_map_ofType (t :: u :: ts) src dst
    have hl : ∀ ts1, replaceTag (t :: u :: ts) src dst = some ts1 →
        ts1.length = (t :: u :: ts).length := fun _ => replaceTag_length
    generalize replaceTag (t :: u :: ts) src dst = r at h hl ⊢
    simp only [replaceType, RawSchema.ofTags, RawSchema.Typ_mk, RawSchema.OneOf_mk, replaceTag]
    rw [h]
    cases r with
    | none => simp
    | some ts1 =>
      have hl1 := hl ts1 rfl
      match ts1, hl1 with
      | a :: b :: cs, _ => simp [RawSchema.ofTags]

/-- On a node given by its tag list, a string, boolean or number acts through
the tag list alone. -/
theorem apply_ofTags (ts : List String) (v : JValue) (hv : v.isScalar = true) :
    (apply (RawSchema.ofTags ts) v).1 = RawSchema.ofTags (tagStep ts v) := by
  cases v with
  | str s => simp [apply, tagStep, applyType_ofTags]
  | bool b => simp [apply, tagStep, applyType_ofTags]
  | num b =>
    simp only [apply, tagStep, applyType_ofTags, replaceType_ofTags]
    have hd : hasType (RawSchema.ofTags ts) "number" = decide ("number" ∈ ts) := by
      by_cases h : "number" ∈ ts
      · simp [h, (hasType_ofTags ts "number").2 h]
      · have : ¬ hasType (RawSchema.ofTags ts) "number" = true :=
          fun e => h ((hasType_ofTags ts "number").1 e)
        simp [h, this]
    rw [hd]
    by_cases hc : (b && !decide ("number" ∈ ts)) = true
    · rw [if_pos hc, if_pos hc]
    · rw [if_neg hc, if_neg hc]
      cases replaceTag ts "integer" "number" <;> simp
  | _ => simp [JValue.isScalar] at hv

theorem applySeq_ofTags (vs : List JValue) (hvs : ∀ v ∈ vs, v.isScalar = true)
    (ts : List String) :
    applySeq (RawSchema.ofTags ts) vs = RawSchema.ofTags (vs.foldl tagStep ts) := by
  induction vs generalizing ts with
  | nil => rfl
  | cons v vs ih =>
    rw [applySeq_cons, apply_ofTags ts v (hvs v (List.mem_cons_self _ _)), List.foldl_cons]
    exact ih (fun y hy => hvs y (List.mem_cons_of_mem _ hy)) _

theorem wellFormed_of_isScalar (v : JValue) (h : v.isScalar = true) : v.wellFormed = true := by
  cases v <;> simp [JValue.isScalar] at h <;> rfl

theorem mem_addTag (ts : List String) (tt t : String) :
    t ∈ addTag ts tt ↔ t ∈ ts ∨ t = tt := by
  unfold addTag
  split_ifs with h
  · constructor
    · exact Or.inl
    · rintro (h1 | rfl)
      · exact h1
      · exact h
  · simp

theorem nodup_addTag (ts : List String) (tt : String) (h : ts.Nodup) :
    (addTag ts tt).Nodup := by
  unfold addTag
  split_ifs with h1
  · exact h
  · rw [List.nodup_append]
    refine ⟨h, List.nodup_singleton _, ?_⟩
    intro a ha hb
    simp only [List.mem_singleton] at hb
    exact h1 (hb ▸ ha)

theorem replaceTag_nodup {ts ts1 : List String} {src dst : String}
    (h : replaceTag ts src dst = some ts1) (hn : ts.Nodup) (hd : dst ∉ ts) :
    ts1.Nodup ∧ ∀ t, t ∈ ts1 ↔ (t ∈ ts ∧ t ≠ src) ∨ t = dst := by
  induction ts generalizing ts1 with
  | nil => simp [replaceTag] at h
  | cons u ts ih =>
    simp only [List.nodup_cons] at hn
    simp only [List.mem_cons, not_or] at hd
    simp only [replaceTag] at h
    by_cases hu : (u == src) = true
    · rw [if_pos hu] at h
      cases h
      have hus : u = src := by simpa using hu
      subst hus
      refine ⟨List.nodup_cons.2 ⟨hd.2, hn.2⟩, fun t => ?_⟩
      simp only [List.mem_cons]
      constructor
      · rintro (rfl | h1)
        · exact Or.inr rfl
        · exact Or.inl ⟨Or.inr h1, fun e => hn.1 (e ▸ h1)⟩
      · rintro (⟨rfl | h1, h2⟩ | rfl)
        · exact absurd rfl h2
        · exact Or.inr h1
        · exact Or.inl rfl
    · rw [if_neg hu] at h
      have hus : u ≠ src := by simpa using hu
      cases hr : replaceTag ts src dst with
      | none => simp [hr] at h
      | some ts2 =>
        simp [hr] at h
        subst h
        obtain ⟨h1, h2⟩ := ih hr hn.2 hd.2
        refine ⟨List.nodup_cons.2 ⟨?_, h1⟩, fun t => ?_⟩
        · rw [h2]
          rintro (⟨h3, _⟩ | h3)
          · exact hn.1 h3
          · exact hd.1 h3.symm
        · simp only [List.mem_cons, h2]
          constructor
          · rintro (rfl | ⟨h3, h4⟩ | rfl)
            · exact Or.inl ⟨Or.inl rfl, hus⟩
            · exact Or.inl ⟨Or.inr h3, h4⟩
            · exact Or.inr rfl
          · rintro (⟨rfl | h3, h4⟩ | rfl)
            · exact Or.inl rfl
            · exact Or.inr (Or.inl ⟨h3, h4⟩)
            · exact Or.inr (Or.inr rfl)

theorem replaceTag_eq_none {ts : List String} {src dst : String} (h : src ∉ ts) :
    replaceTag ts src dst = none := by
  have := replaceTag_isSome_iff ts src dst
  cases hr : replaceTag ts src dst with
  | none => rfl
  | some ts1 => rw [hr] at this; exact absurd (this.1 rfl) h

/-- The marker update keeps the tag list well formed. -/
theorem tagsOk_tagStep (ts : List String) (hts : TagsOk ts) (v : JValue) :
    TagsOk (tagStep ts v) := by
  have hadd : ∀ tt, tt ≠ "integer" → tt ≠ "number" → TagsOk (addTag ts tt) := by
    intro tt h1 h2
    refine ⟨nodup_addTag ts tt hts.1, ?_⟩
    rw [mem_addTag, mem_addTag]
    rintro ⟨h3 | h3, h4 | h4⟩
    · exact hts.2 ⟨h3, h4⟩
    · exact h2 h4.symm
    · exact h1 h3.symm
    · exact h1 h3.symm
  cases v with
  | num b =>
    cases b with
    | true =>
      by_cases hnum : "number" ∈ ts
      · have hint : "integer" ∉ ts := fun h => hts.2 ⟨h, hnum⟩
        have e : tagStep ts (.num true) = ts := by
          simp only [tagStep, hnum, decide_True, Bool.not_true, Bool.and_false,
            Bool.false_eq_true, if_false, replaceTag_eq_none hint]
          simp [addTag, hnum]
        rw [e]; exact hts
      · have e : tagStep ts (.num true) = addTag ts "integer" := by
          simp [tagStep, hnum]
        rw [e]
        refine ⟨nodup_addTag ts _ hts.1, ?_⟩
        rw [mem_addTag, mem_addTag]
        rintro ⟨_, h4 | h4⟩
        · exact hnum h4
        · exact absurd h4 (by decide)
    | false =>
      by_cases hint : "integer" ∈ ts
      · have hnum : "number" ∉ ts := fun h => hts.2 ⟨hint, h⟩
        cases hr : replaceTag ts "integer" "number" with
        | none =>
          have := (replaceTag_isSome_iff ts "integer" "number").2 hint
          rw [hr] at this; cases this
        | some ts1 =>
          have e : tagStep ts (.num false) = ts1 := by simp [tagStep, hr]
          rw [e]
          obtain ⟨h1, h2⟩ := replaceTag_nodup hr hts.1 hnum
          refine ⟨h1, ?_⟩
          rw [h2 "integer"]
          rintro ⟨⟨_, h3⟩ | h3, _⟩
          · exact h3 rfl
          · exact absurd h3 (by decide)
      · have e : tagStep ts (.num false) = addTag ts "number" := by
          simp [tagStep, replaceTag_eq_none hint]
        rw [e]
        refine ⟨nodup_addTag ts _ hts.1, ?_⟩
        rw [mem_addTag, mem_addTag]
        rintro ⟨h3 | h3, _⟩
        · exact hint h3
        · exact absurd h3 (by decide)
  | str s => exact hadd _ (by decide) (by decide)
  | badStr => exact hadd _ (by decide) (by decide)
  | bool b => exact hadd _ (by decide) (by decide)
  | badBool => exact hadd _ (by decide) (by decide)
  | arr xs => exact hadd _ (by decide) (by decide)
  | arrCut xs => exact hadd _ (by decide) (by decide)
  | obj kvs => exact hadd _ (by decide) (by decide)
  | objCut kvs => exact hadd _ (by decide) (by decide)
  | null => exact hts
  | badNull => exact hts
  | invalid => exact hts
  | badNum => exact hts

theorem mem_tagStep_of_kindTag (ts : List String) (v : JValue) (k : String)
    (hk : kindTag v = some k) (t : String) : t ∈ tagStep ts v ↔ t ∈ ts ∨ t = k := by
  cases v <;> simp only [kindTag, Option.some.injEq] at hk <;> first
    | (subst hk; exact mem_addTag ts _ t)
    | cases hk

theorem mem_tagStep_integral (ts : List String) (hts : TagsOk ts) (t : String) :
    t ∈ tagStep ts (.num true) ↔ t ∈ ts ∨ (t = "integer" ∧ "number" ∉ ts) := by
  by_cases hnum : "number" ∈ ts
  · have hint : "integer" ∉ ts := fun h => hts.2 ⟨h, hnum⟩
    have e : tagStep ts (.num true) = ts := by
      simp only [tagStep, hnum, decide_True, Bool.not_true, Bool.and_false,
        Bool.false_eq_true, if_false, replaceTag_eq_none hint]
      simp [addTag, hnum]
    rw [e]; simp [hnum]
  · have e : tagStep ts (.num true) = addTag ts "integer" := by
      simp [tagStep, hnum]
    rw [e, mem_addTag]; simp [hnum]

theorem mem_tagStep_fractional (ts : List String) (hts : TagsOk ts) (t : String) :
    t ∈ tagStep ts (.num false) ↔ (t ∈ ts ∧ t ≠ "integer") ∨ t = "number" := by
  by_cases hint : "integer" ∈ ts
  · have hnum : "number" ∉ ts := fun h => hts.2 ⟨hint, h⟩
    cases hr : replaceTag ts "integer" "number" with
    | none =>
      have := (replaceTag_isSome_iff ts "integer" "number").2 hint
      rw [hr] at this; cases this
    | some ts1 =>
      have e : tagStep ts (.num false) = ts1 := by simp [tagStep, hr]
      rw [e]
      exact (replaceTag_nodup hr hts.1 hnum).2 t
  · have e : tagStep ts (.num false) = addTag ts "number" := by
      simp [tagStep, replaceTag_eq_none hint]
    rw [e, mem_addTag]
    constructor
    · rintro (h1 | h1)
      · exact Or.inl ⟨h1, fun e => hint (e ▸ h1)⟩
      · exact Or.inr h1
    · rintro (⟨h1, _⟩ | h1)
      · exact Or.inl h1
      · exact Or.inr h1

theorem kindTag_ne_integer (v : JValue) : kindTag v ≠ some "integer" := by
  cases v <;> simp [kindTag]

/-- The values a well-formed value can be at the top level. -/
theorem wellFormed_cases (v : JValue) (h : v.wellFormed = true) :
    (∃ k, kindTag v = some k) ∨ v = .null ∨ v = .num true ∨ v = .num false := by
  cases v with
  | num b => cases b <;> simp
  | null => simp
  | str s => exact Or.inl ⟨_, rfl⟩
  | bool b => exact Or.inl ⟨_, rfl⟩
  | arr xs => exact Or.inl ⟨_, rfl⟩
  | obj kvs => exact Or.inl ⟨_, rfl⟩
  | _ => simp [JValue.wellFormed] at h

/-- The tag list a sequence of well-formed values builds from nothing:
duplicate free, and holding exactly the tags of `tagSeen`. -/
theorem foldl_tagStep_spec (vs : List JValue) (hvs : ∀ v ∈ vs, v.wellFormed = true) :
    TagsOk (vs.foldl tagStep []) ∧ ∀ t, t ∈ vs.foldl tagStep [] ↔ tagSeen vs t := by
  induction vs using List.reverseRecOn with
  | nil => exact ⟨⟨List.nodup_nil, by simp⟩, fun t => by simp [tagSeen]⟩
  | append_singleton vs v ih =>
    obtain ⟨h1, h2⟩ := ih (fun y hy => hvs y (List.mem_append_left _ hy))
    have hv := hvs v (List.mem_append_right _ (List.mem_singleton_self v))
    rw [List.foldl_append, List.foldl_cons, List.foldl_nil]
    refine ⟨tagsOk_tagStep _ h1 v, fun t => ?_⟩
    have hnum : "number" ∈ vs.foldl tagStep [] ↔ JValue.num false ∈ vs := by
      rw [h2]
      simp only [tagSeen]
      constructor
      · rintro (⟨w, _, hw⟩ | ⟨_, h⟩ | ⟨h, _⟩)
        · cases w <;> simp [kindTag] at hw
        · exact h
        · exact absurd h (by decide)
      · exact fun h => Or.inr (Or.inl ⟨trivial, h⟩)
    rcases wellFormed_cases v hv with ⟨k, hk⟩ | rfl | rfl | rfl
    · have hn : ∀ b, JValue.num b ≠ v := by
        intro b e; subst e; simp [kindTag] at hk
      rw [mem_tagStep_of_kindTag _ v k hk, h2]
      simp only [tagSeen, List.mem_append, List.mem_singleton]
      constructor
      · rintro ((⟨w, hw, hwk⟩ | ⟨h, hb⟩ | ⟨h, hb, hc⟩) | rfl)
        · exact Or.inl ⟨w, Or.inl hw, hwk⟩
        · exact Or.inr (Or.inl ⟨h, Or.inl hb⟩)
        · exact Or.inr (Or.inr ⟨h, Or.inl hb, fun hd => hd.elim hc (hn _)⟩)
        · exact Or.inl ⟨v, Or.inr rfl, hk⟩
      · rintro (⟨w, hw | rfl, hwk⟩ | ⟨h, hb | hb⟩ | ⟨h, hb | hb, hc⟩)
        · exact Or.inl (Or.inl ⟨w, hw, hwk⟩)
        · rw [hk] at hwk
          exact Or.inr (Option.some.inj hwk).symm
        · exact Or.inl (Or.inr (Or.inl ⟨h, hb⟩))
        · exact absurd hb (hn _)
        · exact Or.inl (Or.inr (Or.inr ⟨h, hb, fun hd => hc (Or.inl hd)⟩))
        · exact absurd hb (hn _)
    · have e : tagStep (vs.foldl tagStep []) JValue.null = vs.foldl tagStep [] := rfl
      rw [e, h2]
      simp only [tagSeen, List.mem_append, List.mem_singleton]
      constructor
      · rintro (⟨w, hw, hwk⟩ | ⟨h, hb⟩ | ⟨h, hb, hc⟩)
        · exact Or.inl ⟨w, Or.inl hw, hwk⟩
        · exact Or.inr (Or.inl ⟨h, Or.inl hb⟩)
        · exact Or.inr (Or.inr ⟨h, Or.inl hb, fun hd => hd.elim hc (by simp)⟩)
      · rintro (⟨w, hw | rfl, hwk⟩ | ⟨h, hb | hb⟩ | ⟨h, hb | hb, hc⟩)
        · exact Or.inl ⟨w, hw, hwk⟩
        · simp [kindTag] at hwk
        · exact Or.inr (Or.inl ⟨h, hb⟩)
        · simp at hb
        · exact Or.inr (Or.inr ⟨h, hb, fun hd => hc (Or.inl hd)⟩)
        · simp at hb
    · rw [mem_tagStep_integral _ h1, hnum, h2]
      simp only [tagSeen, List.mem_append, List.mem_singleton]
      constructor
      · rintro ((⟨w, hw, hwk⟩ | ⟨h, hb⟩ | ⟨h, hb, hc⟩) | ⟨rfl, h⟩)
        · exact Or.inl ⟨w, Or.inl hw, hwk⟩
        · exact Or.inr (Or.inl ⟨h, Or.inl hb⟩)
        · exact Or.inr (Or.inr ⟨h, Or.inl hb, fun hd => hd.elim hc (by simp)⟩)
        · exact Or.inr (Or.inr ⟨rfl, Or.inr trivial, fun hd => hd.elim h (by simp)⟩)
      · rintro (⟨w, hw | rfl, hwk⟩ | ⟨h, hb | hb⟩ | ⟨rfl, _, hc⟩)
        · exact Or.inl (Or.inl ⟨w, hw, hwk⟩)
        · simp [kindTag] at hwk
        · exact Or.inl (Or.inr (Or.inl ⟨h, hb⟩))
        · simp at hb
        · exact Or.inr ⟨rfl, fun hd => hc (Or.inl hd)⟩
    · rw [mem_tagStep_fractional _ h1, h2]
      simp only [tagSeen, List.mem_append, List.mem_singleton]
      constructor
      · rintro (⟨⟨w, hw, hwk⟩ | ⟨h, hb⟩ | ⟨h, _⟩, hne⟩ | rfl)
        · exact Or.inl ⟨w, Or.inl hw, hwk⟩
        · exact Or.inr (Or.inl ⟨h, Or.inl hb⟩)
        · exact absurd h hne
        · exact Or.inr (Or.inl ⟨rfl, Or.inr trivial⟩)
      · rintro (⟨w, hw | rfl, hwk⟩ | ⟨h, _⟩ | ⟨_, _, hc⟩)
        · refine Or.inl ⟨Or.inl ⟨w, hw, hwk⟩, ?_⟩
          rintro rfl
          exact kindTag_ne_integer w hwk
        · simp [kindTag] at hwk
        · exact Or.inr h
        · exact absurd (Or.inr trivial) hc

theorem tagSeen_perm {vs ws : List JValue} (h : vs.Perm ws) (t : String) :
    tagSeen vs t ↔ tagSeen ws t := by
  simp only [tagSeen, h.mem_iff]

/-- Permuted sequences of well-formed values build permuted tag lists. -/
theorem foldl_tagStep_perm {vs ws : List JValue} (h : vs.Perm ws)
    (hvs : ∀ v ∈ vs, v.wellFormed = true) :
    (vs.foldl tagStep []).Perm (ws.foldl tagStep []) := by
  have hws : ∀ v ∈ ws, v.wellFormed = true := fun v hv => hvs v (h.mem_iff.2 hv)
  obtain ⟨h1, h2⟩ := foldl_tagStep_spec vs hvs
  obtain ⟨h3, h4⟩ := foldl_tagStep_spec ws hws
  rw [List.perm_ext_iff_of_nodup h1.1 h3.1]
  intro t
  rw [h2, h4, tagSeen_perm h]

theorem applySeq_empty_scalars (vs : List JValue) (hvs : ∀ v ∈ vs, v.isScalar = true) :
    applySeq RawSchema.empty vs = RawSchema.ofTags (vs.foldl tagStep []) :=
  applySeq_ofTags vs hvs []

/-- C6. In each of the 24 orders in which `true`, `"foo"`, `10` and `1.0` can
be applied to a fresh engine, every call succeeds and the root ends without a
type marker of its own and with exactly three alternatives, each carrying a
single tag; the tags of the alternatives are boolean, string and number and no
other. -/
theorem four_values_in_any_order (vs : List JValue)
    (h : vs.Perm [.bool true, .str "foo", .num true, .num false]) :
    ∃ i, Infer.fresh.applyAll vs = some i ∧
      i.Target.Typ = [] ∧
      i.Target.OneOf.length = 3 ∧
      (∀ a ∈ i.Target.OneOf, a.Typ.length = 1) ∧
      ∀ t, (∃ a ∈ i.Target.OneOf, t ∈ a.Typ) ↔
        (t = "boolean" ∨ t = "string" ∨ t = "number") := by
  have hvs : ∀ v ∈ vs, v.isScalar = true := by
    intro v hv
    have := h.mem_iff.1 hv
    simp only [List.mem_cons, List.mem_singleton, List.not_mem_nil, or_false] at this
    rcases this with rfl | rfl | rfl | rfl <;> rfl
  obtain ⟨h1, h2⟩ := foldl_tagStep_spec vs (fun v hv => wellFormed_of_isScalar v (hvs v hv))
  have hmem : ∀ t, t ∈ vs.foldl tagStep [] ↔ t ∈ ["boolean", "string", "number"] := by
    intro t
    rw [h2, tagSeen_perm h]
    simp only [tagSeen, List.mem_cons, List.mem_singleton, List.not_mem_nil, or_false]
    constructor
    · rintro (⟨w, rfl | rfl | rfl | rfl, hw⟩ | ⟨rfl, _⟩ | ⟨_, _, hc⟩)
      · exact Or.inl (Option.some.inj hw).symm
      · exact Or.inr (Or.inl (Option.some.inj hw).symm)
      · simp [kindTag] at hw
      · simp [kindTag] at hw
      · exact Or.inr (Or.inr rfl)
      · exact absurd (by simp) hc
    · rintro (rfl | rfl | rfl)
      · exact Or.inl ⟨.bool true, by simp, rfl⟩
      · exact Or.inl ⟨.str "foo", by simp, rfl⟩
      · exact Or.inr (Or.inl ⟨rfl, by simp⟩)
  have hperm : (vs.foldl tagStep []).Perm ["boolean", "string", "number"] :=
    (List.perm_ext_iff_of_nodup h1.1 (by decide)).2 hmem
  refine ⟨⟨applySeq RawSchema.empty vs⟩,
    applyAll_eq vs (fun v hv => wellFormed_of_isScalar v (hvs v hv)) _, ?_⟩
  rw [Infer.Target, applySeq_empty_scalars vs hvs]
  have hlen := hperm.length_eq
  generalize vs.foldl tagStep [] = ts at hmem hlen
  match ts, hlen with
  | [a, b, c], _ =>
    refine ⟨rfl, rfl, ?_, fun t => ?_⟩
    · intro x hx
      simp only [RawSchema.ofTags, RawSchema.OneOf_mk, List.map_cons, List.map_nil,
        List.mem_cons, List.mem_singleton, List.not_mem_nil, or_false] at hx
      rcases hx with rfl | rfl | rfl <;> rfl
    · have := hmem t
      simp only [List.mem_cons, List.mem_singleton, List.not_mem_nil, or_false] at this
      rw [← this]
      simp only [RawSchema.ofTags, RawSchema.OneOf_mk, List.map_cons, List.map_nil,
        List.mem_cons, List.mem_singleton, List.not_mem_nil, or_false]
      constructor
      · rintro ⟨x, rfl | rfl | rfl, hx⟩ <;>
          simp only [RawSchema.ofType, RawSchema.Typ_mk, List.mem_singleton] at hx
        · exact Or.inl hx
        · exact Or.inr (Or.inl hx)
        · exact Or.inr (Or.inr hx)
      · rintro (rfl | rfl | rfl)
        · exact ⟨_, Or.inl rfl, by simp [RawSchema.ofType]⟩
        · exact ⟨_, Or.inr (Or.inl rfl), by simp [RawSchema.ofType]⟩
        · exact ⟨_, Or.inr (Or.inr rfl), by simp [RawSchema.ofType]⟩

theorem four_values_in_any_order_witness :
    ∃ i, Infer.fresh.applyAll [.str "foo", .bool true, .num true, .num false] = some i ∧
      i.Target.Typ = [] ∧
      i.Target.OneOf.length = 3 ∧
      (∀ a ∈ i.Target.OneOf, a.Typ.length = 1) ∧
      ∀ t, (∃ a ∈ i.Target.OneOf, t ∈ a.Typ) ↔
        (t = "boolean" ∨ t = "string" ∨ t = "number") :=
  four_values_in_any_order [.str "foo", .bool true, .num true, .num false]
    (List.Perm.swap (JValue.bool true) (JValue.str "foo") [JValue.num true, JValue.num false])

/-! ## Order of arrival -/

theorem sameTree_ofType (t : String) : SameTree (RawSchema.ofType t) (RawSchema.ofType t) :=
  SameTree.node _ _ rfl rfl rfl SameProps.none SameItems.none SameAlts.nil

theorem sameAlts_map_ofType {ts us : List String} (h : ts.Perm us) :
    SameAlts (ts.map RawSchema.ofType) (us.map RawSchema.ofType) := by
  induction ts generalizing us with
  | nil =>
    have : us = [] := h.symm.eq_nil
    subst this
    exact SameAlts.nil
  | cons t ts ih =>
    have ht : t ∈ us := h.mem_iff.1 (List.mem_cons_self _ _)
    obtain ⟨l1, l2, rfl⟩ := List.append_of_mem ht
    have h1 : ts.Perm (l1 ++ l2) := (h.trans List.perm_middle).cons_inv
    rw [List.map_cons, List.map_append, List.map_cons]
    have := ih h1
    rw [List.map_append] at this
    exact SameAlts.cons _ _ _ _ _ (sameTree_ofType t) this

theorem sameTree_ofTags {ts us : List String} (h : ts.Perm us) :
    SameTree (RawSchema.ofTags ts) (RawSchema.ofTags us) := by
  have hlen := h.length_eq
  match ts, us, hlen with
  | [], [], _ =>
    exact SameTree.node _ _ rfl rfl rfl SameProps.none SameItems.none SameAlts.nil
  | [t], [u], _ =>
    have : t = u := by simpa using h
    subst this
    exact sameTree_ofType t
  | t1 :: t2 :: ts, u1 :: u2 :: us, _ =>
    exact SameTree.node _ _ rfl rfl rfl SameProps.none SameItems.none (sameAlts_map_ofType h)

/-- C2, as stated, fails. Three pairs of permuted sequences whose trees differ
by more than the order of alternatives: with `null`, with an array and with an
object next to a value of another kind. What the node has recorded when it
branches moves into the first alternative; what arrives later is recorded on
the union node itself. -/
theorem order_matters_once_a_node_branches :
    ([JValue.null, .num true, .bool true].Perm [.num true, .bool true, .null] ∧
      Infer.fresh.applyAll [.null, .num true, .bool true]
        = some ⟨RawSchema.mk [] false none [] none
            [RawSchema.mk ["integer"] true none [] none [], RawSchema.ofType "boolean"]⟩ ∧
      Infer.fresh.applyAll [.num true, .bool true, .null]
        = some ⟨RawSchema.mk [] true none [] none
            [RawSchema.ofType "integer", RawSchema.ofType "boolean"]⟩ ∧
      ¬ SameTree
        (RawSchema.mk [] false none [] none
          [RawSchema.mk ["integer"] true none [] none [], RawSchema.ofType "boolean"])
        (RawSchema.mk [] true none [] none
          [RawSchema.ofType "integer", RawSchema.ofType "boolean"])) ∧
    ([JValue.arr [.num true], .bool true].Perm [.bool true, .arr [.num true]] ∧
      Infer.fresh.applyAll [.arr [.num true], .bool true]
        = some ⟨RawSchema.mk [] false none [] none
            [RawSchema.mk ["array"] false none [] (some (some (RawSchema.ofType "integer"))) [],
              RawSchema.ofType "boolean"]⟩ ∧
      Infer.fresh.applyAll [.bool true, .arr [.num true]]
        = some ⟨RawSchema.mk [] false none [] (some (some (RawSchema.ofType "integer")))
            [RawSchema.ofType "boolean", RawSchema.ofType "array"]⟩ ∧
      ¬ SameTree
        (RawSchema.mk [] false none [] none
          [RawSchema.mk ["array"] false none [] (some (some (RawSchema.ofType "integer"))) [],
            RawSchema.ofType "boolean"])
        (RawSchema.mk [] false none [] (some (some (RawSchema.ofType "integer")))
          [RawSchema.ofType "boolean", RawSchema.ofType "array"])) ∧
    ([JValue.obj [("a", .num true)], .bool true].Perm [.bool true, .obj [("a", .num true)]] ∧
      Infer.fresh.applyAll [.obj [("a", .num true)], .bool true]
        = some ⟨RawSchema.mk [] false none [] none
            [RawSchema.mk ["object"] false (some [("a", RawSchema.ofType "integer")]) ["a"]
              none [], RawSchema.ofType "boolean"]⟩ ∧
      Infer.fresh.applyAll [.bool true, .obj [("a", .num true)]]
        = some ⟨RawSchema.mk [] false (some [("a", RawSchema.ofType "integer")]) ["a"] none
            [RawSchema.ofType "boolean", RawSchema.ofType "object"]⟩ ∧
      ¬ SameTree
        (RawSchema.mk [] false none [] none
          [RawSchema.mk ["object"] false (some [("a", RawSchema.ofType "integer")]) ["a"]
            none [], RawSchema.ofType "boolean"])
        (RawSchema.mk [] false (some [("a", RawSchema.ofType "integer")]) ["a"] none
          [RawSchema.ofType "boolean", RawSchema.ofType "object"])) := by
  refine ⟨⟨?_, rfl, rfl, ?_⟩, ⟨?_, rfl, rfl, ?_⟩, ⟨?_, rfl, rfl, ?_⟩⟩
  · exact @List.perm_append_comm _ [JValue.null] [JValue.num true, JValue.bool true]
  · intro h
    cases h with
    | node _ _ hT hN hR hP hI hO => simp at hN
  · exact List.Perm.swap _ _ _
  · intro h
    cases h with
    | node _ _ hT hN hR hP hI hO =>
      simp only [RawSchema.Items_mk] at hI
      cases hI
  · exact List.Perm.swap _ _ _
  · intro h
    cases h with
    | node _ _ hT hN hR hP hI hO => simp at hR

/-! ## Invariants of every node of the tree -/

theorem mem_nodesOfPropList (ps : List (String × RawSchema)) (n : RawSchema) :
    n ∈ nodesOfPropList ps ↔ ∃ p ∈ ps, n ∈ p.2.nodes := by
  induction ps with
  | nil => simp [nodesOfPropList]
  | cons p ps ih =>
    obtain ⟨k, c⟩ := p
    simp [nodesOfPropList, nodesOfProp, ih]

theorem mem_nodesOfList (l : List RawSchema) (n : RawSchema) :
    n ∈ nodesOfList l ↔ ∃ a ∈ l, n ∈ a.nodes := by
  induction l with
  | nil => simp [nodesOfList]
  | cons a l ih => simp [nodesOfList, ih]

theorem mem_nodes (s n : RawSchema) :
    n ∈ s.nodes ↔ n = s ∨ (∃ p ∈ s.props, n ∈ p.2.nodes) ∨
      (∃ it, s.Items = some (some it) ∧ n ∈ it.nodes) ∨ (∃ a ∈ s.OneOf, n ∈ a.nodes) := by
  cases s with
  | mk t nl p r i o =>
    simp only [RawSchema.nodes, List.mem_cons, List.mem_append, mem_nodesOfList,
      RawSchema.props_mk, RawSchema.Items_mk, RawSchema.OneOf_mk]
    have hp : n ∈ nodesOfProperties p ↔ ∃ q ∈ p.getD [], n ∈ q.2.nodes := by
      cases p with
      | none => simp [nodesOfProperties]
      | some ps => simp [nodesOfProperties, mem_nodesOfPropList]
    have hi : n ∈ nodesOfItems i ↔ ∃ it, i = some (some it) ∧ n ∈ it.nodes := by
      cases i with
      | none => simp [nodesOfItems]
      | some j =>
        cases j with
        | none => simp [nodesOfItems, nodesOfItem]
        | some c => simp [nodesOfItems, nodesOfItem]
    rw [hp, hi, or_assoc]

theorem self_mem_nodes (s : RawSchema) : s ∈ s.nodes := (mem_nodes s s).2 (Or.inl rfl)

theorem allNodes_iff (P : RawSchema → Prop) (s : RawSchema) :
    AllNodes P s ↔ P s ∧ (∀ p ∈ s.props, AllNodes P p.2) ∧
      (∀ it, s.Items = some (some it) → AllNodes P it) ∧ (∀ a ∈ s.OneOf, AllNodes P a) := by
  constructor
  · intro h
    refine ⟨h s (self_mem_nodes s), fun p hp n hn => ?_, fun it hit n hn => ?_,
      fun a ha n hn => ?_⟩
    · exact h n ((mem_nodes s n).2 (Or.inr (Or.inl ⟨p, hp, hn⟩)))
    · exact h n ((mem_nodes s n).2 (Or.inr (Or.inr (Or.inl ⟨it, hit, hn⟩))))
    · exact h n ((mem_nodes s n).2 (Or.inr (Or.inr (Or.inr ⟨a, ha, hn⟩))))
  · rintro ⟨h1, h2, h3, h4⟩ n hn
    rcases (mem_nodes s n).1 hn with rfl | ⟨p, hp, hn⟩ | ⟨it, hit, hn⟩ | ⟨a, ha, hn⟩
    · exact h1
    · exact h2 p hp n hn
    · exact h3 it hit n hn
    · exact h4 a ha n hn

theorem apply_Properties_of_not_object (s : RawSchema) (v : JValue)
    (h1 : ∀ kvs, v ≠ .obj kvs) (h2 : ∀ kvs, v ≠ .objCut kvs) :
    (apply s v).1.Properties = (markStep s v).Properties := by
  cases v with
  | obj kvs => exact absurd rfl (h1 kvs)
  | objCut kvs => exact absurd rfl (h2 kvs)
  | num b => simp only [apply, markStep]; split_ifs <;> rfl
  | arr xs => simp only [apply, markStep]; rw [applyArr_frame]; simp
  | arrCut xs => simp only [apply, markStep]; rw [applyArr_frame]; simp
  | _ => simp [apply, markStep]

theorem mem_setPropAt {ps : List RawProperty} {i : Nat} {c : RawSchema} {p : RawProperty}
    (h : p ∈ setPropAt ps i c) : p ∈ ps ∨ p.2 = c := by
  induction ps generalizing i with
  | nil => simp [setPropAt] at h
  | cons q qs ih =>
    cases i with
    | zero =>
      simp only [setPropAt, List.mem_cons] at h
      rcases h with rfl | h
      · exact Or.inr rfl
      · exact Or.inl (List.mem_cons_of_mem _ h)
    | succ i =>
      simp only [setPropAt, List.mem_cons] at h
      rcases h with rfl | h
      · exact Or.inl (List.mem_cons_self _ _)
      · rcases ih h with h1 | h1
        · exact Or.inl (List.mem_cons_of_mem _ h1)
        · exact Or.inr h1

theorem propAt_cases (ps : List RawProperty) (i : Nat) :
    propAt ps i = RawSchema.empty ∨ ∃ p ∈ ps, propAt ps i = p.2 := by
  unfold propAt
  cases h : ps.get? i with
  | none => exact Or.inl rfl
  | some p => exact Or.inr ⟨p, List.get?_mem h, rfl⟩

theorem item_cases (s : RawSchema) :
    s.item = RawSchema.empty ∨ s.Items = some (some s.item) := by
  unfold RawSchema.item
  cases h : s.Items with
  | none => exact Or.inl rfl
  | some o =>
    cases o with
    | none => exact Or.inl rfl
    | some it => exact Or.inr rfl

/-- The array loop keeps a property of the item schema that `apply` keeps on
the elements. -/
theorem applyArr_item (T : RawSchema → Prop) (hE : T RawSchema.empty) (xs : List JValue)
    (hx : ∀ x ∈ xs, ∀ s, T s → T (apply s x).1) (s : RawSchema) (closed : Bool)
    (hs : ∀ it, s.Items = some (some it) → T it) :
    ∀ it, (applyArr s closed xs).1.Items = some (some it) → T it := by
  induction xs generalizing s with
  | nil => simpa [applyArr] using hs
  | cons x xs ih =>
    have hitem : T s.item := by
      rcases item_cases s with e | e
      · rw [e]; exact hE
      · exact hs _ e
    have hnew : T (apply s.item x).1 := hx x (List.mem_cons_self _ _) _ hitem
    have hs1 : ∀ it, (s.setItems (some (some (apply s.item x).1))).Items = some (some it) →
        T it := by
      intro it hit
      simp only [RawSchema.setItems, RawSchema.Items_mk, Option.some.injEq] at hit
      exact hit ▸ hnew
    simp only [applyArr]
    by_cases h : (apply s.item x).2 = true
    · rw [if_pos h]
      exact ih (fun y hy => hx y (List.mem_cons_of_mem _ hy)) _ hs1
    · rw [if_neg h]
      exact hs1

/-- The object loop keeps a property of the property schemas that `apply`
keeps on the field values. -/
theorem applyFields_children (T : RawSchema → Prop) (hE : T RawSchema.empty)
    (kvs : List (String × JValue)) (hkv : ∀ kv ∈ kvs, ∀ s, T s → T (apply s kv.2).1)
    (props : List (String × Nat)) (fa : Bool) (st : ObjState)
    (hs : ∀ p ∈ st.s.props, T p.2) :
    ∀ p ∈ (applyFields props fa st kvs).1.s.props, T p.2 := by
  induction kvs generalizing st with
  | nil => simpa [applyFields] using hs
  | cons kv kvs ih =>
    obtain ⟨key, v⟩ := kv
    have hv : ∀ s, T s → T (apply s v).1 := hkv (key, v) (List.mem_cons_self _ _)
    have ih1 := fun st => ih (fun y hy => hkv y (List.mem_cons_of_mem _ hy)) st
    simp only [applyFields]
    cases props.lookup key with
    | none =>
      simp only []
      by_cases h : (apply RawSchema.empty v).2 = true
      · rw [if_pos h]
        apply ih1
        intro p hp
        simp only [RawSchema.setProperties, RawSchema.props_mk, Option.getD_some,
          List.mem_append, List.mem_singleton] at hp
        rcases hp with hp | rfl
        · exact hs p hp
        · exact hv _ hE
      · rw [if_neg h]; exact hs
    | some i =>
      have hchild : T (apply (propAt st.s.props i) v).1 := by
        apply hv
        rcases propAt_cases st.s.props i with e | ⟨p, hp, e⟩
        · rw [e]; exact hE
        · rw [e]; exact hs p hp
      have hs1 : ∀ p ∈ (st.s.setProperties
          (some (setPropAt st.s.props i (apply (propAt st.s.props i) v).1))).props, T p.2 := by
        intro p hp
        simp only [RawSchema.setProperties, RawSchema.props_mk, Option.getD_some] at hp
        rcases mem_setPropAt hp with h1 | h1
        · exact hs p h1
        · rw [h1]; exact hchild
      simp only []
      by_cases h : (apply (propAt st.s.props i) v).2 = true
      · rw [if_pos h]; exact ih1 _ hs1
      · rw [if_neg h]; exact hs1

theorem objBegin_props_subset (s : RawSchema) :
    ∀ p ∈ (objBegin s).1.props, p ∈ (applyType s "object").props := by
  intro p hp
  simp only [objBegin] at hp
  split_ifs at hp with h
  · simp at hp
  · exact hp

theorem objEnd_props_subset (closed : Bool) (r : ObjState × Bool) :
    ∀ p ∈ (objEnd closed r).1.props, p ∈ r.1.s.props := by
  intro p hp
  simp only [objEnd] at hp
  split_ifs at hp with h
  · simp only [RawSchema.setProperties, RawSchema.setRequired, RawSchema.props_mk,
      Option.getD_some] at hp
    exact (sortProperties_perm _).mem_iff.1 hp
  · exact hp

/-- A tree invariant principle. A property of nodes holds at every node of the
tree after `apply` if it held at every node before, provided that it holds of
the empty node, that the marker update keeps it at every node, and that it
holds at the node `apply` was called on once it holds everywhere below. -/
theorem allNodes_apply (P : RawSchema → Prop) (hempty : P RawSchema.empty)
    (hmark : ∀ s v, AllNodes P s → AllNodes P (markStep s v))
    (hroot : ∀ s v, AllNodes P s →
      (∀ p ∈ (apply s v).1.props, AllNodes P p.2) →
      (∀ it, (apply s v).1.Items = some (some it) → AllNodes P it) →
      (∀ a ∈ (apply s v).1.OneOf, AllNodes P a) → P (apply s v).1) :
    ∀ v s, AllNodes P s → AllNodes P (apply s v).1 := by
  have hE : AllNodes P RawSchema.empty := by
    rw [allNodes_iff]
    exact ⟨hempty, by simp [RawSchema.empty, RawSchema.props], by simp [RawSchema.empty],
      by simp [RawSchema.empty]⟩
  -- everything below the node, for the cases that do not descend
  have hplain : ∀ v s, AllNodes P s →
      (apply s v).1.Properties = (markStep s v).Properties →
      (apply s v).1.Items = (markStep s v).Items → AllNodes P (apply s v).1 := by
    intro v s hs hp hi
    have hm := (allNodes_iff P _).1 (hmark s v hs)
    have hprops : (apply s v).1.props = (markStep s v).props := by
      simp only [RawSchema.props, hp]
    have h1 : ∀ p ∈ (apply s v).1.props, AllNodes P p.2 := by rw [hprops]; exact hm.2.1
    have h2 : ∀ it, (apply s v).1.Items = some (some it) → AllNodes P it := by
      rw [hi]; exact hm.2.2.1
    have h3 : ∀ a ∈ (apply s v).1.OneOf, AllNodes P a := by rw [apply_OneOf]; exact hm.2.2.2
    exact (allNodes_iff P _).2 ⟨hroot s v hs h1 h2 h3, h1, h2, h3⟩
  have harr : ∀ (xs : List JValue) (closed : Bool) (v : JValue),
      (∀ s, (apply s v).1 = (applyArr (applyType s "array") closed xs).1) →
      (∀ s, markStep s v = applyType s "array") →
      (∀ x ∈ xs, ∀ s, AllNodes P s → AllNodes P (apply s x).1) →
      ∀ s, AllNodes P s → AllNodes P (apply s v).1 := by
    intro xs closed v hv hmv ih s hs
    have hm := (allNodes_iff P _).1 (hmark s v hs)
    rw [hmv] at hm
    have h1 : ∀ p ∈ (apply s v).1.props, AllNodes P p.2 := by
      rw [hv, applyArr_frame]; exact hm.2.1
    have h2 : ∀ it, (apply s v).1.Items = some (some it) → AllNodes P it := by
      rw [hv]; exact applyArr_item _ hE xs ih _ _ hm.2.2.1
    have h3 : ∀ a ∈ (apply s v).1.OneOf, AllNodes P a := by
      rw [apply_OneOf, hmv]; exact hm.2.2.2
    exact (allNodes_iff P _).2 ⟨hroot s v hs h1 h2 h3, h1, h2, h3⟩
  have hobj : ∀ (kvs : List (String × JValue)) (closed : Bool) (v : JValue),
      (∀ s, (apply s v).1 = (objEnd closed (applyFields
        (collectProps (objBegin s).1.props 0 []) (objBegin s).2 (objInit s) kvs)).1) →
      (∀ s, markStep s v = applyType s "object") →
      (∀ kv ∈ kvs, ∀ s, AllNodes P s → AllNodes P (apply s kv.2).1) →
      ∀ s, AllNodes P s → AllNodes P (apply s v).1 := by
    intro kvs closed v hv hmv ih s hs
    have hm := (allNodes_iff P _).1 (hmark s v hs)
    rw [hmv] at hm
    have h1 : ∀ p ∈ (apply s v).1.props, AllNodes P p.2 := by
      rw [hv]
      intro p hp
      refine applyFields_children _ hE kvs ih _ _ (objInit s) ?_ p
        (objEnd_props_subset _ _ p hp)
      intro q hq
      exact hm.2.1 q (objBegin_props_subset s q hq)
    have h2 : ∀ it, (apply s v).1.Items = some (some it) → AllNodes P it := by
      rw [hv, objEnd_frame]
      simp only [RawSchema.setProperties, RawSchema.setRequired, RawSchema.Items_mk]
      rw [applyFields_Items, objInit, objBegin_frame]
      exact hm.2.2.1
    have h3 : ∀ a ∈ (apply s v).1.OneOf, AllNodes P a := by
      rw [apply_OneOf, hmv]; exact hm.2.2.2
    exact (allNodes_iff P _).2 ⟨hroot s v hs h1 h2 h3, h1, h2, h3⟩
  intro v
  induction v using JValue.induct with
  | arr xs ih => exact harr xs true _ (fun s => by simp [apply]) (fun s => rfl) ih
  | arrCut xs ih => exact harr xs false _ (fun s => by simp [apply]) (fun s => rfl) ih
  | obj kvs ih => exact hobj kvs true _ (fun s => by simp [apply]) (fun s => rfl) ih
  | objCut kvs ih => exact hobj kvs false _ (fun s => by simp [apply]) (fun s => rfl) ih
  | str s0 =>
    intro s hs
    exact hplain _ s hs (apply_Properties_of_not_object s _ (by simp) (by simp))
      (apply_Items_of_not_array s _ (by simp) (by simp))
  | num b =>
    intro s hs
    exact hplain _ s hs (apply_Properties_of_not_object s _ (by simp) (by simp))
      (apply_Items_of_not_array s _ (by simp) (by simp))
  | null =>
    intro s hs
    exact hplain _ s hs (apply_Properties_of_not_object s _ (by simp) (by simp))
      (apply_Items_of_not_array s _ (by simp) (by simp))
  | bool b =>
    intro s hs
    exact hplain _ s hs (apply_Properties_of_not_object s _ (by simp) (by simp))
      (apply_Items_of_not_array s _ (by simp) (by simp))
  | invalid =>
    intro s hs
    exact hplain _ s hs (apply_Properties_of_not_object s _ (by simp) (by simp))
      (apply_Items_of_not_array s _ (by simp) (by simp))
  | badNum =>
    intro s hs
    exact hplain _ s hs (apply_Properties_of_not_object s _ (by simp) (by simp))
      (apply_Items_of_not_array s _ (by simp) (by simp))
  | badStr =>
    intro s hs
    exact hplain _ s hs (apply_Properties_of_not_object s _ (by simp) (by simp))
      (apply_Items_of_not_array s _ (by simp) (by simp))
  | badNull =>
    intro s hs
    exact hplain _ s hs (apply_Properties_of_not_object s _ (by simp) (by simp))
      (apply_Items_of_not_array s _ (by simp) (by simp))
  | badBool =>
    intro s hs
    exact hplain _ s hs (apply_Properties_of_not_object s _ (by simp) (by simp))
      (apply_Items_of_not_array s _ (by simp) (by simp))

theorem allNodes_applySeq (P : RawSchema → Prop)
    (hstep : ∀ v s, AllNodes P s → AllNodes P (apply s v).1)
    (vs : List JValue) (s : RawSchema) (hs : AllNodes P s) : AllNodes P (applySeq s vs) := by
  induction vs generalizing s with
  | nil => exact hs
  | cons v vs ih => exact ih _ (hstep v s hs)

/-! ## Union nodes -/

theorem unionShape_congr {s s1 : RawSchema} (h1 : s1.Typ = s.Typ) (h2 : s1.OneOf = s.OneOf)
    (h : unionShape s) : unionShape s1 := by
  unfold unionShape at h ⊢
  rw [h1, h2]
  exact h

theorem unionShape_ofType (tt : String) : AllNodes unionShape (RawSchema.ofType tt) := by
  rw [allNodes_iff]
  refine ⟨?_, ?_, ?_, ?_⟩ <;> simp [unionShape, RawSchema.ofType, RawSchema.props]

theorem allNodes_unionShape_setTyp (s : RawSchema) (ts : List String)
    (h : AllNodes unionShape s) (hlen : ts.length = s.Typ.length) :
    AllNodes unionShape (s.setTyp ts) := by
  rw [allNodes_iff] at h ⊢
  obtain ⟨⟨h1, h2, h3⟩, h4, h5, h6⟩ := h
  refine ⟨⟨?_, ?_, ?_⟩, ?_, ?_, ?_⟩
  · simpa [hlen] using h1
  · intro hne
    have := h2 (by simpa using hne)
    rw [this] at hlen
    simpa using hlen
  · simpa using h3
  · simpa [RawSchema.props] using h4
  · simpa using h5
  · simpa using h6

theorem allNodes_unionShape_applyType (s : RawSchema) (tt : String)
    (h : AllNodes unionShape s) : AllNodes unionShape (applyType s tt) := by
  have h0 := h
  rw [allNodes_iff] at h
  obtain ⟨⟨h1, h2, h3⟩, h4, h5, h6⟩ := h
  rcases applyType_cases s tt with e | ⟨hne, e⟩ | ⟨ho, ht, e⟩ | ⟨ho, ht, e⟩ <;> rw [e]
  · exact h0
  · rw [allNodes_iff]
    refine ⟨⟨?_, ?_, ?_⟩, ?_, ?_, ?_⟩
    · simpa using h1
    · intro _; simpa using h2 hne
    · intro a ha
      simp only [RawSchema.setOneOf, RawSchema.OneOf_mk, List.mem_append,
        List.mem_singleton] at ha
      rcases ha with ha | rfl
      · exact h3 a ha
      · simp [RawSchema.ofType]
    · simpa [RawSchema.props] using h4
    · simpa using h5
    · intro a ha
      simp only [RawSchema.setOneOf, RawSchema.OneOf_mk, List.mem_append,
        List.mem_singleton] at ha
      rcases ha with ha | rfl
      · exact h6 a ha
      · exact unionShape_ofType tt
  · rw [allNodes_iff]
    refine ⟨⟨by simp, ?_, by simpa using h3⟩, by simpa [RawSchema.props] using h4,
      by simpa using h5, by simpa using h6⟩
    intro hne
    simp [ho] at hne
  · rw [allNodes_iff]
    have hlen : s.Typ.length = 1 := by
      have : s.Typ.length ≠ 0 := fun h0 => ht (List.length_eq_zero.1 h0)
      omega
    refine ⟨⟨by simp, by simp, ?_⟩, by simp [RawSchema.props], by simp, ?_⟩
    · intro a ha
      simp only [RawSchema.OneOf_mk, List.mem_cons, List.mem_singleton, List.not_mem_nil,
        or_false] at ha
      rcases ha with rfl | rfl
      · exact ⟨hlen, ho⟩
      · simp [RawSchema.ofType]
    · intro a ha
      simp only [RawSchema.OneOf_mk, List.mem_cons, List.mem_singleton, List.not_mem_nil,
        or_false] at ha
      rcases ha with rfl | rfl
      · exact h0
      · exact unionShape_ofType tt

theorem forall₂_mem_right {R : RawSchema → RawSchema → Prop} {l m : List RawSchema}
    (h : List.Forall₂ R l m) : ∀ b ∈ m, ∃ a ∈ l, R a b := by
  induction h with
  | nil => intro b hb; cases hb
  | cons hab _ ih =>
    intro b hb
    rcases List.mem_cons.1 hb with rfl | hb
    · exact ⟨_, List.mem_cons_self _ _, hab⟩
    · obtain ⟨a, ha, hr⟩ := ih b hb
      exact ⟨a, List.mem_cons_of_mem _ ha, hr⟩

theorem allNodes_unionShape_replaceType (s : RawSchema) (src dst : String)
    (h : AllNodes unionShape s) : AllNodes unionShape (replaceType s src dst).1 := by
  have h0 := h
  rw [allNodes_iff] at h
  obtain ⟨⟨h1, h2, h3⟩, h4, h5, h6⟩ := h
  rcases replaceType_cases s src dst with ⟨_, _, e⟩ | ⟨ts, hts, e⟩ | ⟨vs, _, hv, e⟩ <;> rw [e]
  · exact h0
  · exact allNodes_unionShape_setTyp s ts h0 (replaceTag_length hts)
  · have hf := replaceInOneOf_forall₂ hv
    have hall : ∀ a1 ∈ vs, ∃ a ∈ s.OneOf, ∃ ts, a1 = a.setTyp ts ∧ ts.length = a.Typ.length :=
      fun a1 ha1 => forall₂_mem_right hf a1 ha1
    have hnil : vs ≠ [] → s.OneOf ≠ [] := by
      intro hne h0'
      rw [h0'] at hf
      cases hf
      exact hne rfl
    rw [allNodes_iff]
    refine ⟨⟨?_, ?_, ?_⟩, ?_, ?_, ?_⟩
    · simpa using h1
    · intro hne; simpa using h2 (hnil (by simpa using hne))
    · intro a1 ha1
      obtain ⟨a, ha, ts, rfl, hl⟩ := hall a1 (by simpa using ha1)
      have := h3 a ha
      exact ⟨by simpa [hl] using this.1, by simpa using this.2⟩
    · simpa [RawSchema.props] using h4
    · simpa using h5
    · intro a1 ha1
      obtain ⟨a, ha, ts, rfl, hl⟩ := hall a1 (by simpa using ha1)
      exact allNodes_unionShape_setTyp a ts (h6 a ha) hl

theorem allNodes_unionShape_markStep (s : RawSchema) (v : JValue)
    (h : AllNodes unionShape s) : AllNodes unionShape (markStep s v) := by
  have hnull : AllNodes unionShape (s.setNullable true) := by
    rw [allNodes_iff] at h ⊢
    exact ⟨unionShape_congr (by simp) (by simp) h.1, by simpa [RawSchema.props] using h.2.1,
      by simpa using h.2.2.1, by simpa using h.2.2.2⟩
  cases v with
  | num b =>
    simp only [markStep]
    split_ifs
    · exact allNodes_unionShape_applyType _ _ h
    · exact allNodes_unionShape_replaceType _ _ _ h
    · exact allNodes_unionShape_applyType _ _ h
  | null => exact hnull
  | badNull => exact hnull
  | invalid => exact h
  | badNum => exact h
  | _ => exact allNodes_unionShape_applyType _ _ h

theorem allNodes_unionShape_apply (v : JValue) (s : RawSchema)
    (h : AllNodes unionShape s) : AllNodes unionShape (apply s v).1 := by
  refine allNodes_apply unionShape ?_ allNodes_unionShape_markStep ?_ v s h
  · simp [unionShape, RawSchema.empty]
  · intro s v hs _ _ _
    exact unionShape_congr (apply_Typ s v) (apply_OneOf s v)
      ((allNodes_unionShape_markStep s v hs) _ (self_mem_nodes _))

/-- C10. After every sequence of well-formed JSON values applied to a fresh
engine (every call succeeds), every node of the tree, that is the root and
every item schema, property schema and alternative below it, satisfies: if its
list of alternatives is not empty then its own type marker list is empty, and
each of its alternatives carries exactly one type tag and has no alternatives
of its own. -/
theorem union_nodes_are_well_shaped (vs : List JValue)
    (hwf : ∀ v ∈ vs, v.wellFormed = true) :
    ∃ i, Infer.fresh.applyAll vs = some i ∧
      ∀ n ∈ i.Target.nodes,
        (n.OneOf ≠ [] → n.Typ = []) ∧ ∀ a ∈ n.OneOf, a.Typ.length = 1 ∧ a.OneOf = [] := by
  refine ⟨⟨applySeq RawSchema.empty vs⟩, applyAll_eq vs hwf _, ?_⟩
  have hE : AllNodes unionShape RawSchema.empty := by
    rw [allNodes_iff]
    refine ⟨?_, ?_, ?_, ?_⟩ <;> simp [unionShape, RawSchema.empty, RawSchema.props]
  intro n hn
  exact (allNodes_applySeq unionShape allNodes_unionShape_apply vs _ hE n hn).2

theorem union_nodes_are_well_shaped_witness :
    ∃ i, Infer.fresh.applyAll
        [.arr [.num true, .bool true], .obj [("a", .str "x")], .null] = some i ∧
      ∀ n ∈ i.Target.nodes,
        (n.OneOf ≠ [] → n.Typ = []) ∧ ∀ a ∈ n.OneOf, a.Typ.length = 1 ∧ a.OneOf = [] :=
  union_nodes_are_well_shaped [.arr [.num true, .bool true], .obj [("a", .str "x")], .null]
    (by
      intro v hv
      simp only [List.mem_cons, List.mem_singleton, List.not_mem_nil, or_false] at hv
      rcases hv with rfl | rfl | rfl <;> rfl)

/-! ## The tag list of an arbitrary node -/

theorem mem_tags (s : RawSchema) (tt : String) : tt ∈ s.tags ↔ hasType s tt = true := by
  rw [hasType_iff, RawSchema.tags, List.mem_append, List.mem_flatMap]

theorem tags_applyType (s : RawSchema) (tt : String) :
    (applyType s tt).tags = addTag s.tags tt := by
  by_cases h : hasType s tt = true
  · rw [applyType, if_pos h, addTag, if_pos ((mem_tags s tt).2 h)]
  · have hm : tt ∉ s.tags := fun hm => h ((mem_tags s tt).1 hm)
    rw [addTag, if_neg hm]
    rcases applyType_cases s tt with e | ⟨_, e⟩ | ⟨ho, ht, e⟩ | ⟨ho, _, e⟩
    · rw [applyType, if_neg h] at e
      rw [applyType, if_neg h]
      split_ifs with h1 h2
      · simp [RawSchema.tags, RawSchema.ofType]
      · have h3 : s.OneOf = [] := by
          cases hl : s.OneOf with
          | nil => rfl
          | cons a l => rw [hl] at h1; simp at h1
        have h4 : s.Typ = [] := by simpa using h2
        simp [RawSchema.tags, h3, h4]
      · have h3 : s.OneOf = [] := by
          cases hl : s.OneOf with
          | nil => rfl
          | cons a l => rw [hl] at h1; simp at h1
        simp [RawSchema.tags, h3, RawSchema.ofType]
    · rw [e]; simp [RawSchema.tags, RawSchema.ofType]
    · rw [e]; simp [RawSchema.tags, ho, ht]
    · rw [e]; simp [RawSchema.tags, ho, RawSchema.ofType]

theorem replaceTag_append (l1 l2 : List String) (src dst : String) :
    replaceTag (l1 ++ l2) src dst =
      match replaceTag l1 src dst with
      | some l => some (l ++ l2)
      | none => (replaceTag l2 src dst).map (fun l => l1 ++ l) := by
  induction l1 with
  | nil => cases h : replaceTag l2 src dst <;> simp [replaceTag, h]
  | cons t l1 ih =>
    simp only [List.cons_append, replaceTag]
    by_cases ht : (t == src) = true
    · simp [ht]
    · simp only [ht, Bool.false_eq_true, if_false]
      cases h1 : replaceTag l1 src dst with
      | some l => simp [ih, h1]
      | none => cases h2 : replaceTag l2 src dst <;> simp [ih, h1, h2]

theorem replaceInOneOf_tags (vs : List RawSchema) (src dst : String) :
    (replaceInOneOf vs src dst).map (fun l => l.flatMap RawSchema.Typ)
      = replaceTag (vs.flatMap RawSchema.Typ) src dst := by
  induction vs with
  | nil => rfl
  | cons v vs ih =>
    rw [List.flatMap_cons, replaceTag_append, replaceInOneOf]
    cases hv : replaceTag v.Typ src dst with
    | some ts => simp
    | none =>
      simp only []
      rw [← ih]
      cases h : replaceInOneOf vs src dst <;> simp

/-- On the tag list `replaceType` is `replaceTag`. -/
theorem tags_replaceType (s : RawSchema) (src dst : String) :
    (replaceType s src dst).2 = (replaceTag s.tags src dst).isSome ∧
    (replaceType s src dst).1.tags = (replaceTag s.tags src dst).getD s.tags := by
  have h2 := replaceInOneOf_tags s.OneOf src dst
  simp only [RawSchema.tags, replaceTag_append]
  rcases replaceType_cases s src dst with ⟨h1, h3, e⟩ | ⟨ts, hts, e⟩ | ⟨vs, h1, hv, e⟩
  · rw [h3] at h2
    rw [e, h1, ← h2]
    simp
  · rw [e, hts]; simp
  · rw [hv] at h2
    rw [e, h1, ← h2]
    simp

theorem tags_markStep (s : RawSchema) (v : JValue) :
    (markStep s v).tags = tagStep s.tags v := by
  cases v with
  | num b =>
    simp only [markStep, tagStep]
    have hd : hasType s "number" = decide ("number" ∈ s.tags) := by
      by_cases h : "number" ∈ s.tags
      · simp [h, (mem_tags s "number").1 h]
      · have : ¬ hasType s "number" = true := fun e => h ((mem_tags s "number").2 e)
        simp [h, this]
    rw [hd]
    obtain ⟨h1, h2⟩ := tags_replaceType s "integer" "number"
    by_cases hc : (b && !decide ("number" ∈ s.tags)) = true
    · rw [if_pos hc, if_pos hc, tags_applyType]
    · rw [if_neg hc, if_neg hc, h1]
      cases hr : replaceTag s.tags "integer" "number" with
      | none => simp [tags_applyType]
      | some ts => rw [hr] at h2; simpa using h2
  | null => rfl
  | badNull => rfl
  | invalid => rfl
  | badNum => rfl
  | _ => exact tags_applyType s _

theorem tags_apply (s : RawSchema) (v : JValue) : (apply s v).1.tags = tagStep s.tags v := by
  rw [← tags_markStep, RawSchema.tags, RawSchema.tags, apply_Typ, apply_OneOf]

theorem tags_applySeq (vs : List JValue) (s : RawSchema) :
    (applySeq s vs).tags = vs.foldl tagStep s.tags := by
  induction vs generalizing s with
  | nil => rfl
  | cons v vs ih => rw [applySeq_cons, ih, tags_apply, List.foldl_cons]

/-! ## Tree invariants through the marker update -/

theorem allNodes_ofType (P : RawSchema → Prop) (tt : String) (h : P (RawSchema.ofType tt)) :
    AllNodes P (RawSchema.ofType tt) := by
  rw [allNodes_iff]
  exact ⟨h, by simp [RawSchema.ofType, RawSchema.props], by simp [RawSchema.ofType],
    by simp [RawSchema.ofType]⟩

theorem allNodes_setTyp (P : RawSchema → Prop) (s : RawSchema) (ts : List String)
    (h : AllNodes P s) (hroot : P (s.setTyp ts)) : AllNodes P (s.setTyp ts) := by
  rw [allNodes_iff] at h ⊢
  exact ⟨hroot, by simpa [RawSchema.props] using h.2.1, by simpa using h.2.2.1,
    by simpa using h.2.2.2⟩

theorem allNodes_setNullable (P : RawSchema → Prop) (s : RawSchema) (b : Bool)
    (h : AllNodes P s) (hroot : P (s.setNullable b)) : AllNodes P (s.setNullable b) := by
  rw [allNodes_iff] at h ⊢
  exact ⟨hroot, by simpa [RawSchema.props] using h.2.1, by simpa using h.2.2.1,
    by simpa using h.2.2.2⟩

/-- `applyType` keeps a tree invariant that holds at the node it returns and at
a node that carries only the new tag. -/
theorem allNodes_applyType_of (P : RawSchema → Prop) (s : RawSchema) (tt : String)
    (h : AllNodes P s) (hroot : P (applyType s tt)) (hnew : P (RawSchema.ofType tt)) :
    AllNodes P (applyType s tt) := by
  have h0 := h
  rw [allNodes_iff] at h
  rcases applyType_cases s tt with e | ⟨_, e⟩ | ⟨_, _, e⟩ | ⟨_, _, e⟩
  · rw [e]; exact h0
  · rw [e] at hroot ⊢
    rw [allNodes_iff]
    refine ⟨hroot, by simpa [RawSchema.props] using h.2.1, by simpa using h.2.2.1, ?_⟩
    intro a ha
    simp only [RawSchema.setOneOf, RawSchema.OneOf_mk, List.mem_append,
      List.mem_singleton] at ha
    rcases ha with ha | rfl
    · exact h.2.2.2 a ha
    · exact allNodes_ofType P tt hnew
  · rw [e] at hroot ⊢
    exact allNodes_setTyp P s [tt] h0 hroot
  · rw [e] at hroot ⊢
    rw [allNodes_iff]
    refine ⟨hroot, by simp [RawSchema.props], by simp, ?_⟩
    intro a ha
    simp only [RawSchema.OneOf_mk, List.mem_cons, List.mem_singleton, List.not_mem_nil,
      or_false] at ha
    rcases ha with rfl | rfl
    · exact h0
    · exact allNodes_ofType P tt hnew

/-- Every alternative after `replaceInOneOf` is an old alternative or an old
alternative whose tag list was rewritten by `replaceTag`. -/
theorem replaceInOneOf_mem {l l1 : List RawSchema} {src dst : String}
    (h : replaceInOneOf l src dst = some l1) :
    ∀ a1 ∈ l1, a1 ∈ l ∨ ∃ a ∈ l, ∃ ts, replaceTag a.Typ src dst = some ts ∧ a1 = a.setTyp ts := by
  induction l generalizing l1 with
  | nil => simp [replaceInOneOf] at h
  | cons v vs ih =>
    simp only [replaceInOneOf] at h
    cases ht : replaceTag v.Typ src dst with
    | some ts =>
      simp only [ht] at h
      cases h
      intro a1 ha1
      rcases List.mem_cons.1 ha1 with rfl | ha1
      · exact Or.inr ⟨v, List.mem_cons_self _ _, ts, ht, rfl⟩
      · exact Or.inl (List.mem_cons_of_mem _ ha1)
    | none =>
      simp only [ht] at h
      cases hr : replaceInOneOf vs src dst with
      | none => simp [hr] at h
      | some vs2 =>
        simp [hr] at h
        subst h
        intro a1 ha1
        rcases List.mem_cons.1 ha1 with rfl | ha1
        · exact Or.inl (List.mem_cons_self _ _)
        · rcases ih hr a1 ha1 with h1 | ⟨a, ha, ts, hts, rfl⟩
          · exact Or.inl (List.mem_cons_of_mem _ h1)
          · exact Or.inr ⟨a, List.mem_cons_of_mem _ ha, ts, hts, rfl⟩

/-- `replaceType` keeps a tree invariant that holds at the node it returns and
at every alternative whose tag list it may rewrite. -/
theorem allNodes_replaceType_of (P : RawSchema → Prop) (s : RawSchema) (src dst : String)
    (h : AllNodes P s) (hroot : P (replaceType s src dst).1)
    (halt : ∀ a ∈ s.OneOf, ∀ ts, replaceTag a.Typ src dst = some ts → P (a.setTyp ts)) :
    AllNodes P (replaceType s src dst).1 := by
  have h0 := h
  rw [allNodes_iff] at h
  rcases replaceType_cases s src dst with ⟨_, _, e⟩ | ⟨ts, _, e⟩ | ⟨vs, _, hv, e⟩
  · rw [e]; exact h0
  · rw [e] at hroot ⊢
    exact allNodes_setTyp P s ts h0 hroot
  · rw [e] at hroot ⊢
    rw [allNodes_iff]
    refine ⟨hroot, by simpa [RawSchema.props] using h.2.1, by simpa using h.2.2.1, ?_⟩
    intro a1 ha1
    rcases replaceInOneOf_mem hv a1 (by simpa using ha1) with h1 | ⟨a, ha, ts, hts, rfl⟩
    · exact h.2.2.2 a1 h1
    · exact allNodes_setTyp P a ts (h.2.2.2 a ha) (halt a ha ts hts)

/-- The marker update keeps a tree invariant that holds at the node it returns,
at a node that carries only one of the engine's tags, and at every alternative
whose "integer" it may widen. -/
theorem allNodes_markStep_of (P : RawSchema → Prop) (s : RawSchema) (v : JValue)
    (h : AllNodes P s) (hroot : P (markStep s v))
    (hnew : ∀ tt ∈ typeTags, P (RawSchema.ofType tt))
    (halt : ∀ a ∈ s.OneOf, ∀ ts, replaceTag a.Typ "integer" "number" = some ts →
      P (a.setTyp ts)) :
    AllNodes P (markStep s v) := by
  have happ : ∀ tt ∈ typeTags, P (applyType s tt) → AllNodes P (applyType s tt) :=
    fun tt htt hr => allNodes_applyType_of P s tt h hr (hnew tt htt)
  cases v with
  | num b =>
    simp only [markStep] at hroot ⊢
    split_ifs at hroot ⊢
    · exact happ _ (by decide) hroot
    · exact allNodes_replaceType_of P s _ _ h hroot halt
    · exact happ _ (by decide) hroot
  | null => exact allNodes_setNullable P s true h hroot
  | badNull => exact allNodes_setNullable P s true h hroot
  | invalid => exact h
  | badNum => exact h
  | str _ => exact happ _ (by decide) hroot
  | badStr => exact happ _ (by decide) hroot
  | bool _ => exact happ _ (by decide) hroot
  | badBool => exact happ _ (by decide) hroot
  | arr _ => exact happ _ (by decide) hroot
  | arrCut _ => exact happ _ (by decide) hroot
  | obj _ => exact happ _ (by decide) hroot
  | objCut _ => exact happ _ (by decide) hroot

/-! ## Tree invariants of the tag lists -/

theorem tags_setTyp_of_replaceTag (a : RawSchema) (ts : List String)
    (h : replaceTag a.Typ "integer" "number" = some ts) :
    (a.setTyp ts).tags = tagStep a.tags (.num false) := by
  have e : replaceTag a.tags "integer" "number" = some (a.setTyp ts).tags := by
    simp only [RawSchema.tags, replaceTag_append, h, RawSchema.setTyp, RawSchema.Typ_mk,
      RawSchema.OneOf_mk]
  simp [tagStep, e]

theorem singleton_eq_tagStep (tt : String) (h : tt ∈ typeTags) :
    ∃ v, [tt] = tagStep [] v := by
  simp only [typeTags, List.mem_cons, List.mem_singleton, List.not_mem_nil, or_false] at h
  rcases h with rfl | rfl | rfl | rfl | rfl | rfl
  · exact ⟨.str "", rfl⟩
  · exact ⟨.num true, rfl⟩
  · exact ⟨.num false, rfl⟩
  · exact ⟨.bool true, rfl⟩
  · exact ⟨.arr [], rfl⟩
  · exact ⟨.obj [], rfl⟩

/-- A property of tag lists that holds of the empty list and is kept by every
marker update holds of the tag list of every node of the tree. -/
theorem allNodes_tags_apply (Q : List String → Prop) (hnil : Q [])
    (hstep : ∀ ts v, Q ts → Q (tagStep ts v)) :
    ∀ v s, AllNodes (fun n => Q n.tags) s → AllNodes (fun n => Q n.tags) (apply s v).1 := by
  have hmark : ∀ s v, AllNodes (fun n => Q n.tags) s →
      AllNodes (fun n => Q n.tags) (markStep s v) := by
    intro s v hs
    have hr : Q s.tags := hs s (self_mem_nodes s)
    refine allNodes_markStep_of _ s v hs ?_ ?_ ?_
    · show Q (markStep s v).tags
      rw [tags_markStep]; exact hstep _ _ hr
    · intro tt htt
      obtain ⟨w, hw⟩ := singleton_eq_tagStep tt htt
      show Q (RawSchema.ofType tt).tags
      have : (RawSchema.ofType tt).tags = [tt] := rfl
      rw [this, hw]
      exact hstep _ _ hnil
    · intro a ha ts hts
      show Q (a.setTyp ts).tags
      rw [tags_setTyp_of_replaceTag a ts hts]
      exact hstep _ _ (((allNodes_iff _ s).1 hs).2.2.2 a ha a (self_mem_nodes a))
  refine allNodes_apply _ hnil hmark ?_
  intro s v hs _ _ _
  show Q (apply s v).1.tags
  rw [tags_apply]
  exact hstep _ _ (hs s (self_mem_nodes s))

theorem allNodes_tags_applySeq (Q : List String → Prop) (hnil : Q [])
    (hstep : ∀ ts v, Q ts → Q (tagStep ts v)) (vs : List JValue) :
    AllNodes (fun n => Q n.tags) (applySeq RawSchema.empty vs) := by
  have hE : AllNodes (fun n => Q n.tags) RawSchema.empty := by
    rw [allNodes_iff]
    exact ⟨hnil, by simp [RawSchema.empty, RawSchema.props], by simp [RawSchema.empty],
      by simp [RawSchema.empty]⟩
  exact allNodes_applySeq _ (allNodes_tags_apply Q hnil hstep) vs _ hE

/-! ## The vocabulary of tags -/

theorem mem_of_mem_replaceTag {ts ts1 : List String} {src dst t : String}
    (h : replaceTag ts src dst = some ts1) (ht : t ∈ ts1) : t = dst ∨ t ∈ ts := by
  induction ts generalizing ts1 with
  | nil => simp [replaceTag] at h
  | cons u ts ih =>
    simp only [replaceTag] at h
    split_ifs at h with hu
    · cases h
      rcases List.mem_cons.1 ht with rfl | ht
      · exact Or.inl rfl
      · exact Or.inr (List.mem_cons_of_mem _ ht)
    · cases hr : replaceTag ts src dst with
      | none => simp [hr] at h
      | some ts2 =>
        simp [hr] at h
        subst h
        rcases List.mem_cons.1 ht with rfl | ht
        · exact Or.inr (List.mem_cons_self _ _)
        · rcases ih hr ht with h1 | h1
          · exact Or.inl h1
          · exact Or.inr (List.mem_cons_of_mem _ h1)

/-- The marker update adds only tags of the engine's vocabulary. -/
theorem mem_tagStep_typeTags (ts : List String) (v : JValue) (t : String)
    (h : t ∈ tagStep ts v) : t ∈ ts ∨ t ∈ typeTags := by
  have hadd : ∀ tt ∈ typeTags, t ∈ addTag ts tt → t ∈ ts ∨ t ∈ typeTags := by
    intro tt htt h1
    rcases (mem_addTag ts tt t).1 h1 with h2 | rfl
    · exact Or.inl h2
    · exact Or.inr htt
  cases v with
  | num b =>
    simp only [tagStep] at h
    split_ifs at h
    · exact hadd _ (by decide) h
    · cases hr : replaceTag ts "integer" "number" with
      | none => rw [hr] at h; exact hadd _ (by decide) h
      | some ts1 =>
        rw [hr] at h
        rcases mem_of_mem_replaceTag hr h with rfl | h1
        · exact Or.inr (by decide)
        · exact Or.inl h1
  | null => exact Or.inl h
  | badNull => exact Or.inl h
  | invalid => exact Or.inl h
  | badNum => exact Or.inl h
  | str _ => exact hadd _ (by decide) h
  | badStr => exact hadd _ (by decide) h
  | bool _ => exact hadd _ (by decide) h
  | badBool => exact hadd _ (by decide) h
  | arr _ => exact hadd _ (by decide) h
  | arrCut _ => exact hadd _ (by decide) h
  | obj _ => exact hadd _ (by decide) h
  | objCut _ => exact hadd _ (by decide) h

theorem mem_typeTags (t : String) :
    t ∈ typeTags ↔ t = "string" ∨ t = "integer" ∨ t = "number" ∨ t = "boolean" ∨
      t = "array" ∨ t = "object" := by
  simp [typeTags]

/-- C13. After every sequence of well-formed JSON values applied to a fresh
engine (every call succeeds), every node of the tree has at most one tag in its
own type marker list, and every tag of every node is one of string, integer,
number, boolean, array, object; in particular no tag is "null". -/
theorem tags_are_single_and_in_vocabulary (vs : List JValue)
    (hwf : ∀ v ∈ vs, v.wellFormed = true) :
    ∃ i, Infer.fresh.applyAll vs = some i ∧
      ∀ n ∈ i.Target.nodes,
        n.Typ.length ≤ 1 ∧
        ∀ t ∈ n.Typ, (t = "string" ∨ t = "integer" ∨ t = "number" ∨ t = "boolean" ∨
          t = "array" ∨ t = "object") ∧ t ≠ "null" := by
  refine ⟨⟨applySeq RawSchema.empty vs⟩, applyAll_eq vs hwf _, ?_⟩
  have hE : AllNodes unionShape RawSchema.empty := by
    rw [allNodes_iff]
    refine ⟨?_, ?_, ?_, ?_⟩ <;> simp [unionShape, RawSchema.empty, RawSchema.props]
  have h1 := allNodes_applySeq unionShape allNodes_unionShape_apply vs _ hE
  have h2 := allNodes_tags_applySeq (fun ts => ∀ t ∈ ts, t ∈ typeTags) (by simp)
    (fun ts v hts t ht => (mem_tagStep_typeTags ts v t ht).elim (hts t) id) vs
  intro n hn
  refine ⟨(h1 n hn).1, fun t ht => ?_⟩
  have h3 : t ∈ typeTags := h2 n hn t (List.mem_append_left _ ht)
  refine ⟨(mem_typeTags t).1 h3, ?_⟩
  rintro rfl
  exact absurd h3 (by decide)

theorem tags_are_single_and_in_vocabulary_witness :
    ∃ i, Infer.fresh.applyAll
        [.null, .arr [.num true, .null, .str "x"], .obj [("a", .num false)]] = some i ∧
      ∀ n ∈ i.Target.nodes,
        n.Typ.length ≤ 1 ∧
        ∀ t ∈ n.Typ, (t = "string" ∨ t = "integer" ∨ t = "number" ∨ t = "boolean" ∨
          t = "array" ∨ t = "object") ∧ t ≠ "null" :=
  tags_are_single_and_in_vocabulary
    [.null, .arr [.num true, .null, .str "x"], .obj [("a", .num false)]]
    (by
      intro v hv
      simp only [List.mem_cons, List.mem_singleton, List.not_mem_nil, or_false] at hv
      rcases hv with rfl | rfl | rfl <;> rfl)

/-! ## Tags are not repeated -/

/-- C19. After every sequence of well-formed JSON values applied to a fresh
engine (every call succeeds), in every node of the tree the tags of its own
marker list followed by those of all its alternatives are pairwise distinct,
and "integer" and "number" are not both among them. -/
theorem tags_are_distinct_and_not_integer_with_number (vs : List JValue)
    (hwf : ∀ v ∈ vs, v.wellFormed = true) :
    ∃ i, Infer.fresh.applyAll vs = some i ∧
      ∀ n ∈ i.Target.nodes,
        (n.Typ ++ n.OneOf.flatMap RawSchema.Typ).Nodup ∧
        ¬ ("integer" ∈ n.Typ ++ n.OneOf.flatMap RawSchema.Typ ∧
            "number" ∈ n.Typ ++ n.OneOf.flatMap RawSchema.Typ) := by
  refine ⟨⟨applySeq RawSchema.empty vs⟩, applyAll_eq vs hwf _, ?_⟩
  exact allNodes_tags_applySeq TagsOk ⟨List.nodup_nil, by simp⟩
    (fun ts v hts => tagsOk_tagStep ts hts v) vs

theorem tags_are_distinct_and_not_integer_with_number_witness :
    ∃ i, Infer.fresh.applyAll
        [.num true, .arr [.num true, .bool true, .num false], .str "x", .num false] = some i ∧
      ∀ n ∈ i.Target.nodes,
        (n.Typ ++ n.OneOf.flatMap RawSchema.Typ).Nodup ∧
        ¬ ("integer" ∈ n.Typ ++ n.OneOf.flatMap RawSchema.Typ ∧
            "number" ∈ n.Typ ++ n.OneOf.flatMap RawSchema.Typ) :=
  tags_are_distinct_and_not_integer_with_number
    [.num true, .arr [.num true, .bool true, .num false], .str "x", .num false]
    (by
      intro v hv
      simp only [List.mem_cons, List.mem_singleton, List.not_mem_nil, or_false] at hv
      rcases hv with rfl | rfl | rfl | rfl <;> rfl)

/-! ## Tree invariants that hold for a class of values -/

/-- The tree invariant principle for a class `G` of values that contains the
elements and field values of its members: as `allNodes_apply`, with the node
itself to be treated for values of the class only. -/
theorem allNodes_apply_on (G : JValue → Prop)
    (harrG : ∀ xs, G (.arr xs) → ∀ x ∈ xs, G x)
    (harrCutG : ∀ xs, G (.arrCut xs) → ∀ x ∈ xs, G x)
    (hobjG : ∀ kvs : List (String × JValue), G (.obj kvs) → ∀ kv ∈ kvs, G kv.2)
    (hobjCutG : ∀ kvs : List (String × JValue), G (.objCut kvs) → ∀ kv ∈ kvs, G kv.2)
    (P : RawSchema → Prop) (hempty : P RawSchema.empty)
    (hmark : ∀ s v, AllNodes P s → AllNodes P (markStep s v))
    (hroot : ∀ s v, G v → AllNodes P s →
      (∀ p ∈ (apply s v).1.props, AllNodes P p.2) →
      (∀ it, (apply s v).1.Items = some (some it) → AllNodes P it) →
      (∀ a ∈ (apply s v).1.OneOf, AllNodes P a) → P (apply s v).1) :
    ∀ v, G v → ∀ s, AllNodes P s → AllNodes P (apply s v).1 := by
  have hE : AllNodes P RawSchema.empty := by
    rw [allNodes_iff]
    exact ⟨hempty, by simp [RawSchema.empty, RawSchema.props], by simp [RawSchema.empty],
      by simp [RawSchema.empty]⟩
  have hplain : ∀ v, G v → ∀ s, AllNodes P s →
      (apply s v).1.Properties = (markStep s v).Properties →
      (apply s v).1.Items = (markStep s v).Items → AllNodes P (apply s v).1 := by
    intro v hg s hs hp hi
    have hm := (allNodes_iff P _).1 (hmark s v hs)
    have hprops : (apply s v).1.props = (markStep s v).props := by
      simp only [RawSchema.props, hp]
    have h1 : ∀ p ∈ (apply s v).1.props, AllNodes P p.2 := by rw [hprops]; exact hm.2.1
    have h2 : ∀ it, (apply s v).1.Items = some (some it) → AllNodes P it := by
      rw [hi]; exact hm.2.2.1
    have h3 : ∀ a ∈ (apply s v).1.OneOf, AllNodes P a := by rw [apply_OneOf]; exact hm.2.2.2
    exact (allNodes_iff P _).2 ⟨hroot s v hg hs h1 h2 h3, h1, h2, h3⟩
  have harr : ∀ (xs : List JValue) (closed : Bool) (v : JValue), G v →
      (∀ s, (apply s v).1 = (applyArr (applyType s "array") closed xs).1) →
      (∀ s, markStep s v = applyType s "array") →
      (∀ x ∈ xs, ∀ s, AllNodes P s → AllNodes P (apply s x).1) →
      ∀ s, AllNodes P s → AllNodes P (apply s v).1 := by
    intro xs closed v hg hv hmv ih s hs
    have hm := (allNodes_iff P _).1 (hmark s v hs)
    rw [hmv] at hm
    have h1 : ∀ p ∈ (apply s v).1.props, AllNodes P p.2 := by
      rw [hv, applyArr_frame]; exact hm.2.1
    have h2 : ∀ it, (apply s v).1.Items = some (some it) → AllNodes P it := by
      rw [hv]; exact applyArr_item _ hE xs ih _ _ hm.2.2.1
    have h3 : ∀ a ∈ (apply s v).1.OneOf, AllNodes P a := by
      rw [apply_OneOf, hmv]; exact hm.2.2.2
    exact (allNodes_iff P _).2 ⟨hroot s v hg hs h1 h2 h3, h1, h2, h3⟩
  have hobj : ∀ (kvs : List (String × JValue)) (closed : Bool) (v : JValue), G v →
      (∀ s, (apply s v).1 = (objEnd closed (applyFields
        (collectProps (objBegin s).1.props 0 []) (objBegin s).2 (objInit s) kvs)).1) →
      (∀ s, markStep s v = applyType s "object") →
      (∀ kv ∈ kvs, ∀ s, AllNodes P s → AllNodes P (apply s kv.2).1) →
      ∀ s, AllNodes P s → AllNodes P (apply s v).1 := by
    intro kvs closed v hg hv hmv ih s hs
    have hm := (allNodes_iff P _).1 (hmark s v hs)
    rw [hmv] at hm
    have h1 : ∀ p ∈ (apply s v).1.props, AllNodes P p.2 := by
      rw [hv]
      intro p hp
      refine applyFields_children _ hE kvs ih _ _ (objInit s) ?_ p
        (objEnd_props_subset _ _ p hp)
      intro q hq
      exact hm.2.1 q (objBegin_props_subset s q hq)
    have h2 : ∀ it, (apply s v).1.Items = some (some it) → AllNodes P it := by
      rw [hv, objEnd_frame]
      simp only [RawSchema.setProperties, RawSchema.setRequired, RawSchema.Items_mk]
      rw [applyFields_Items, objInit, objBegin_frame]
      exact hm.2.2.1
    have h3 : ∀ a ∈ (apply s v).1.OneOf, AllNodes P a := by
      rw [apply_OneOf, hmv]; exact hm.2.2.2
    exact (allNodes_iff P _).2 ⟨hroot s v hg hs h1 h2 h3, h1, h2, h3⟩
  have hleaf : ∀ v, (∀ xs, v ≠ .arr xs) → (∀ xs, v ≠ .arrCut xs) → (∀ kvs, v ≠ .obj kvs) →
      (∀ kvs, v ≠ .objCut kvs) → G v → ∀ s, AllNodes P s → AllNodes P (apply s v).1 :=
    fun v h1 h2 h3 h4 hg s hs => hplain v hg s hs (apply_Properties_of_not_object s v h3 h4)
      (apply_Items_of_not_array s v h1 h2)
  intro v
  induction v using JValue.induct with
  | arr xs ih =>
    intro hg
    exact harr xs true _ hg (fun s => by simp [apply]) (fun s => rfl)
      (fun x hx => ih x hx (harrG xs hg x hx))
  | arrCut xs ih =>
    intro hg
    exact harr xs false _ hg (fun s => by simp [apply]) (fun s => rfl)
      (fun x hx => ih x hx (harrCutG xs hg x hx))
  | obj kvs ih =>
    intro hg
    exact hobj kvs true _ hg (fun s => by simp [apply]) (fun s => rfl)
      (fun kv hkv => ih kv hkv (hobjG kvs hg kv hkv))
  | objCut kvs ih =>
    intro hg
    exact hobj kvs false _ hg (fun s => by simp [apply]) (fun s => rfl)
      (fun kv hkv => ih kv hkv (hobjCutG kvs hg kv hkv))
  | str s0 => exact hleaf _ (by simp) (by simp) (by simp) (by simp)
  | num b => exact hleaf _ (by simp) (by simp) (by simp) (by simp)
  | null => exact hleaf _ (by simp) (by simp) (by simp) (by simp)
  | bool b => exact hleaf _ (by simp) (by simp) (by simp) (by simp)
  | invalid => exact hleaf _ (by simp) (by simp) (by simp) (by simp)
  | badNum => exact hleaf _ (by simp) (by simp) (by simp) (by simp)
  | badStr => exact hleaf _ (by simp) (by simp) (by simp) (by simp)
  | badNull => exact hleaf _ (by simp) (by simp) (by simp) (by simp)
  | badBool => exact hleaf _ (by simp) (by simp) (by simp) (by simp)

/-- The tree invariant principle for well-formed values. -/
theorem allNodes_apply_wf (P : RawSchema → Prop) (hempty : P RawSchema.empty)
    (hmark : ∀ s v, AllNodes P s → AllNodes P (markStep s v))
    (hroot : ∀ s v, v.wellFormed = true → AllNodes P s →
      (∀ p ∈ (apply s v).1.props, AllNodes P p.2) →
      (∀ it, (apply s v).1.Items = some (some it) → AllNodes P it) →
      (∀ a ∈ (apply s v).1.OneOf, AllNodes P a) → P (apply s v).1) :
    ∀ v, v.wellFormed = true → ∀ s, AllNodes P s → AllNodes P (apply s v).1 := by
  refine allNodes_apply_on (fun v => v.wellFormed = true) ?_ ?_ ?_ ?_ P hempty hmark hroot
  · intro xs h
    rw [JValue.wellFormed, JValue.wellFormedList_iff] at h
    exact h
  · intro xs h
    simp [JValue.wellFormed] at h
  · intro kvs h
    rw [JValue.wellFormed, JValue.wellFormedFields_iff] at h
    exact h
  · intro kvs h
    simp [JValue.wellFormed] at h

theorem allNodes_applySeq_wf (P : RawSchema → Prop)
    (hstep : ∀ v, v.wellFormed = true → ∀ s, AllNodes P s → AllNodes P (apply s v).1)
    (vs : List JValue) (hwf : ∀ v ∈ vs, v.wellFormed = true) (s : RawSchema)
    (hs : AllNodes P s) : AllNodes P (applySeq s vs) := by
  induction vs generalizing s with
  | nil => exact hs
  | cons v vs ih =>
    exact ih (fun y hy => hwf y (List.mem_cons_of_mem _ hy)) _
      (hstep v (hwf v (List.mem_cons_self _ _)) s hs)

/-! ## Sorted property and required lists -/

theorem sortProperties_sorted (ps : List RawProperty) :
    ((sortProperties ps).map Prod.fst).Sorted (fun a b => a ≤ b) := by
  haveI : IsTotal RawProperty (fun a b => nameLE a.1 b.1) := ⟨fun a b => nameLE_total a.1 b.1⟩
  haveI : IsTrans RawProperty (fun a b => nameLE a.1 b.1) :=
    ⟨fun a b c => nameLE_trans a.1 b.1 c.1⟩
  have h1 : (sortProperties ps).Sorted (fun a b => nameLE a.1 b.1) :=
    List.sorted_insertionSort _ _
  unfold List.Sorted at h1 ⊢
  rw [List.pairwise_map]
  exact h1.imp (fun {a b} hab => (nameLE_iff a.1 b.1).1 hab)

theorem markStep_Properties_Required (s : RawSchema) (v : JValue) :
    ((markStep s v).Properties = s.Properties ∧ (markStep s v).Required = s.Required) ∨
    ((markStep s v).Properties = none ∧ (markStep s v).Required = []) := by
  have hT : ∀ tt, ((applyType s tt).Properties = s.Properties ∧
      (applyType s tt).Required = s.Required) ∨
      ((applyType s tt).Properties = none ∧ (applyType s tt).Required = []) := by
    intro tt
    rcases applyType_cases s tt with e | ⟨_, e⟩ | ⟨_, _, e⟩ | ⟨_, _, e⟩ <;> rw [e] <;> simp
  have hR : (replaceType s "integer" "number").1.Properties = s.Properties ∧
      (replaceType s "integer" "number").1.Required = s.Required := by
    rcases replaceType_cases s "integer" "number" with ⟨_, _, e⟩ | ⟨ts, _, e⟩ | ⟨vs, _, _, e⟩ <;>
      rw [e] <;> simp
  cases v with
  | num b =>
    simp only [markStep]
    split_ifs
    · exact hT _
    · exact Or.inl hR
    · exact hT _
  | null => simp [markStep]
  | badNull => simp [markStep]
  | invalid => simp [markStep]
  | badNum => simp [markStep]
  | _ => exact hT _

theorem apply_Required_of_not_object (s : RawSchema) (v : JValue)
    (h1 : ∀ kvs, v ≠ .obj kvs) (h2 : ∀ kvs, v ≠ .objCut kvs) :
    (apply s v).1.Required = (markStep s v).Required := by
  cases v with
  | obj kvs => exact absurd rfl (h1 kvs)
  | objCut kvs => exact absurd rfl (h2 kvs)
  | num b => simp only [apply, markStep]; split_ifs <;> rfl
  | arr xs => simp only [apply, markStep]; rw [applyArr_frame]; simp
  | arrCut xs => simp only [apply, markStep]; rw [applyArr_frame]; simp
  | _ => simp [apply, markStep]

theorem sortedLists_markStep (s : RawSchema) (v : JValue) (h : sortedLists s) :
    sortedLists (markStep s v) := by
  unfold sortedLists RawSchema.props at h ⊢
  rcases markStep_Properties_Required s v with ⟨e1, e2⟩ | ⟨e1, e2⟩
  · rw [e1, e2]; exact h
  · rw [e1, e2]; simp

theorem allNodes_sortedLists_markStep (s : RawSchema) (v : JValue)
    (h : AllNodes sortedLists s) : AllNodes sortedLists (markStep s v) := by
  refine allNodes_markStep_of sortedLists s v h
    (sortedLists_markStep s v (h s (self_mem_nodes s))) ?_ ?_
  · intro tt _
    simp [sortedLists, RawSchema.ofType, RawSchema.props]
  · intro a ha ts _
    have := ((allNodes_iff _ s).1 h).2.2.2 a ha a (self_mem_nodes a)
    unfold sortedLists RawSchema.props at this ⊢
    simpa using this

theorem apply_obj_props_eq (s : RawSchema) (kvs : List (String × JValue))
    (hok : ∀ kv ∈ kvs, ∀ s, (apply s kv.2).2 = true) :
    ∃ ps, (apply s (.obj kvs)).1.Properties = some (sortProperties ps) := by
  refine ⟨(applyFields (collectProps (objBegin s).1.props 0 []) (objBegin s).2
    (objInit s) kvs).1.s.props, ?_⟩
  simp only [apply, objEnd]
  rw [applyFields_ok kvs hok]
  simp

theorem allNodes_sortedLists_apply (v : JValue) (hv : v.wellFormed = true) (s : RawSchema)
    (h : AllNodes sortedLists s) : AllNodes sortedLists (apply s v).1 := by
  refine allNodes_apply_wf sortedLists ?_ allNodes_sortedLists_markStep ?_ v hv s h
  · simp [sortedLists, RawSchema.empty, RawSchema.props]
  · intro s v hv hs _ _ _
    have hm := sortedLists_markStep s v (hs s (self_mem_nodes s))
    by_cases hobj : ∃ kvs, v = .obj kvs
    · obtain ⟨kvs, rfl⟩ := hobj
      rw [JValue.wellFormed, JValue.wellFormedFields_iff] at hv
      have hok : ∀ kv ∈ kvs, ∀ s, (apply s kv.2).2 = true :=
        fun kv hkv => apply_ok kv.2 (hv kv hkv)
      obtain ⟨ps, hps⟩ := apply_obj_props_eq s kvs hok
      refine ⟨?_, apply_obj_Required_sorted s kvs hok⟩
      rw [props_of_Properties hps]
      exact sortProperties_sorted ps
    · have h1 : ∀ kvs, v ≠ .obj kvs := fun kvs e => hobj ⟨kvs, e⟩
      have h2 : ∀ kvs, v ≠ .objCut kvs := by
        intro kvs e
        rw [e] at hv
        simp [JValue.wellFormed] at hv
      unfold sortedLists RawSchema.props at hm ⊢
      rw [apply_Properties_of_not_object s v h1 h2, apply_Required_of_not_object s v h1 h2]
      exact hm

/-- C12. After every sequence of well-formed JSON values applied to a fresh
engine (every call succeeds), in every node of the tree the property list is
in ascending order of property name and the required list is in strictly
ascending lexicographic order. The objects `{"foo":1}`, `{"foo":5}`,
`{"foo":2,"bar":"baz"}` give the properties bar, foo and the required list
foo. -/
theorem property_and_required_lists_are_sorted (vs : List JValue)
    (hwf : ∀ v ∈ vs, v.wellFormed = true) :
    ∃ i, Infer.fresh.applyAll vs = some i ∧
      (∀ n ∈ i.Target.nodes,
        (n.props.map Prod.fst).Sorted (fun a b => a ≤ b) ∧
        n.Required.Sorted (fun a b => a < b)) ∧
      Infer.fresh.applyAll [.obj [("foo", .num true)], .obj [("foo", .num true)],
          .obj [("foo", .num true), ("bar", .str "baz")]]
        = some ⟨RawSchema.mk ["object"] false
            (some [("bar", RawSchema.ofType "string"), ("foo", RawSchema.ofType "integer")])
            ["foo"] none []⟩ := by
  refine ⟨⟨applySeq RawSchema.empty vs⟩, applyAll_eq vs hwf _, ?_, rfl⟩
  have hE : AllNodes sortedLists RawSchema.empty := by
    rw [allNodes_iff]
    refine ⟨?_, ?_, ?_, ?_⟩ <;> simp [sortedLists, RawSchema.empty, RawSchema.props]
  exact allNodes_applySeq_wf sortedLists allNodes_sortedLists_apply vs hwf _ hE

theorem property_and_required_lists_are_sorted_witness :
    ∃ i, Infer.fresh.applyAll
        [.obj [("b", .obj [("z", .null), ("y", .null)]), ("a", .num true)], .bool true,
          .obj [("c", .null)]] = some i ∧
      ∀ n ∈ i.Target.nodes,
        (n.props.map Prod.fst).Sorted (fun a b => a ≤ b) ∧
        n.Required.Sorted (fun a b => a < b) := by
  obtain ⟨i, h1, h2, _⟩ := property_and_required_lists_are_sorted
    [.obj [("b", .obj [("z", .null), ("y", .null)]), ("a", .num true)], .bool true,
      .obj [("c", .null)]]
    (by
      intro v hv
      simp only [List.mem_cons, List.mem_singleton, List.not_mem_nil, or_false] at hv
      rcases hv with rfl | rfl | rfl <;> rfl)
  exact ⟨i, h1, h2⟩

/-! ## Widening of "integer" in place -/

theorem replaceInOneOf_at (l : List RawSchema) (k : Nat) (a : RawSchema) (src dst : String)
    (hk : l.get? k = some a) (ha : a.Typ = [src])
    (hn : (l.flatMap RawSchema.Typ).Nodup) :
    replaceInOneOf l src dst = some (l.set k (a.setTyp [dst])) := by
  induction l generalizing k with
  | nil => simp at hk
  | cons b l ih =>
    rw [List.flatMap_cons, List.nodup_append] at hn
    cases k with
    | zero =>
      simp only [List.get?_cons_zero, Option.some.injEq] at hk
      subst hk
      simp [replaceInOneOf, ha, replaceTag]
    | succ k =>
      simp only [List.get?_cons_succ] at hk
      have hmem : src ∈ l.flatMap RawSchema.Typ :=
        List.mem_flatMap.2 ⟨a, List.get?_mem hk, by simp [ha]⟩
      have hb : src ∉ b.Typ := fun h => hn.2.2 h hmem
      simp only [replaceInOneOf, replaceTag_eq_none hb, List.set_cons_succ]
      rw [ih k hk hn.2.1]
      rfl

theorem tagsOk_foldl_tagStep (vs : List JValue) (ts : List String) (h : TagsOk ts) :
    TagsOk (vs.foldl tagStep ts) := by
  induction vs generalizing ts with
  | nil => exact h
  | cons v vs ih => exact ih _ (tagsOk_tagStep ts h v)

/-- C17. Let a node be in a state reached from a new (empty) node by any
sequence of `apply` calls. If it carries the tag "integer" as its own marker,
applying a non-integral number succeeds and only overwrites the marker list by
"number". If its alternative number `k` carries "integer", applying a
non-integral number succeeds and only overwrites the tag list of that
alternative by "number": the alternatives keep their number and order, nothing
is appended, and every other field and tag is unchanged. On a fresh engine
`true`, `"foo"`, `10`, `1.0` gives the alternatives boolean, string, number. -/
theorem fractional_number_widens_integer_in_place (vs : List JValue) :
    ("integer" ∈ (applySeq RawSchema.empty vs).Typ →
      apply (applySeq RawSchema.empty vs) (.num false)
        = (RawSchema.mk ["number"] (applySeq RawSchema.empty vs).Nullable
            (applySeq RawSchema.empty vs).Properties (applySeq RawSchema.empty vs).Required
            (applySeq RawSchema.empty vs).Items (applySeq RawSchema.empty vs).OneOf, true)) ∧
    (∀ k a, (applySeq RawSchema.empty vs).OneOf.get? k = some a → "integer" ∈ a.Typ →
      apply (applySeq RawSchema.empty vs) (.num false)
        = (RawSchema.mk (applySeq RawSchema.empty vs).Typ
            (applySeq RawSchema.empty vs).Nullable (applySeq RawSchema.empty vs).Properties
            (applySeq RawSchema.empty vs).Required (applySeq RawSchema.empty vs).Items
            ((applySeq RawSchema.empty vs).OneOf.set k
              (RawSchema.mk ["number"] a.Nullable a.Properties a.Required a.Items a.OneOf)),
            true)) ∧
    Infer.fresh.applyAll [.bool true, .str "foo", .num true, .num false]
      = some ⟨RawSchema.mk [] false none [] none
          [RawSchema.ofType "boolean", RawSchema.ofType "string",
            RawSchema.ofType "number"]⟩ := by
  have hE : AllNodes unionShape RawSchema.empty := by
    rw [allNodes_iff]
    refine ⟨?_, ?_, ?_, ?_⟩ <;> simp [unionShape, RawSchema.empty, RawSchema.props]
  have hU : unionShape (applySeq RawSchema.empty vs) :=
    allNodes_applySeq unionShape allNodes_unionShape_apply vs _ hE _ (self_mem_nodes _)
  have hT : TagsOk (applySeq RawSchema.empty vs).tags := by
    rw [tags_applySeq]
    exact tagsOk_foldl_tagStep vs [] ⟨List.nodup_nil, by simp⟩
  generalize applySeq RawSchema.empty vs = s at hU hT
  have happly : apply s (.num false)
      = ((replaceType s "integer" "number").1, (replaceType s "integer" "number").2) ∨
      (replaceType s "integer" "number").2 = false := by
    cases h : (replaceType s "integer" "number").2
    · exact Or.inr rfl
    · left; simp [apply, h]
  refine ⟨?_, ?_, rfl⟩
  · intro hint
    have hTyp : s.Typ = ["integer"] := by
      have hl := hU.1
      match hs : s.Typ, hl, hint with
      | [t], _, hint => simp at hint; rw [hint]
    have hr : replaceType s "integer" "number" = (s.setTyp ["number"], true) := by
      simp [replaceType, hTyp, replaceTag]
    rcases happly with h | h
    · rw [h, hr]; rfl
    · rw [hr] at h; cases h
  · intro k a hk hint
    have hmem : a ∈ s.OneOf := List.get?_mem hk
    have hne : s.OneOf ≠ [] := List.ne_nil_of_mem hmem
    have hTyp : s.Typ = [] := hU.2.1 hne
    have haT : a.Typ = ["integer"] := by
      have hl := (hU.2.2 a hmem).1
      match ha : a.Typ, hl, hint with
      | [t], _, hint => simp at hint; rw [hint]
    have hn : (s.OneOf.flatMap RawSchema.Typ).Nodup := by
      have := hT.1
      rw [RawSchema.tags, hTyp, List.nil_append] at this
      exact this
    have hr : replaceType s "integer" "number"
        = (s.setOneOf (s.OneOf.set k (a.setTyp ["number"])), true) := by
      simp [replaceType, hTyp, replaceTag, replaceInOneOf_at s.OneOf k a _ "number" hk haT hn]
    rcases happly with h | h
    · rw [h, hr]; rfl
    · rw [hr] at h; cases h

theorem fractional_number_widens_integer_in_place_witness :
    apply (applySeq RawSchema.empty [.num true, .null]) (.num false)
      = (RawSchema.mk ["number"] true none [] none [], true) ∧
    apply (applySeq RawSchema.empty [.bool true, .num true, .str "x"]) (.num false)
      = (RawSchema.mk [] false none [] none
          [RawSchema.ofType "boolean", RawSchema.ofType "number", RawSchema.ofType "string"],
          true) :=
  ⟨(fractional_number_widens_integer_in_place [.num true, .null]).1 (by decide),
    (fractional_number_widens_integer_in_place [.bool true, .num true, .str "x"]).2.1 1
      (RawSchema.ofType "integer") rfl (by decide)⟩

/-! ## Malformed input -/

/-- C14. On a fresh engine `Apply` returns an error for each of the malformed
inputs: the empty input, `r`, `-..`, `{`, `[`, `[{`, `[{}` and
`{"foo": [-..]}`. `Apply` is a total function, so it returns in every case. -/
theorem malformed_inputs_are_rejected :
    badInputs.length = 8 ∧
    (∀ v ∈ badInputs, (Infer.fresh.Apply v).2 = false) ∧
    (Infer.fresh.Apply .invalid).2 = false ∧
    (Infer.fresh.Apply .badNum).2 = false ∧
    (Infer.fresh.Apply (.objCut [])).2 = false ∧
    (Infer.fresh.Apply (.arrCut [])).2 = false ∧
    (Infer.fresh.Apply (.arrCut [.objCut []])).2 = false ∧
    (Infer.fresh.Apply (.arrCut [.obj []])).2 = false ∧
    (Infer.fresh.Apply (.obj [("foo", .arr [.badNum])])).2 = false := by
  refine ⟨rfl, ?_, rfl, rfl, rfl, rfl, rfl, rfl, rfl⟩
  intro v hv
  simp only [badInputs, List.mem_cons, List.mem_singleton, List.not_mem_nil, or_false] at hv
  rcases hv with rfl | rfl | rfl | rfl | rfl | rfl | rfl | rfl <;> rfl

/-- C15. A failed `Apply` is not atomic. On a fresh engine `[1, -..]` returns
an error and leaves the root with the tag "array" and the item schema of the
first element; `{"a": 1, "b": -..}` returns an error and leaves the root with
the tag "object" and the property "a". In both cases the tree differs from the
empty tree it was before the call. -/
theorem failed_apply_keeps_partial_mutations :
    Infer.fresh.Apply (.arr [.num true, .badNum])
      = (⟨RawSchema.mk ["array"] false none [] (some (some (RawSchema.ofType "integer"))) []⟩,
          false) ∧
    Infer.fresh.Apply (.obj [("a", .num true), ("b", .badNum)])
      = (⟨RawSchema.mk ["object"] false (some [("a", RawSchema.ofType "integer")]) [] none []⟩,
          false) ∧
    (Infer.fresh.Apply (.arr [.num true, .badNum])).1.Target ≠ Infer.fresh.Target ∧
    (Infer.fresh.Apply (.obj [("a", .num true), ("b", .badNum)])).1.Target
      ≠ Infer.fresh.Target := by
  refine ⟨rfl, rfl, ?_, ?_⟩
  · intro h
    have := congrArg RawSchema.Typ h
    exact absurd this (by decide)
  · intro h
    have := congrArg RawSchema.Typ h
    exact absurd this (by decide)

/-! ## `applyType` -/

/-- C16. On a node without alternatives whose own type marker is the single
tag `t`, `applyType` with a tag `tt` other than `t` makes the node a union: its
alternatives are the complete previous node followed by a new node that carries
only `tt`, and the node itself has an empty type marker, nullable false, no
properties, no required names and no item schema. -/
theorem applyType_branches_typed_node (s : RawSchema) (t tt : String)
    (hO : s.OneOf = []) (hT : s.Typ = [t]) (hne : tt ≠ t) :
    (applyType s tt).OneOf = [s, RawSchema.mk [tt] false none [] none []] ∧
    (applyType s tt).Typ = [] ∧
    (applyType s tt).Nullable = false ∧
    (applyType s tt).Properties = none ∧
    (applyType s tt).Required = [] ∧
    (applyType s tt).Items = none := by
  have hh : ¬ hasType s tt = true := by
    rw [hasType_iff, hT, hO]
    simp [hne]
  have e : applyType s tt = RawSchema.mk [] false none [] none [s, RawSchema.ofType tt] := by
    rw [applyType, if_neg hh]
    simp [hO, hT]
  rw [e]
  exact ⟨rfl, rfl, rfl, rfl, rfl, rfl⟩

theorem applyType_branches_typed_node_witness :
    (applyType (RawSchema.mk ["string"] true none [] none []) "boolean").OneOf
      = [RawSchema.mk ["string"] true none [] none [],
          RawSchema.mk ["boolean"] false none [] none []] ∧
    (applyType (RawSchema.mk ["string"] true none [] none []) "boolean").Nullable = false :=
  have h := applyType_branches_typed_node (RawSchema.mk ["string"] true none [] none [])
    "string" "boolean" rfl rfl (by decide)
  ⟨h.1, h.2.2.1⟩

/-- C18. After `applyType(node, tt)` the node has the tag: `hasType(node, tt)`
is true. If it had the tag before, the node is left completely unchanged. If it
did not and already has alternatives, exactly one alternative that carries only
`tt` is appended and nothing else changes. -/
theorem applyType_ensures_tag (s : RawSchema) (tt : String) :
    hasType (applyType s tt) tt = true ∧
    (hasType s tt = true → applyType s tt = s) ∧
    (hasType s tt = false → s.OneOf ≠ [] →
      applyType s tt = RawSchema.mk s.Typ s.Nullable s.Properties s.Required s.Items
        (s.OneOf ++ [RawSchema.mk [tt] false none [] none []])) := by
  refine ⟨hasType_applyType_self s tt, fun h => by rw [applyType, if_pos h], fun h hne => ?_⟩
  have hh : ¬ hasType s tt = true := by simp [h]
  have hl : s.OneOf.length > 0 := List.length_pos.2 hne
  rw [applyType, if_neg hh, if_pos hl]
  rfl

theorem applyType_ensures_tag_witness :
    applyType (RawSchema.ofType "string") "string" = RawSchema.ofType "string" ∧
    applyType (RawSchema.mk [] false none [] none
        [RawSchema.ofType "string", RawSchema.ofType "boolean"]) "array"
      = RawSchema.mk [] false none [] none
        [RawSchema.ofType "string", RawSchema.ofType "boolean", RawSchema.ofType "array"] :=
  ⟨(applyType_ensures_tag (RawSchema.ofType "string") "string").2.1 rfl,
    (applyType_ensures_tag (RawSchema.mk [] false none [] none
        [RawSchema.ofType "string", RawSchema.ofType "boolean"]) "array").2.2 rfl
      (by simp)⟩

/-! ## Property names -/

/-- C11 at the failing input. The object `{"a":1,"a":"x"}` is accepted by a
fresh engine and leaves two properties named "a" at the root: the map of known
properties is filled before the fields are read and is not updated when a
property is appended, so the second "a" is taken for a new property as well. -/
theorem repeated_key_gives_two_properties :
    ∃ i, (JValue.obj [("a", .num true), ("a", .str "x")]).wellFormed = true ∧
      Infer.fresh.applyAll [.obj [("a", .num true), ("a", .str "x")]] = some i ∧
      i.Target = RawSchema.mk ["object"] false
        (some [("a", RawSchema.ofType "integer"), ("a", RawSchema.ofType "string")]) ["a"]
        none [] ∧
      i.Target ∈ i.Target.nodes ∧
      i.Target.props.map Prod.fst = ["a", "a"] ∧
      ¬ (i.Target.props.map Prod.fst).Nodup := by
  refine ⟨⟨RawSchema.mk ["object"] false
    (some [("a", RawSchema.ofType "integer"), ("a", RawSchema.ofType "string")]) ["a"]
    none []⟩, rfl, rfl, rfl, self_mem_nodes _, rfl, ?_⟩
  simp [Infer.Target, RawSchema.props]

theorem JValue.distinctKeysList_iff (xs : List JValue) :
    JValue.distinctKeysList xs = true ↔ ∀ x ∈ xs, x.distinctKeys = true := by
  induction xs with
  | nil => simp [JValue.distinctKeysList]
  | cons x xs ih => simp [JValue.distinctKeysList, ih]

theorem JValue.distinctKeysFields_iff (kvs : List (String × JValue)) :
    JValue.distinctKeysFields kvs = true ↔ ∀ kv ∈ kvs, kv.2.distinctKeys = true := by
  induction kvs with
  | nil => simp [JValue.distinctKeysFields]
  | cons kv kvs ih => simp [JValue.distinctKeysFields, ih]

theorem allNodes_nodupNames_markStep (s : RawSchema) (v : JValue)
    (h : AllNodes (fun n => (n.props.map Prod.fst).Nodup) s) :
    AllNodes (fun n => (n.props.map Prod.fst).Nodup) (markStep s v) := by
  refine allNodes_markStep_of _ s v h ?_ ?_ ?_
  · have hr := h s (self_mem_nodes s)
    simp only [RawSchema.props] at hr ⊢
    rcases markStep_Properties_Required s v with ⟨e1, _⟩ | ⟨e1, _⟩
    · rw [e1]; exact hr
    · rw [e1]; simp
  · intro tt _
    simp [RawSchema.ofType, RawSchema.props]
  · intro a ha ts _
    have := ((allNodes_iff _ s).1 h).2.2.2 a ha a (self_mem_nodes a)
    simp only [RawSchema.props] at this ⊢
    simpa using this

/-- The bug is confined to repeated keys: when no object, at any depth, has a
repeated key, the property names of every node of the tree are pairwise
distinct. -/
theorem property_names_distinct_of_distinct_keys (vs : List JValue)
    (hwf : ∀ v ∈ vs, v.wellFormed = true) (hkeys : ∀ v ∈ vs, v.distinctKeys = true) :
    ∃ i, Infer.fresh.applyAll vs = some i ∧
      ∀ n ∈ i.Target.nodes, (n.props.map Prod.fst).Nodup := by
  refine ⟨⟨applySeq RawSchema.empty vs⟩, applyAll_eq vs hwf _, ?_⟩
  have hstep : ∀ v, (v.wellFormed = true ∧ v.distinctKeys = true) → ∀ s,
      AllNodes (fun n => (n.props.map Prod.fst).Nodup) s →
      AllNodes (fun n => (n.props.map Prod.fst).Nodup) (apply s v).1 := by
    refine allNodes_apply_on (fun v => v.wellFormed = true ∧ v.distinctKeys = true)
      ?_ ?_ ?_ ?_ _ ?_ allNodes_nodupNames_markStep ?_
    · intro xs h x hx
      rw [JValue.wellFormed, JValue.wellFormedList_iff, JValue.distinctKeys,
        JValue.distinctKeysList_iff] at h
      exact ⟨h.1 x hx, h.2 x hx⟩
    · intro xs h
      simp [JValue.wellFormed] at h
    · intro kvs h kv hkv
      rw [JValue.wellFormed, JValue.wellFormedFields_iff, JValue.distinctKeys,
        Bool.and_eq_true, JValue.distinctKeysFields_iff] at h
      exact ⟨h.1 kv hkv, h.2.2 kv hkv⟩
    · intro kvs h
      simp [JValue.wellFormed] at h
    · simp [RawSchema.empty, RawSchema.props]
    · intro s v hv hs _ _ _
      have hm := allNodes_nodupNames_markStep s v hs _ (self_mem_nodes _)
      by_cases hobj : ∃ kvs, v = .obj kvs
      · obtain ⟨kvs, rfl⟩ := hobj
        obtain ⟨h1, h2⟩ := hv
        rw [JValue.wellFormed, JValue.wellFormedFields_iff] at h1
        rw [JValue.distinctKeys, Bool.and_eq_true, decide_eq_true_eq] at h2
        have hok : ∀ kv ∈ kvs, ∀ s, (apply s kv.2).2 = true :=
          fun kv hkv => apply_ok kv.2 (h1 kv hkv)
        have hn : ((objBegin s).1.props.map Prod.fst).Nodup := by
          simp only [objBegin]
          split_ifs
          · simp [RawSchema.props]
          · exact hm
        obtain ⟨ps1, hp1, hp2, _⟩ := apply_obj_props s kvs hok h2.1 hn
        show ((apply s (.obj kvs)).1.props.map Prod.fst).Nodup
        rw [props_of_Properties hp1]
        exact hp2
      · have h1 : ∀ kvs, v ≠ .obj kvs := fun kvs e => hobj ⟨kvs, e⟩
        have h2 : ∀ kvs, v ≠ .objCut kvs := by
          intro kvs e
          rw [e] at hv
          simp [JValue.wellFormed] at hv
        show ((apply s v).1.props.map Prod.fst).Nodup
        simp only [RawSchema.props] at hm ⊢
        rw [apply_Properties_of_not_object s v h1 h2]
        exact hm
  have hE : AllNodes (fun n => (n.props.map Prod.fst).Nodup) RawSchema.empty := by
    rw [allNodes_iff]
    refine ⟨?_, ?_, ?_, ?_⟩ <;> simp [RawSchema.empty, RawSchema.props]
  have hseq : ∀ (l : List JValue) (s : RawSchema),
      (∀ v ∈ l, v.wellFormed = true ∧ v.distinctKeys = true) →
      AllNodes (fun n => (n.props.map Prod.fst).Nodup) s →
      AllNodes (fun n => (n.props.map Prod.fst).Nodup) (applySeq s l) := by
    intro l
    induction l with
    | nil => intro s _ hs; exact hs
    | cons v l ih =>
      intro s hl hs
      exact ih _ (fun y hy => hl y (List.mem_cons_of_mem _ hy))
        (hstep v (hl v (List.mem_cons_self _ _)) s hs)
  exact hseq vs _ (fun v hv => ⟨hwf v hv, hkeys v hv⟩) hE

/-! ## Nodes that receive values of one kind -/

theorem applyType_of_unbranched (s : RawSchema) (tt : String) (hO : s.OneOf = [])
    (hT : s.Typ = [] ∨ s.Typ = [tt]) : applyType s tt = s.setTyp [tt] := by
  rcases hT with hT | hT
  · have hh : ¬ hasType s tt = true := by
      rw [hasType_iff, hT, hO]; simp
    rw [applyType, if_neg hh]
    simp [hO, hT]
  · have hh : hasType s tt = true := by
      rw [hasType_iff, hT]; simp
    rw [applyType, if_pos hh]
    cases s
    simp only [RawSchema.Typ_mk] at hT
    simp [hT]

theorem markStep_of_unbranched (c : String) (s : RawSchema) (v : JValue)
    (hs : unbranched c s) (hv : v.wellFormed = true) (hc : v.kind = c) (hn : v.kind ≠ "null") :
    ∃ t, markStep s v = s.setTyp [t] ∧ (t = c ∨ (c = "number" ∧ t = "integer")) := by
  obtain ⟨hO, hT⟩ := hs
  cases v with
  | str x =>
    simp only [JValue.kind] at hc
    subst hc
    refine ⟨"string", ?_, Or.inl rfl⟩
    simp only [markStep]
    apply applyType_of_unbranched s _ hO
    rcases hT with h | h | ⟨h, _⟩
    · exact Or.inl h
    · exact Or.inr h
    · exact absurd h (by decide)
  | bool x =>
    simp only [JValue.kind] at hc
    subst hc
    refine ⟨"boolean", ?_, Or.inl rfl⟩
    simp only [markStep]
    apply applyType_of_unbranched s _ hO
    rcases hT with h | h | ⟨h, _⟩
    · exact Or.inl h
    · exact Or.inr h
    · exact absurd h (by decide)
  | arr x =>
    simp only [JValue.kind] at hc
    subst hc
    refine ⟨"array", ?_, Or.inl rfl⟩
    simp only [markStep]
    apply applyType_of_unbranched s _ hO
    rcases hT with h | h | ⟨h, _⟩
    · exact Or.inl h
    · exact Or.inr h
    · exact absurd h (by decide)
  | obj x =>
    simp only [JValue.kind] at hc
    subst hc
    refine ⟨"object", ?_, Or.inl rfl⟩
    simp only [markStep]
    apply applyType_of_unbranched s _ hO
    rcases hT with h | h | ⟨h, _⟩
    · exact Or.inl h
    · exact Or.inr h
    · exact absurd h (by decide)
  | null => exact absurd rfl hn
  | num b =>
    simp only [JValue.kind] at hc
    subst hc
    cases s with
    | mk T N P R I O =>
      simp only [RawSchema.OneOf_mk] at hO
      simp only [RawSchema.Typ_mk] at hT
      subst hO
      rcases hT with h | h | ⟨_, h⟩ <;> subst h <;> cases b
      · exact ⟨"number", by simp [markStep, hasType, replaceType, replaceTag, replaceInOneOf,
          applyType, RawSchema.ofType], Or.inl rfl⟩
      · exact ⟨"integer", by simp [markStep, hasType, replaceType, replaceTag, replaceInOneOf,
          applyType, RawSchema.ofType], Or.inr ⟨rfl, rfl⟩⟩
      · exact ⟨"number", by simp [markStep, hasType, replaceType, replaceTag, replaceInOneOf,
          applyType, RawSchema.ofType], Or.inl rfl⟩
      · exact ⟨"number", by simp [markStep, hasType, replaceType, replaceTag, replaceInOneOf,
          applyType, RawSchema.ofType], Or.inl rfl⟩
      · exact ⟨"number", by simp [markStep, hasType, replaceType, replaceTag, replaceInOneOf,
          applyType, RawSchema.ofType], Or.inl rfl⟩
      · exact ⟨"integer", by simp [markStep, hasType, replaceType, replaceTag, replaceInOneOf,
          applyType, RawSchema.ofType], Or.inr ⟨rfl, rfl⟩⟩
  | invalid => simp [JValue.wellFormed] at hv
  | badNum => simp [JValue.wellFormed] at hv
  | badStr => simp [JValue.wellFormed] at hv
  | badNull => simp [JValue.wellFormed] at hv
  | badBool => simp [JValue.wellFormed] at hv
  | arrCut xs => simp [JValue.wellFormed] at hv
  | objCut xs => simp [JValue.wellFormed] at hv

/-- The marker update at a node that has not branched, for a value of the
node's kind or `null`: the fields other than the type marker and the nullable
flag are untouched, and the node does not branch. -/
theorem markStep_unbranched (c : String) (s : RawSchema) (v : JValue)
    (hs : unbranched c s) (hv : v.wellFormed = true) (hc : v.kind = "null" ∨ v.kind = c) :
    unbranched c (markStep s v) ∧
      ((markStep s v).Nullable = true ↔ s.Nullable = true ∨ v.kind = "null") ∧
      (markStep s v).Properties = s.Properties ∧
      (markStep s v).Required = s.Required ∧
      (markStep s v).Items = s.Items := by
  by_cases hn : v.kind = "null"
  · have : v = .null := by
      cases v <;> first | rfl | simp [JValue.kind] at hn
    subst this
    refine ⟨?_, ?_, rfl, rfl, rfl⟩
    · exact ⟨hs.1, hs.2⟩
    · simp [markStep, JValue.kind]
  · have hc2 : v.kind = c := hc.resolve_left hn
    obtain ⟨t, e, ht⟩ := markStep_of_unbranched c s v hs hv hc2 hn
    rw [e]
    refine ⟨⟨hs.1, ?_⟩, ?_, rfl, rfl, rfl⟩
    · rcases ht with rfl | ⟨h1, rfl⟩
      · exact Or.inr (Or.inl rfl)
      · exact Or.inr (Or.inr ⟨h1, rfl⟩)
    · simp [hn]

theorem item_congr {s s1 : RawSchema} (h : s1.Items = s.Items) : s1.item = s.item := by
  simp [RawSchema.item, h]

theorem props_congr {s s1 : RawSchema} (h : s1.Properties = s.Properties) :
    s1.props = s.props := by
  simp [RawSchema.props, h]

theorem objBegin_props_of_Properties (s : RawSchema)
    (h : (applyType s "object").Properties = s.Properties) :
    (objBegin s).1.props = s.props := by
  simp only [objBegin]
  split_ifs with h1
  · rw [h] at h1
    cases hp : s.Properties with
    | none => simp [RawSchema.props, hp]
    | some ps => rw [hp] at h1; cases h1
  · exact props_congr h

theorem kind_cases (v : JValue) (hv : v.wellFormed = true) :
    (∃ xs, v = .arr xs) ∨ (∃ kvs, v = .obj kvs) ∨
      (v.elems = [] ∧ v.keys = [] ∧ v.kind ≠ "object" ∧ (∀ k, fieldOf k v = none) ∧
        (∀ xs, v ≠ .arr xs) ∧ (∀ xs, v ≠ .arrCut xs) ∧ (∀ kvs, v ≠ .obj kvs) ∧
        (∀ kvs, v ≠ .objCut kvs)) := by
  cases v with
  | arr xs => exact Or.inl ⟨xs, rfl⟩
  | obj kvs => exact Or.inr (Or.inl ⟨kvs, rfl⟩)
  | str x => right; right; simp [JValue.elems, JValue.keys, JValue.kind, fieldOf]
  | num x => right; right; simp [JValue.elems, JValue.keys, JValue.kind, fieldOf]
  | bool x => right; right; simp [JValue.elems, JValue.keys, JValue.kind, fieldOf]
  | null => right; right; simp [JValue.elems, JValue.keys, JValue.kind, fieldOf]
  | invalid => simp [JValue.wellFormed] at hv
  | badNum => simp [JValue.wellFormed] at hv
  | badStr => simp [JValue.wellFormed] at hv
  | badNull => simp [JValue.wellFormed] at hv
  | badBool => simp [JValue.wellFormed] at hv
  | arrCut xs => simp [JValue.wellFormed] at hv
  | objCut xs => simp [JValue.wellFormed] at hv

/-- One value of the node's kind, or `null`, at a node that has not branched:
what every field of the node is afterwards. -/
theorem apply_unbranched (c : String) (s : RawSchema) (v : JValue)
    (hs : unbranched c s) (hv : v.wellFormed = true) (hc : v.kind = "null" ∨ v.kind = c)
    (hkeys : v.keys.Nodup) (hn : (s.props.map Prod.fst).Nodup) :
    unbranched c (apply s v).1 ∧
      ((apply s v).1.Nullable = true ↔ s.Nullable = true ∨ v.kind = "null") ∧
      ((apply s v).1.Items
        = if v.elems.isEmpty then s.Items else some (some (applySeq s.item v.elems))) ∧
      ((apply s v).1.props.map Prod.fst).Nodup ∧
      (∀ k, (apply s v).1.props.lookup k =
        match fieldOf k v with
        | some x => some (apply ((s.props.lookup k).getD RawSchema.empty) x).1
        | none => s.props.lookup k) ∧
      ((apply s v).1.Properties.isSome = true ↔
        s.Properties.isSome = true ∨ v.kind = "object") ∧
      (∀ k, k ∈ (apply s v).1.Required ↔
        if v.kind = "object" then k ∈ v.keys ∧ (k ∈ s.Required ∨ s.Properties = none)
        else k ∈ s.Required) := by
  obtain ⟨hm1, hm2, hm3, hm4, hm5⟩ := markStep_unbranched c s v hs hv hc
  have hU : unbranched c (apply s v).1 := by
    unfold unbranched
    rw [apply_Typ, apply_OneOf]
    exact hm1
  have hN : (apply s v).1.Nullable = true ↔ s.Nullable = true ∨ v.kind = "null" := by
    rw [apply_Nullable]; exact hm2
  refine ⟨hU, hN, ?_⟩
  rcases kind_cases v hv with ⟨xs, rfl⟩ | ⟨kvs, rfl⟩ | ⟨h1, h2, h3, h4, h5, h6, h7, h8⟩
  · -- an array
    have hok : ∀ x ∈ xs, ∀ s, (apply s x).2 = true := by
      rw [JValue.wellFormed, JValue.wellFormedList_iff] at hv
      exact fun x hx => apply_ok x (hv x hx)
    simp only [markStep] at hm3 hm4 hm5
    have hP : (apply s (.arr xs)).1.Properties = s.Properties := by
      rw [apply_Properties_of_not_object s _ (by simp) (by simp)]; exact hm3
    have hR : (apply s (.arr xs)).1.Required = s.Required := by
      rw [apply_Required_of_not_object s _ (by simp) (by simp)]; exact hm4
    refine ⟨?_, ?_, ?_, ?_, ?_⟩
    · simp only [apply, JValue.elems]
      rw [applyArr_Items xs hok, hm5, item_congr hm5]
    · rw [props_congr hP]; exact hn
    · intro k; rw [props_congr hP]; simp [fieldOf]
    · rw [hP]; simp [JValue.kind]
    · intro k; rw [hR]; simp [JValue.kind]
  · -- an object
    have hok : ∀ kv ∈ kvs, ∀ s, (apply s kv.2).2 = true := by
      rw [JValue.wellFormed, JValue.wellFormedFields_iff] at hv
      exact fun kv hkv => apply_ok kv.2 (hv kv hkv)
    simp only [markStep] at hm3 hm4 hm5
    have hb := objBegin_props_of_Properties s hm3
    obtain ⟨ps1, hp1, hp2, hp3⟩ := apply_obj_props s kvs hok hkeys (by rw [hb]; exact hn)
    refine ⟨?_, ?_, ?_, ?_, ?_⟩
    · rw [apply_Items_of_not_array s _ (by simp) (by simp)]
      simp only [markStep, JValue.elems, List.isEmpty_nil, if_true]
      exact hm5
    · rw [props_of_Properties hp1]; exact hp2
    · intro k
      rw [props_of_Properties hp1, hp3 k, hb]
      rfl
    · rw [hp1]; simp [JValue.kind]
    · intro k
      rw [apply_obj_Required_iff s kvs hok k, hm3, hm4]
      simp [JValue.kind, JValue.keys]
  · -- a string, a number, a boolean or null
    have hP : (apply s v).1.Properties = s.Properties := by
      rw [apply_Properties_of_not_object s _ h7 h8]; exact hm3
    have hR : (apply s v).1.Required = s.Required := by
      rw [apply_Required_of_not_object s _ h7 h8]; exact hm4
    refine ⟨?_, ?_, ?_, ?_, ?_⟩
    · rw [apply_Items_of_not_array s _ h5 h6, h1]
      simpa using hm5
    · rw [props_congr hP]; exact hn
    · intro k; rw [props_congr hP, h4 k]
    · rw [hP]; simp [h3]
    · intro k; rw [hR]; simp [h3]

theorem elemsOf_cons (v : JValue) (vs : List JValue) :
    elemsOf (v :: vs) = v.elems ++ elemsOf vs := by
  simp [elemsOf, List.flatMap_cons]

theorem valuesOf_cons (k : String) (v : JValue) (vs : List JValue) :
    valuesOf k (v :: vs) =
      match fieldOf k v with
      | some x => x :: valuesOf k vs
      | none => valuesOf k vs := by
  simp only [valuesOf, List.filterMap_cons]
  cases fieldOf k v <;> rfl


/-- A sequence of values of one kind, with `null` in between, at a node that
has not branched: what every field of the node is afterwards. -/
theorem applySeq_unbranched (c : String) (vs : List JValue)
    (hwf : ∀ v ∈ vs, v.wellFormed = true)
    (hc : ∀ v ∈ vs, v.kind = "null" ∨ v.kind = c)
    (hkeys : ∀ v ∈ vs, v.keys.Nodup) (s : RawSchema)
    (hs : unbranched c s) (hn : (s.props.map Prod.fst).Nodup) :
    unbranched c (applySeq s vs) ∧
      ((applySeq s vs).Nullable = true ↔ s.Nullable = true ∨ ∃ v ∈ vs, v.kind = "null") ∧
      ((applySeq s vs).Items
        = if (elemsOf vs).isEmpty then s.Items
          else some (some (applySeq s.item (elemsOf vs)))) ∧
      ((applySeq s vs).props.map Prod.fst).Nodup ∧
      (∀ k, (applySeq s vs).props.lookup k =
        if (valuesOf k vs).isEmpty then s.props.lookup k
        else some (applySeq ((s.props.lookup k).getD RawSchema.empty) (valuesOf k vs))) ∧
      ((applySeq s vs).Properties.isSome = true ↔
        s.Properties.isSome = true ∨ ∃ v ∈ vs, v.kind = "object") ∧
      (∀ k, k ∈ (applySeq s vs).Required ↔
        (k ∈ s.Required ∨ (s.Properties = none ∧ ∃ v ∈ vs, v.kind = "object")) ∧
          ∀ v ∈ vs, v.kind = "object" → k ∈ v.keys) := by
  induction vs generalizing s with
  | nil =>
    refine ⟨hs, ?_, ?_, hn, ?_, ?_, ?_⟩ <;> simp [elemsOf, valuesOf]
  | cons v vs ih =>
    obtain ⟨a1, a2, a3, a4, a5, a6, a7⟩ := apply_unbranched c s v hs
      (hwf v (List.mem_cons_self _ _)) (hc v (List.mem_cons_self _ _))
      (hkeys v (List.mem_cons_self _ _)) hn
    obtain ⟨b1, b2, b3, b4, b5, b6, b7⟩ := ih
      (fun y hy => hwf y (List.mem_cons_of_mem _ hy))
      (fun y hy => hc y (List.mem_cons_of_mem _ hy))
      (fun y hy => hkeys y (List.mem_cons_of_mem _ hy)) (apply s v).1 a1 a4
    rw [applySeq_cons]
    refine ⟨b1, ?_, ?_, b4, ?_, ?_, ?_⟩
    · rw [b2, a2]
      simp only [List.mem_cons, exists_eq_or_imp, or_assoc]
    · have hitem : (apply s v).1.item = applySeq s.item v.elems := by
        cases he : v.elems with
        | nil =>
          rw [he] at a3
          simp only [List.isEmpty_nil, if_true] at a3
          rw [item_congr a3]; rfl
        | cons x xs =>
          rw [he] at a3
          simp only [List.isEmpty_cons, Bool.false_eq_true, if_false] at a3
          simp [RawSchema.item, a3]
      rw [b3, elemsOf_cons, hitem]
      cases he2 : elemsOf vs with
      | nil => simp only [List.isEmpty_nil, if_true, List.append_nil, applySeq_nil]; exact a3
      | cons y ys =>
        cases he : v.elems with
        | nil => simp
        | cons x xs => simp [applySeq_append]
    · intro k
      rw [b5 k, a5 k, valuesOf_cons]
      cases hf : fieldOf k v with
      | none => simp
      | some x =>
        simp only [List.isEmpty_cons, Bool.false_eq_true, if_false, applySeq_cons,
          Option.getD_some]
        cases hrest : valuesOf k vs with
        | nil => simp
        | cons w ws => simp
    · rw [b6, a6]
      simp only [List.mem_cons, exists_eq_or_imp, or_assoc]
    · intro k
      rw [b7 k, a7 k]
      simp only [List.mem_cons, exists_eq_or_imp, forall_eq_or_imp]
      by_cases hobj : v.kind = "object"
      · have h1 : (apply s v).1.Properties ≠ none := by
          intro h0
          have := a6.2 (Or.inr hobj)
          rw [h0] at this; cases this
        simp only [hobj, if_true, h1, false_and, or_false, true_or, and_true, true_implies]
        constructor
        · rintro ⟨⟨h2, h3⟩, h4⟩
          exact ⟨h3, h2, h4⟩
        · rintro ⟨h3, h2, h4⟩
          exact ⟨⟨h2, h3⟩, h4⟩
      · have h1 : (apply s v).1.Properties = none ↔ s.Properties = none := by
          have h2 : (apply s v).1.Properties.isSome = true ↔ s.Properties.isSome = true := by
            rw [a6]; simp [hobj]
          cases hp : s.Properties <;> cases hp1 : (apply s v).1.Properties <;>
            simp [hp, hp1] at h2 ⊢
        simp only [hobj, if_false, false_or, false_implies, true_and, h1]

/-! ## Order of arrival: trees that do not depend on it -/

theorem isPlain_wellFormed (v : JValue) (h : v.isPlain = true) : v.wellFormed = true := by
  cases v with
  | arr xs =>
    cases xs with
    | nil => rfl
    | cons x xs => simp [JValue.isPlain] at h
  | str x => rfl
  | num x => rfl
  | bool x => rfl
  | null => simp [JValue.isPlain] at h
  | obj x => simp [JValue.isPlain] at h
  | invalid => simp [JValue.isPlain] at h
  | badNum => simp [JValue.isPlain] at h
  | badStr => simp [JValue.isPlain] at h
  | badNull => simp [JValue.isPlain] at h
  | badBool => simp [JValue.isPlain] at h
  | arrCut xs => simp [JValue.isPlain] at h
  | objCut xs => simp [JValue.isPlain] at h

theorem apply_ofTags_plain (ts : List String) (v : JValue) (hv : v.isPlain = true) :
    (apply (RawSchema.ofTags ts) v).1 = RawSchema.ofTags (tagStep ts v) := by
  cases v with
  | arr xs =>
    cases xs with
    | nil => simp [apply, applyArr, tagStep, applyType_ofTags]
    | cons x xs => simp [JValue.isPlain] at hv
  | str x => exact apply_ofTags ts _ rfl
  | num x => exact apply_ofTags ts _ rfl
  | bool x => exact apply_ofTags ts _ rfl
  | null => simp [JValue.isPlain] at hv
  | obj x => simp [JValue.isPlain] at hv
  | invalid => simp [JValue.isPlain] at hv
  | badNum => simp [JValue.isPlain] at hv
  | badStr => simp [JValue.isPlain] at hv
  | badNull => simp [JValue.isPlain] at hv
  | badBool => simp [JValue.isPlain] at hv
  | arrCut xs => simp [JValue.isPlain] at hv
  | objCut xs => simp [JValue.isPlain] at hv

theorem applySeq_ofTags_plain (vs : List JValue) (hvs : ∀ v ∈ vs, v.isPlain = true)
    (ts : List String) :
    applySeq (RawSchema.ofTags ts) vs = RawSchema.ofTags (vs.foldl tagStep ts) := by
  induction vs generalizing ts with
  | nil => rfl
  | cons v vs ih =>
    rw [applySeq_cons, apply_ofTags_plain ts v (hvs v (List.mem_cons_self _ _)), List.foldl_cons]
    exact ih (fun y hy => hvs y (List.mem_cons_of_mem _ hy)) _

/-- Property lists with the same names in the same order whose children are
the same trees name by name. -/
theorem samePropList_of_lookup (ps qs : List RawProperty)
    (hnames : ps.map Prod.fst = qs.map Prod.fst) (hn : (ps.map Prod.fst).Nodup)
    (hch : ∀ k c d, ps.lookup k = some c → qs.lookup k = some d → SameTree c d) :
    SamePropList ps qs := by
  induction ps generalizing qs with
  | nil =>
    cases qs with
    | nil => exact SamePropList.nil
    | cons q qs => simp at hnames
  | cons p ps ih =>
    cases qs with
    | nil => simp at hnames
    | cons q qs =>
      obtain ⟨k, c⟩ := p
      obtain ⟨k2, d⟩ := q
      simp only [List.map_cons, List.cons.injEq] at hnames
      obtain ⟨rfl, hnames⟩ := hnames
      simp only [List.map_cons, List.nodup_cons] at hn
      refine SamePropList.cons k c d ps qs ?_ (ih qs hnames hn.2 ?_)
      · exact hch k c d (by rw [lookup_cons_pair]; simp) (by rw [lookup_cons_pair]; simp)
      · intro k1 c1 d1 h1 h2
        have hmem : k1 ∈ ps.map Prod.fst :=
          List.mem_map.2 ⟨(k1, c1), mem_of_lookup_eq_some h1, rfl⟩
        have hne : k1 ≠ k := fun e => hn.1 (e ▸ hmem)
        exact hch k1 c1 d1 (by rw [lookup_cons_pair, if_neg hne]; exact h1)
          (by rw [lookup_cons_pair, if_neg hne]; exact h2)

theorem wellFormed_elemsOf (vs : List JValue) (hwf : ∀ v ∈ vs, v.wellFormed = true) :
    ∀ x ∈ elemsOf vs, x.wellFormed = true := by
  intro x hx
  obtain ⟨v, hv, hxv⟩ := List.mem_flatMap.1 hx
  have h := hwf v hv
  cases v with
  | arr xs =>
    rw [JValue.wellFormed, JValue.wellFormedList_iff] at h
    exact h x hxv
  | _ => simp [JValue.elems] at hxv

theorem wellFormed_valuesOf (k : String) (vs : List JValue)
    (hwf : ∀ v ∈ vs, v.wellFormed = true) :
    ∀ x ∈ valuesOf k vs, x.wellFormed = true := by
  intro x hx
  obtain ⟨v, hv, hxv⟩ := List.mem_filterMap.1 hx
  have h := hwf v hv
  cases v with
  | obj kvs =>
    rw [JValue.wellFormed, JValue.wellFormedFields_iff] at h
    exact h (k, x) (mem_of_lookup_eq_some hxv)
  | _ => simp [fieldOf] at hxv

theorem sortedLists_applySeq_empty (vs : List JValue) (hwf : ∀ v ∈ vs, v.wellFormed = true) :
    sortedLists (applySeq RawSchema.empty vs) := by
  have hE : AllNodes sortedLists RawSchema.empty := by
    rw [allNodes_iff]
    refine ⟨?_, ?_, ?_, ?_⟩ <;> simp [sortedLists, RawSchema.empty, RawSchema.props]
  exact allNodes_applySeq_wf sortedLists allNodes_sortedLists_apply vs hwf _ hE _
    (self_mem_nodes _)

mutual
/-- Every tree is the same tree as itself. -/
theorem sameTree_refl : ∀ s : RawSchema, SameTree s s
  | .mk _ _ p _ i o =>
    SameTree.node _ _ rfl rfl rfl (sameProps_refl p) (sameItems_refl i) (sameAlts_refl o)
/-- Reflexivity for property lists that may be nil. -/
theorem sameProps_refl : ∀ p : Option (List (String × RawSchema)), SameProps p p
  | none => SameProps.none
  | some ps => SameProps.some ps ps (samePropList_refl ps)
/-- Reflexivity for property lists. -/
theorem samePropList_refl : ∀ ps : List (String × RawSchema), SamePropList ps ps
  | [] => SamePropList.nil
  | p :: ps => SamePropList.cons p.1 p.2 p.2 ps ps (sameTree_refl_prop p) (samePropList_refl ps)
/-- Reflexivity for the schema of a property. -/
theorem sameTree_refl_prop : ∀ p : String × RawSchema, SameTree p.2 p.2
  | (_, c) => sameTree_refl c
/-- Reflexivity for `Items`. -/
theorem sameItems_refl : ∀ i : Option (Option RawSchema), SameItems i i
  | none => SameItems.none
  | some i => sameItems_refl_item i
/-- Reflexivity for `Items.Item`. -/
theorem sameItems_refl_item : ∀ i : Option RawSchema, SameItems (some i) (some i)
  | none => SameItems.noItem
  | some c => SameItems.item c c (sameTree_refl c)
/-- Reflexivity for lists of alternatives. -/
theorem sameAlts_refl : ∀ o : List RawSchema, SameAlts o o
  | [] => SameAlts.nil
  | a :: l => SameAlts.cons a a l [] l (sameTree_refl a) (sameAlts_refl l)
end

/-- Two sequences that deliver to every node the same values in the same
order, or permuted values none of which makes the node branch while it holds a
nullable flag, an item schema or properties, build the same tree. -/
theorem sameTree_of_agree (vs ws : List JValue) (ha : Agree vs ws) :
    (∀ v ∈ vs, v.wellFormed = true) →
      SameTree (applySeq RawSchema.empty vs) (applySeq RawSchema.empty ws) := by
  induction ha with
  | same vs =>
    intro _
    exact sameTree_refl _
  | plain vs ws hp h =>
    intro hwf
    have h2 : ∀ v ∈ ws, v.isPlain = true := fun v hv => h v (hp.mem_iff.2 hv)
    have e1 : applySeq RawSchema.empty vs = RawSchema.ofTags (vs.foldl tagStep []) :=
      applySeq_ofTags_plain vs h []
    have e2 : applySeq RawSchema.empty ws = RawSchema.ofTags (ws.foldl tagStep []) :=
      applySeq_ofTags_plain ws h2 []
    rw [e1, e2]
    exact sameTree_ofTags (foldl_tagStep_perm hp hwf)
  | oneKind vs ws c hp h hkeys he hk ihe ihk =>
    intro hwf
    have hwf2 : ∀ v ∈ ws, v.wellFormed = true := fun v hv => hwf v (hp.mem_iff.2 hv)
    have hE : unbranched c RawSchema.empty := ⟨rfl, Or.inl rfl⟩
    have hnE : (RawSchema.empty.props.map Prod.fst).Nodup := by
      simp [RawSchema.empty, RawSchema.props]
    obtain ⟨f1, f2, f3, f4, f5, f6, f7⟩ := applySeq_unbranched c vs hwf h hkeys _ hE hnE
    obtain ⟨g1, g2, g3, g4, g5, g6, g7⟩ := applySeq_unbranched c ws hwf2
      (fun v hv => h v (hp.mem_iff.2 hv)) (fun v hv => hkeys v (hp.mem_iff.2 hv)) _ hE hnE
    have hpe : (elemsOf vs).Perm (elemsOf ws) := hp.flatMap_right _
    have hpk : ∀ k, (valuesOf k vs).Perm (valuesOf k ws) := fun k => hp.filterMap _
    have hs1 := sortedLists_applySeq_empty vs hwf
    have hs2 := sortedLists_applySeq_empty ws hwf2
    unfold sortedLists at hs1 hs2
    have htp : (applySeq RawSchema.empty vs).tags.Perm (applySeq RawSchema.empty ws).tags := by
      rw [tags_applySeq, tags_applySeq]
      exact foldl_tagStep_perm hp hwf
    generalize applySeq RawSchema.empty vs = r1 at f1 f2 f3 f4 f5 f6 f7 hs1 htp
    generalize applySeq RawSchema.empty ws = r2 at g1 g2 g3 g4 g5 g6 g7 hs2 htp
    refine SameTree.node r1 r2 ?_ ?_ ?_ ?_ ?_ ?_
    · -- the type marker
      simp only [RawSchema.tags, f1.1, g1.1, List.flatMap_nil, List.append_nil] at htp
      rcases f1.2 with e | e | ⟨_, e⟩
      · rw [e] at htp ⊢
        exact htp.nil_eq
      · rw [e] at htp ⊢
        exact (List.perm_singleton.1 htp.symm).symm
      · rw [e] at htp ⊢
        exact (List.perm_singleton.1 htp.symm).symm
    · -- the nullable flag
      rw [Bool.eq_iff_iff, f2, g2]
      simp only [RawSchema.empty, RawSchema.Nullable_mk, hp.mem_iff]
    · -- the required list
      have hperm : r1.Required.Perm r2.Required := by
        rw [List.perm_ext_iff_of_nodup hs1.2.nodup hs2.2.nodup]
        intro k
        rw [f7 k, g7 k]
        simp only [hp.mem_iff]
      exact List.eq_of_perm_of_sorted hperm hs1.2 hs2.2
    · -- the properties
      have hiff : r1.Properties.isSome = true ↔ r2.Properties.isSome = true := by
        rw [f6, g6]; simp only [hp.mem_iff]
      cases hp1 : r1.Properties with
      | none =>
        cases hp2 : r2.Properties with
        | none => exact SameProps.none
        | some qs => rw [hp1, hp2] at hiff; simp at hiff
      | some ps =>
        cases hp2 : r2.Properties with
        | none => rw [hp1, hp2] at hiff; simp at hiff
        | some qs =>
          have e1 : r1.props = ps := props_of_Properties hp1
          have e2 : r2.props = qs := props_of_Properties hp2
          rw [e1] at f4 f5 hs1
          rw [e2] at g4 g5 hs2
          have hl1 : ∀ k, ps.lookup k = if (valuesOf k vs).isEmpty then none
              else some (applySeq RawSchema.empty (valuesOf k vs)) := by
            intro k; rw [f5 k]; simp [RawSchema.empty, RawSchema.props]
          have hl2 : ∀ k, qs.lookup k = if (valuesOf k ws).isEmpty then none
              else some (applySeq RawSchema.empty (valuesOf k ws)) := by
            intro k; rw [g5 k]; simp [RawSchema.empty, RawSchema.props]
          have hemp : ∀ k, (valuesOf k vs).isEmpty = (valuesOf k ws).isEmpty := by
            intro k
            have := (hpk k).length_eq
            cases h1 : valuesOf k vs <;> cases h2 : valuesOf k ws <;> simp [h1, h2] at this ⊢
          have hnames : ps.map Prod.fst = qs.map Prod.fst := by
            apply List.eq_of_perm_of_sorted _ hs1.1 hs2.1
            rw [List.perm_ext_iff_of_nodup f4 g4]
            intro k
            have a := lookup_eq_none_iff_not_mem ps k
            have b := lookup_eq_none_iff_not_mem qs k
            rw [hl1 k] at a
            rw [hl2 k, ← hemp k] at b
            by_cases hemp1 : (valuesOf k vs).isEmpty = true
            · simp only [hemp1, if_true, true_iff] at a b
              exact ⟨fun x => absurd x a, fun x => absurd x b⟩
            · simp only [hemp1, if_false, false_iff, not_not, reduceCtorEq] at a b
              exact ⟨fun _ => b, fun _ => a⟩
          refine SameProps.some ps qs (samePropList_of_lookup ps qs hnames f4 ?_)
          intro k c1 d1 h1 h2
          rw [hl1 k] at h1
          rw [hl2 k, ← hemp k] at h2
          by_cases hemp1 : (valuesOf k vs).isEmpty = true
          · simp [hemp1] at h1
          · simp only [hemp1, if_false, Option.some.injEq, Bool.false_eq_true] at h1 h2
            rw [← h1, ← h2]
            exact ihk k (wellFormed_valuesOf k vs hwf)
    · -- the item schema
      rw [f3, g3]
      have hemp : (elemsOf vs).isEmpty = (elemsOf ws).isEmpty := by
        have := hpe.length_eq
        cases h1 : elemsOf vs <;> cases h2 : elemsOf ws <;> simp [h1, h2] at this ⊢
      rw [← hemp]
      by_cases hemp1 : (elemsOf vs).isEmpty = true
      · simp only [hemp1, if_true]
        exact SameItems.none
      · simp only [hemp1, if_false, Bool.false_eq_true]
        exact SameItems.item _ _ (ihe (wellFormed_elemsOf vs hwf))
    · -- the alternatives
      rw [f1.1, g1.1]
      exact SameAlts.nil

/-- C2, amended. Two sequences of well-formed JSON values that are
permutations of each other are both accepted by a fresh engine of their own,
and the two roots carry the same type tags, as own marker or as alternative.
The two root trees are moreover structurally identical up to the order of the
alternatives in each union branch list, unless some node receives, in two
different orders, values of two kinds next to a `null`, a non-empty array or an
object. That is, they are identical whenever the values that reach each node
(the sequence itself at the root, the elements of the arrays at the item
schema, the values of a key at its property) arrive in the same order in both
runs, or are strings, booleans, numbers and empty arrays only, or are, apart
from `null`, all of one kind, objects having pairwise distinct keys. -/
theorem order_independent_unless_a_node_mixes (vs ws : List JValue) (h : vs.Perm ws)
    (hwf : ∀ v ∈ vs, v.wellFormed = true) :
    ∃ i j, Infer.fresh.applyAll vs = some i ∧ Infer.fresh.applyAll ws = some j ∧
      (∀ tt, hasType i.Target tt = hasType j.Target tt) ∧
      (Agree vs ws → SameTree i.Target j.Target) := by
  have hwf2 : ∀ v ∈ ws, v.wellFormed = true := fun v hv => hwf v (h.mem_iff.2 hv)
  refine ⟨⟨applySeq RawSchema.empty vs⟩, ⟨applySeq RawSchema.empty ws⟩,
    applyAll_eq vs hwf _, applyAll_eq ws hwf2 _, ?_, ?_⟩
  · intro tt
    have hp := foldl_tagStep_perm h hwf
    have e1 : (applySeq RawSchema.empty vs).tags = vs.foldl tagStep [] := tags_applySeq vs _
    have e2 : (applySeq RawSchema.empty ws).tags = ws.foldl tagStep [] := tags_applySeq ws _
    have hiff : hasType (applySeq RawSchema.empty vs) tt = true ↔
        hasType (applySeq RawSchema.empty ws) tt = true := by
      rw [← mem_tags, ← mem_tags, e1, e2]
      exact hp.mem_iff
    simp only [Infer.Target]
    cases h1 : hasType (applySeq RawSchema.empty vs) tt <;>
      cases h2 : hasType (applySeq RawSchema.empty ws) tt <;> simp_all
  · intro ha
    exact sameTree_of_agree vs ws ha hwf

theorem order_independent_unless_a_node_mixes_witness :
    ∃ i j,
      Infer.fresh.applyAll
        [.obj [("a", .num true), ("b", .arr [.null, .num true, .str "x"])], .null,
          .obj [("c", .arr [.str "y", .null]), ("a", .bool true)],
          .obj [("c", .arr []), ("a", .num false)]] = some i ∧
      Infer.fresh.applyAll
        [.obj [("c", .arr []), ("a", .num false)],
          .obj [("a", .num true), ("b", .arr [.null, .num true, .str "x"])], .null,
          .obj [("c", .arr [.str "y", .null]), ("a", .bool true)]] = some j ∧
      (∀ tt, hasType i.Target tt = hasType j.Target tt) ∧
      SameTree i.Target j.Target := by
  have hperm : List.Perm
      [JValue.obj [("a", .num true), ("b", .arr [.null, .num true, .str "x"])], JValue.null,
        JValue.obj [("c", .arr [.str "y", .null]), ("a", .bool true)],
        JValue.obj [("c", .arr []), ("a", .num false)]]
      [JValue.obj [("c", .arr []), ("a", .num false)],
        JValue.obj [("a", .num true), ("b", .arr [.null, .num true, .str "x"])], JValue.null,
        JValue.obj [("c", .arr [.str "y", .null]), ("a", .bool true)]] :=
    @List.perm_append_comm _
      [JValue.obj [("a", .num true), ("b", .arr [.null, .num true, .str "x"])], JValue.null,
        JValue.obj [("c", .arr [.str "y", .null]), ("a", .bool true)]]
      [JValue.obj [("c", .arr []), ("a", .num false)]]
  obtain ⟨i, j, h1, h2, h3, h4⟩ := order_independent_unless_a_node_mixes
    [.obj [("a", .num true), ("b", .arr [.null, .num true, .str "x"])], .null,
      .obj [("c", .arr [.str "y", .null]), ("a", .bool true)],
      .obj [("c", .arr []), ("a", .num false)]]
    [.obj [("c", .arr []), ("a", .num false)],
      .obj [("a", .num true), ("b", .arr [.null, .num true, .str "x"])], .null,
      .obj [("c", .arr [.str "y", .null]), ("a", .bool true)]]
    hperm
    (by
      intro v hv
      simp only [List.mem_cons, List.mem_singleton, List.not_mem_nil, or_false] at hv
      rcases hv with rfl | rfl | rfl | rfl <;> rfl)
  refine ⟨i, j, h1, h2, h3, h4 ?_⟩
  refine Agree.oneKind _ _ "object" hperm ?_ ?_ ?_ ?_
  · intro v hv
    simp only [List.mem_cons, List.mem_singleton, List.not_mem_nil, or_false] at hv
    rcases hv with rfl | rfl | rfl | rfl <;> simp [JValue.kind]
  · intro v hv
    simp only [List.mem_cons, List.mem_singleton, List.not_mem_nil, or_false] at hv
    rcases hv with rfl | rfl | rfl | rfl <;> simp [JValue.keys]
  · exact Agree.same _
  · intro k
    by_cases ha : k = "a"
    · subst ha
      refine Agree.plain _ _ ?_ ?_
      · exact @List.perm_append_comm _ [JValue.num true, JValue.bool true] [JValue.num false]
      · simp [valuesOf, fieldOf, List.lookup, JValue.isPlain]
    by_cases hb : k = "b"
    · subst hb
      exact Agree.same _
    by_cases hc : k = "c"
    · subst hc
      refine Agree.oneKind _ _ "array" ?_ ?_ ?_ ?_ ?_
      · exact @List.perm_append_comm _ [JValue.arr [.str "y", .null]] [JValue.arr []]
      · simp [valuesOf, fieldOf, List.lookup, JValue.kind]
      · simp [valuesOf, fieldOf, List.lookup, JValue.keys]
      · exact Agree.same _
      · intro k2
        exact Agree.same _
    · have e1 : valuesOf k
          [JValue.obj [("a", .num true), ("b", .arr [.null, .num true, .str "x"])], JValue.null,
            JValue.obj [("c", .arr [.str "y", .null]), ("a", .bool true)],
            JValue.obj [("c", .arr []), ("a", .num false)]] = [] := by
        simp [valuesOf, fieldOf, lookup_cons_pair, ha, hb, hc]
      have e2 : valuesOf k
          [JValue.obj [("c", .arr []), ("a", .num false)],
            JValue.obj [("a", .num true), ("b", .arr [.null, .num true, .str "x"])],
            JValue.null,
            JValue.obj [("c", .arr [.str "y", .null]), ("a", .bool true)]] = [] := by
        simp [valuesOf, fieldOf, lookup_cons_pair, ha, hb, hc]
      rw [e1, e2]
      exact Agree.same _
